import Mathlib

/-!
# boost::units2 — a shallow embedding of the compile-time unit algebra

The library computes with C++ types.  A type is embedded as a value of an
inductive type, a metafunction as a function on those values, and a rejected
instantiation (a failed `static_assert`, a missing specialisation) as `none`.

Sources: `include/boost/units2/detail/merge.hpp`, `include/boost/units2/unit.hpp`,
`include/boost/units2/def.hpp`, `include/boost/units2/absolute.hpp`,
`include/boost/units2/temperature.hpp`, `test/test_unit.cpp`.
-/

namespace Units2

/-! ## `std::ratio` -/

/-- The type `std::ratio<N, D>`: the two template arguments as written. -/
structure Ratio where
  N : Int
  D : Int
deriving DecidableEq, Repr

namespace Ratio

/-- Sign of an integer, as used by `std::ratio` to normalise. -/
def sgn (x : Int) : Int := if x < 0 then -1 else if x = 0 then 0 else 1

/-- The static member `std::ratio<N, D>::num`: `sign(N) * sign(D) * |N| / gcd(N, D)`. -/
def num (r : Ratio) : Int :=
  sgn r.N * sgn r.D * (Int.natAbs r.N : Int) / (Int.gcd r.N r.D : Int)

/-- The static member `std::ratio<N, D>::den`: `|D| / gcd(N, D)`. -/
def den (r : Ratio) : Int :=
  (Int.natAbs r.D : Int) / (Int.gcd r.N r.D : Int)

/-- The member typedef `std::ratio<N, D>::type`, which is `std::ratio<num, den>`. -/
def type (r : Ratio) : Ratio := ⟨r.num, r.den⟩

/-- The rational number a ratio type denotes. -/
def value (r : Ratio) : ℚ := (r.N : ℚ) / (r.D : ℚ)

/-- A ratio type is reduced when its arguments are its own `num` and `den`
with a positive denominator. -/
def Reduced (r : Ratio) : Prop := 0 < r.D ∧ Int.gcd r.N r.D = 1

instance (r : Ratio) : Decidable r.Reduced := by
  unfold Reduced; exact inferInstance

end Ratio

/-- The alias `std::ratio_add<R1, R2>`. -/
def ratio_add (a b : Ratio) : Ratio :=
  Ratio.type ⟨a.num * b.den + b.num * a.den, a.den * b.den⟩

/-- The alias `std::ratio_multiply<R1, R2>`. -/
def ratio_multiply (a b : Ratio) : Ratio :=
  Ratio.type ⟨a.num * b.num, a.den * b.den⟩

/-- The alias `std::ratio_divide<R1, R2>`. -/
def ratio_divide (a b : Ratio) : Ratio :=
  Ratio.type ⟨a.num * b.den, a.den * b.num⟩

/-- The value of `std::ratio_less<R1, R2>`. -/
def ratio_less (a b : Ratio) : Bool :=
  decide (a.num * b.den < b.num * a.den)

/-! ## `detail/merge.hpp` -/

/-- The template `dim<B, E>`: a base with its exponent. -/
abbrev Dim (α : Type) := α × Ratio

/-- The recursion of `merge_recurse`, counted down on the number of elements
still to be read; `merge_recurse` supplies the count.

* `merge_recurse_impl<false, false>` returns `L<R...>`;
* `merge_recurse_impl<true, false>` and `<false, true>` append the rest;
* `merge_recurse_impl<true, true>` instantiates `merge_impl<Cmp<...>::value>`:
  `merge_impl<1>` copies the head of `U`, `merge_impl<-1>` the head of `T`,
  `merge_impl<0>` adds the exponents and `merge_combine_impl` drops the pair
  when the sum has `num == 0`.  `merge_impl` has no other specialisation. -/
def merge_recurse_steps {α : Type} (Cmp : α → α → Option Int) :
    Nat → List (Dim α) → List (Dim α) → List (Dim α) → Option (List (Dim α))
  | _, [], [], R => some R
  | _, t :: T, [], R => some (R ++ t :: T)
  | _, [], u :: U, R => some (R ++ u :: U)
  | 0, _ :: _, _ :: _, _ => none
  | n + 1, t :: T, u :: U, R =>
    if Cmp t.1 u.1 = some 1 then merge_recurse_steps Cmp n (t :: T) U (R ++ [u])
    else if Cmp t.1 u.1 = some (-1) then merge_recurse_steps Cmp n T (u :: U) (R ++ [t])
    else if Cmp t.1 u.1 = some 0 then
      if (ratio_add t.2 u.2).num = 0 then merge_recurse_steps Cmp n T U R
      else merge_recurse_steps Cmp n T U (R ++ [(t.1, ratio_add t.2 u.2)])
    else none

/-- The alias `merge_recurse<Cmp, L, T, U, R...>`. -/
def merge_recurse {α : Type} (Cmp : α → α → Option Int)
    (T U R : List (Dim α)) : Option (List (Dim α)) :=
  merge_recurse_steps Cmp (T.length + U.length) T U R

/-- The alias `merge<Cmp, L, T, U>`. -/
def merge {α : Type} (Cmp : α → α → Option Int) (T U : List (Dim α)) :
    Option (List (Dim α)) :=
  merge_recurse Cmp T U []

/-! ## `unit.hpp`: the shapes of units -/

/-- A scale of a `scaled_unit`: a `std::ratio`, or a class `id` derived from
`scale_base` whose static `value()` returns a `double`; `value` is the number
that `double` holds. -/
inductive Scale where
  | ratio (r : Ratio)
  | computed (id : String) (value : ℚ)
deriving DecidableEq

/-- The unit types.

* `fundamental id name`: `BOOST_UNITS2_DEF(id)` or `BOOST_UNITS2_DEF(id, "name")`,
  a struct `id_t` derived from `unit_base<id_t>`;
* `derived id name defn`: `BOOST_UNITS2_DEF(id, ..., expr)`, a struct `id_t`
  derived from the type `defn` of `expr`;
* `scaled base scale`: `scaled_unit<Base, Scale>`;
* `compound ps`: `compound_unit<dim<B, E>...>`;
* `absolute unit offset`: `absolute_unit<Unit, Offset>` of `absolute.hpp`.

Two struct types are the same type when they are the same struct, which the
embedding reads as equality of these values. -/
inductive U where
  | fundamental (id : String) (name : String)
  | derived (id : String) (name : String) (defn : U)
  | scaled (base : U) (scale : Scale)
  | compound (ps : List (U × Ratio))
  | absolute (unit : U) (offset : Ratio)

mutual
/-- Boolean test of type identity (`std::is_same`). -/
def U.beq : U → U → Bool
  | .fundamental i n, .fundamental j m => decide (i = j) && decide (n = m)
  | .derived i n d, .derived j m e => decide (i = j) && decide (n = m) && U.beq d e
  | .scaled b s, .scaled c t => U.beq b c && decide (s = t)
  | .compound ps, .compound qs => U.beqDims ps qs
  | .absolute u o, .absolute v p => U.beq u v && decide (o = p)
  | _, _ => false
/-- Boolean test of identity of two packs of `dim`. -/
def U.beqDims : List (U × Ratio) → List (U × Ratio) → Bool
  | [], [] => true
  | (a, e) :: ps, (b, f) :: qs => U.beq a b && decide (e = f) && U.beqDims ps qs
  | _, _ => false
end

mutual
theorem U.beq_iff : ∀ (a b : U), U.beq a b = true ↔ a = b
  | .fundamental i n, b => by cases b <;> simp [U.beq]
  | .derived i n d, b => by
      cases b <;> simp [U.beq]
      rename_i j m e
      rw [U.beq_iff d e]; tauto
  | .scaled x s, b => by
      cases b <;> simp [U.beq]
      rename_i c t
      rw [U.beq_iff x c]; tauto
  | .compound ps, b => by
      cases b <;> simp [U.beq]
      rename_i qs
      exact U.beqDims_iff ps qs
  | .absolute u o, b => by
      cases b <;> simp [U.beq]
      rename_i v p
      rw [U.beq_iff u v]; tauto
theorem U.beqDims_iff : ∀ (ps qs : List (U × Ratio)), U.beqDims ps qs = true ↔ ps = qs
  | [], [] => by simp [U.beqDims]
  | [], _ :: _ => by simp [U.beqDims]
  | _ :: _, [] => by simp [U.beqDims]
  | (a, e) :: ps, (b, f) :: qs => by
      simp [U.beqDims, U.beq_iff a b, U.beqDims_iff ps qs]
end

instance : DecidableEq U := fun a b =>
  decidable_of_iff _ (U.beq_iff a b)

/-- The static member `name` that `BOOST_UNITS2_DEF` declares; the class
templates `scaled_unit`, `compound_unit` and `absolute_unit` have none. -/
def U.name? : U → Option String
  | .fundamental _ n => some n
  | .derived _ n _ => some n
  | _ => none

/-- A string literal as the values of the characters before its first NUL,
which is where a `const char *` reader stops. -/
def cstr (s : String) : List Nat :=
  (s.toList.map Char.toNat).takeWhile (fun c => c ≠ 0)

/-- The function `const_strcmp(lhs, rhs)`; the empty list is a pointer at
the terminating NUL. -/
def const_strcmp : List Nat → List Nat → Int
  | [], [] => 0
  | [], _ :: _ => -1
  | _ :: _, [] => 1
  | a :: lhs, b :: rhs =>
    if a = b then const_strcmp lhs rhs else if a < b then -1 else 1

/-- The member `scale_compare<T, U>::value`.  The primary template (neither
argument a `std::ratio`) is written `T::value() < U::value ? ...`; the
embedding reads the second operand as the call `U::value()`. -/
def scale_compare : Scale → Scale → Option Int
  | .ratio a, .ratio b =>
    some (if ratio_less a b then -1 else if ratio_less b a then 1 else 0)
  | .computed _ _, .ratio _ => some 1
  | .ratio _, .computed _ _ => some (-1)
  | .computed _ v, .computed _ w =>
    some (if v < w then -1 else if v > w then 1 else 0)

/-- The value of `expr ? 1 : 0` for the `bool` that the scaled comparison
yields where an `int` is expected. -/
def boolToInt (b : Bool) : Int := if b then 1 else 0

mutual
/-- The member `unit_compare_impl<T, U>::value`, with `none` where the
instantiation is rejected (the `static_assert` of the primary template, or
a type without `name`). -/
def unit_compare_impl : U → U → Option Int
  | .compound ps, .compound qs => unit_compare_compound ps qs
  | .scaled b1 e1, .scaled b2 e2 =>
    match unit_compare_impl b1 b2 with
    | none => none
    | some c => if c ≠ 0 then some (boolToInt (decide (c ≠ 0))) else scale_compare e1 e2
  | .compound _, _ => some 1
  | _, .compound _ => some (-1)
  | _, .scaled _ _ => some (-1)
  | .scaled _ _, _ => some 1
  | T, V =>
    match T.name?, V.name? with
    | some n, some m =>
      if T = V ∨ const_strcmp (cstr n) (cstr m) ≠ 0 then
        some (const_strcmp (cstr n) (cstr m))
      else none
    | _, _ => none
/-- The specialisations of `unit_compare_impl` for two `compound_unit`s. -/
def unit_compare_compound : List (U × Ratio) → List (U × Ratio) → Option Int
  | [], [] => some 0
  | _ :: _, [] => some 1
  | [], _ :: _ => some (-1)
  | (tb, te) :: T, (ub, ue) :: V =>
    if tb = ub ∧ te = ue then unit_compare_compound T V
    else
      match unit_compare_impl tb ub with
      | none => none
      | some c => if c ≠ 0 then some c else some (if ratio_less te ue then -1 else 1)
end

/-- The alias `compound_unit_multiply<T, U>`, on the packs of the two
`compound_unit`s. -/
def compound_unit_multiply (T V : List (U × Ratio)) : Option (List (U × Ratio)) :=
  merge unit_compare_impl T V

/-- The alias `as_compound_unit<T>`, as the pack of the `compound_unit`. -/
def as_compound_unit : U → List (U × Ratio)
  | .compound ps => ps
  | T => [(T, ⟨1, 1⟩)]

/-- The alias `simplify_unit<T>`. -/
def simplify_unit : U → U
  | .compound [(T, e)] => if e = ⟨1, 1⟩ then T else .compound [(T, e)]
  | .scaled (.scaled T (.ratio r1)) (.ratio r2) =>
    if r2 = ⟨1, 1⟩ then .scaled T (.ratio r1)
    else
      if (ratio_multiply r1 r2).num = 1 ∧ (ratio_multiply r1 r2).den = 1 then T
      else .scaled T (.ratio (ratio_multiply r1 r2))
  | .scaled T (.ratio r) => if r = ⟨1, 1⟩ then T else .scaled T (.ratio r)
  | T => T

/-- The alias `unit_multiply<T, U>`. -/
def unit_multiply (T V : U) : Option U :=
  (compound_unit_multiply (as_compound_unit T) (as_compound_unit V)).map
    (fun ps => simplify_unit (.compound ps))

/-- The template `unit_pow_impl<compound_unit<dim<T, E>...>, R>`, on packs. -/
def unit_pow_impl (ps : List (U × Ratio)) (R : Ratio) : List (U × Ratio) :=
  if R = ⟨0, 1⟩ then [] else ps.map (fun p => (p.1, ratio_multiply p.2 R))

/-- The alias `unit_pow<T, E>`. -/
def unit_pow (T : U) (E : Ratio) : U :=
  simplify_unit (.compound (unit_pow_impl (as_compound_unit T) E))

/-- The alias `unit_divide<T, U>`. -/
def unit_divide (T V : U) : Option U :=
  unit_multiply T (unit_pow V ⟨-1, 1⟩)

/-! ## `unit.hpp`: conversion support -/

/-- The alias `scale_list_pow<T, E>`, on the pack of the `scale_list`. -/
def scale_list_pow (T : List (Dim Scale)) (R : Ratio) : List (Dim Scale) :=
  T.map (fun p => (p.1, ratio_multiply p.2 R))

/-- The alias `scale_list_multiply<T, U>`. -/
def scale_list_multiply (T V : List (Dim Scale)) : Option (List (Dim Scale)) :=
  merge scale_compare T V

/-- The alias `boost::mp11::mp_fold<L, V, F>`: `F<... F<F<V, T1>, T2> ..., Tn>`. -/
def mp_fold {β γ : Type} (F : γ → β → Option γ) : List β → γ → Option γ
  | [], V => some V
  | T1 :: L, V =>
    match F V T1 with
    | none => none
    | some W => mp_fold F L W

mutual
/-- The alias `flatten_scale<T>`, that is `visit<flatten_scale_impl, T>`.

`visit` is written with the member name `_boost_units_apply2`; the units
declare `_boost_units2_apply`, and this definition dispatches on the declared
member (a struct made by `BOOST_UNITS2_DEF` inherits it from its base class):
it describes the header with that name put right.  `Written.flatten_scale`
follows the text.  `flatten_scale_impl` has no `apply_absolute`. -/
def flatten_scale : U → Option (List (Dim Scale))
  | .fundamental _ _ => some []
  | .derived _ _ d => flatten_scale d
  | .scaled Base Scale =>
    match flatten_scale Base with
    | none => none
    | some fb => scale_list_multiply fb [(Scale, ⟨1, 1⟩)]
  | .compound ps =>
    match flatten_scale_pack ps with
    | none => none
    | some L => mp_fold scale_list_multiply L []
  | .absolute _ _ => none
/-- The pack expansion
`scale_list_pow<flatten_scale<typename T::base>, typename T::exponent>...`. -/
def flatten_scale_pack : List (U × Ratio) → Option (List (List (Dim Scale)))
  | [] => some []
  | (b, e) :: ps =>
    match flatten_scale b, flatten_scale_pack ps with
    | some fb, some L => some (scale_list_pow fb e :: L)
    | _, _ => none
end

mutual
/-- The alias `dimension_check<T>`, that is `visit<dimension_check_impl, T>`
(with `visit` taken as the declared member, see `flatten_scale`;
`Written.dimension_check` follows the text).  For a struct made by `BOOST_UNITS2_DEF`
that reaches `apply_base`, `T::_boost_units2_type` is the struct at the root
of its chain of base classes.  `dimension_check_impl` has no `apply_absolute`. -/
def dimension_check : U → Option U
  | .fundamental i n => some (.fundamental i n)
  | .derived _ _ d => dimension_check d
  | .scaled Base _ => dimension_check Base
  | .compound ps =>
    match dimension_check_pack ps with
    | none => none
    | some L => mp_fold unit_multiply L (.compound [])
  | .absolute _ _ => none
/-- The pack expansion
`unit_pow<dimension_check<typename T::base>, typename T::exponent>...`. -/
def dimension_check_pack : List (U × Ratio) → Option (List U)
  | [] => some []
  | (b, e) :: ps =>
    match dimension_check b, dimension_check_pack ps with
    | some db, some L => some (unit_pow db e :: L)
    | _, _ => none
end

/-- The types that `fold_conversion` computes with: a `std::ratio`, a scale
class, `multiplier<T, U>` and `power<B, E>`. -/
inductive Val where
  | ratio (r : Ratio)
  | scale (id : String) (value : ℚ)
  | multiplier (T V : Val)
  | power (B : Scale) (E : Ratio)
deriving DecidableEq

/-- A scale as a type that `get_value` accepts. -/
def Scale.toVal : Scale → Val
  | .ratio r => .ratio r
  | .computed i v => .scale i v

/-- The constant `std::numeric_limits<long long>::max()`. -/
def LLONG_MAX : Int := 9223372036854775807

/-- The constant `std::numeric_limits<long long>::min()`. -/
def LLONG_MIN : Int := -9223372036854775808

/-- A `long long` result inside a constant expression: a value outside the
range is signed overflow, which is not a constant expression. -/
def checked (x : Int) : Option Int :=
  if LLONG_MIN ≤ x ∧ x ≤ LLONG_MAX then some x else none

/-- The function `safe_multiply(lhs, rhs)`; a division by zero is not a
constant expression. -/
def safe_multiply (lhs rhs : Int) : Option Int :=
  if lhs = 0 then none
  else if Int.tdiv LLONG_MAX lhs ≥ rhs then checked (lhs * rhs) else some 0

/-- The function `safe_square(arg)`. -/
def safe_square (arg : Int) : Option Int := safe_multiply arg arg

/-- The recursion of `safe_power`, counted down on the depth of the calls. -/
def safe_power_steps : Nat → Int → Int → Option Int
  | 0, _, _ => none
  | n + 1, base, exponent =>
    if exponent = 1 then some base
    else
      match safe_power_steps n base (Int.tdiv exponent 2) with
      | none => none
      | some p =>
        match safe_square p with
        | none => none
        | some s => safe_multiply s (if Int.tmod exponent 2 ≠ 0 then base else 1)

/-- The function `safe_power(base, exponent)`.  The depth of the calls is
at most `exponent` when `exponent ≥ 1`; for `exponent ≤ 0` the recursion
never reaches `exponent == 1` and there is no result. -/
def safe_power (base exponent : Int) : Option Int :=
  safe_power_steps exponent.toNat base exponent

/-- The member `safe_ratio_pow<B, E>::type`. -/
def safe_ratio_pow (B : Ratio) (E : Int) : Option Ratio :=
  let abs_exponent : Int := if E < 0 then -E else E
  match safe_power (if E < 0 then B.den else B.num) abs_exponent,
        safe_power (if E < 0 then B.num else B.den) abs_exponent with
  | some num, some den =>
    let overflow : Bool := num == 0 || den == 0
    some ⟨if overflow then 0 else num, if overflow then 1 else den⟩
  | _, _ => none

/-- The value of `a / b` on `long long`; division by zero is not a constant
expression. -/
def cdiv (a b : Int) : Option Int := if b = 0 then none else some (Int.tdiv a b)

/-- The member `safe_ratio_multiply<T, U>::overflow`, with the short circuit
of `||`. -/
def safe_ratio_multiply_overflow (T V : Ratio) : Option Bool :=
  let gcd1 : Int := Int.gcd T.num V.den
  let gcd2 : Int := Int.gcd V.num T.den
  match cdiv T.num gcd1, cdiv V.num gcd2 with
  | some a, some b =>
    match cdiv LLONG_MAX a with
    | none => none
    | some q =>
      if q > b then some true
      else
        match cdiv T.den gcd1, cdiv V.den gcd1 with
        | some c, some d =>
          match cdiv LLONG_MAX c with
          | none => none
          | some q2 => some (decide (q2 > d))
        | _, _ => none
  | _, _ => none

/-- The member `safe_ratio_multiply<T, U>::type`; `std::ratio` rejects a zero
denominator. -/
def safe_ratio_multiply (T V : Ratio) : Option Ratio :=
  let gcd1 : Int := Int.gcd T.num V.den
  let gcd2 : Int := Int.gcd V.num T.den
  match safe_ratio_multiply_overflow T V with
  | none => none
  | some true => some ⟨0, 1⟩
  | some false =>
    match cdiv T.num gcd1, cdiv V.num gcd2, cdiv T.den gcd1, cdiv V.den gcd1 with
    | some a, some b, some c, some d =>
      match checked (a * b), checked (c * d) with
      | some n, some m => if m = 0 then none else some ⟨n, m⟩
      | _, _ => none
    | _, _, _, _ => none

/-- The member `fold_conversion_impl<T, U>::type`, that is
`conversion_fold_op<T, U>`. -/
def conversion_fold_op (T V : Val) : Option Val :=
  match T, V with
  | .ratio r1, .ratio r2 =>
    match safe_ratio_multiply r1 r2 with
    | none => none
    | some result1 =>
      if result1.num ≠ 0 then some (.ratio result1)
      else some (.multiplier (.ratio r1) (.ratio r2))
  | T, V => some (.multiplier T V)

/-- The member `evaluate_power<dim<Base, Exponent>>::type`; the specialisation
is for a `std::ratio` base and an exponent `std::ratio<E>`, that is
`std::ratio<E, 1>`. -/
def evaluate_power (d : Dim Scale) : Option Val :=
  match d with
  | (.ratio B, Exponent) =>
    if Exponent.D = 1 then
      match safe_ratio_pow B Exponent.N with
      | none => none
      | some result1 =>
        if result1.num ≠ 0 then some (.ratio result1)
        else some (.power (.ratio B) Exponent)
    else some (.power (.ratio B) Exponent)
  | (Base, Exponent) => some (.power Base Exponent)

/-- The pack expansion `typename evaluate_power<T>::type...`. -/
def evaluate_power_pack : List (Dim Scale) → Option (List Val)
  | [] => some []
  | d :: ds =>
    match evaluate_power d, evaluate_power_pack ds with
    | some v, some vs => some (v :: vs)
    | _, _ => none

/-- The member `fold_conversion<scale_list<T...>>::type`. -/
def fold_conversion (T : List (Dim Scale)) : Option Val :=
  match evaluate_power_pack T with
  | none => none
  | some vs => mp_fold conversion_fold_op vs (.ratio ⟨1, 1⟩)

/-- The alias `requires_unit<T>`: the member `_boost_units2_is_unit` comes
from `unit_base`, which `absolute_unit` does not derive from. -/
def requires_unit : U → Bool
  | .absolute _ _ => false
  | _ => true

/-- The function `has_same_dimension(T, U)`, with `visit` taken as the declared
member (`Written.has_same_dimension` follows the text). -/
def has_same_dimension (T V : U) : Option Bool :=
  if requires_unit T && requires_unit V then
    match dimension_check T, dimension_check V with
    | some dT, some dV => some (decide (dT = dV))
    | _, _ => none
  else none

/-- Why a call of `conversion_factor` does not compile. -/
inductive Rejected where
  | different_dimensions
  | other
deriving DecidableEq, Repr

/-- The function `conversion_factor(T, U)`, up to the type whose `get_value`
is returned, with `visit` taken as the declared member
(`Written.conversion_factor` follows the text).  `check_conversion` fails with
"Cannot convert units with different dimensions." -/
def conversion_factor (T V : U) : Except Rejected Val :=
  if requires_unit T && requires_unit V then
    match dimension_check T, dimension_check V with
    | some dT, some dV =>
      if dT = dV then
        match unit_divide T V with
        | none => .error .other
        | some q =>
          match flatten_scale q with
          | none => .error .other
          | some l =>
            match fold_conversion l with
            | none => .error .other
            | some v => .ok v
      else .error .different_dimensions
    | _, _ => .error .other
  else .error .other

/-- The number that `get_value` of a conversion type stands for, in exact
arithmetic; `power<B, E>` is a rational number when `E` is an integer. -/
def Val.denote : Val → Option ℚ
  | .ratio r => some r.value
  | .scale _ v => some v
  | .multiplier T V =>
    match T.denote, V.denote with
    | some a, some b => some (a * b)
    | _, _ => none
  | .power B E =>
    if E.den = 1 then
      match B with
      | .ratio r => some (r.value ^ E.num)
      | .computed _ v => some (v ^ E.num)
    else none

/-! ## Canonical sequences -/

/-- A comparator that is a three-way total order: every comparison is
accepted with a value in `{-1, 0, 1}`, swapping the arguments negates the
value, "less" is transitive, and `0` is returned only for identical bases. -/
structure ThreeWayTotalOrder {α : Type} (Cmp : α → α → Option Int) : Prop where
  three_way : ∀ a b, Cmp a b = some (-1) ∨ Cmp a b = some 0 ∨ Cmp a b = some 1
  antisymm : ∀ a b x, Cmp a b = some x → Cmp b a = some (-x)
  trans : ∀ a b c, Cmp a b = some (-1) → Cmp b c = some (-1) → Cmp a c = some (-1)
  zero_eq : ∀ a b, Cmp a b = some 0 → a = b

/-- The bases of a sequence are strictly increasing in the order of `Cmp`. -/
def StrictlyIncreasing {α : Type} (Cmp : α → α → Option Int) (A : List (Dim α)) : Prop :=
  A.Pairwise (fun p q => Cmp p.1 q.1 = some (-1))

/-- No pair of the sequence has exponent 0. -/
def NoZeroExponent {α : Type} (A : List (Dim α)) : Prop :=
  ∀ p ∈ A, p.2.num ≠ 0

/-- Every exponent of the sequence is a `std::ratio` that exists: its
denominator argument is not 0. -/
def ValidExponents {α : Type} (A : List (Dim α)) : Prop :=
  ∀ p ∈ A, p.2.D ≠ 0

/-- The exponent of base `b` in a sequence, as a number; 0 when `b` is absent. -/
def exponent_of {α : Type} [DecidableEq α] (b : α) : List (Dim α) → ℚ
  | [] => 0
  | p :: L => if p.1 = b then p.2.value else exponent_of b L

/-! ## The unit operators of `unit.hpp` -/

/-- The function `operator*(T, U)` on two units. -/
def mul (T V : U) : Option U :=
  if requires_unit T && requires_unit V then unit_multiply T V else none

/-- The function `operator/(T, U)` on two units. -/
def div (T V : U) : Option U :=
  if requires_unit T && requires_unit V then unit_divide T V else none

/-- The functions `operator*(T, std::ratio<N, D>)` and
`operator*(std::ratio<N, D>, T)`, which have the same return type. -/
def mul_ratio (T : U) (r : Ratio) : Option U :=
  if requires_unit T then some (simplify_unit (.scaled T (.ratio r.type))) else none

/-! ## The units of `test/test_unit.cpp`, `dimensions.hpp` and `si.hpp` -/

/-- Source: `BOOST_UNITS2_DEF(length);` -/
def length : U := .fundamental "length" "length"

/-- Source: `BOOST_UNITS2_DEF(meter, length);` -/
def meter : U := .derived "meter" "meter" length

/-- Source: `BOOST_UNITS2_DEF(yard, meter * std::ratio<9144,10000>());` -/
def yard : U := .derived "yard" "yard" (.scaled meter (.ratio ⟨1143, 1250⟩))

/-- Source: `BOOST_UNITS2_DEF(foot, yard * std::ratio<1,3>());` -/
def foot : U := .derived "foot" "foot" (.scaled yard (.ratio ⟨1, 3⟩))

/-- Source: `BOOST_UNITS2_DEF(inch, foot * std::ratio<1,12>());` -/
def inch : U := .derived "inch" "inch" (.scaled foot (.ratio ⟨1, 12⟩))

/-- Source: `BOOST_UNITS2_DEF(xmeter, meter);` -/
def xmeter : U := .derived "xmeter" "xmeter" meter

/-- Source: `BOOST_UNITS2_DEF(sq_meter, meter * meter);` -/
def sq_meter : U := .derived "sq_meter" "sq_meter" (.compound [(meter, ⟨2, 1⟩)])

/-- Source: `inline constexpr auto centimeter = std::centi() * meter;` -/
def centimeter : U := .scaled meter (.ratio ⟨1, 100⟩)

/-- Source: `auto nm = std::nano() * meter;` -/
def nm : U := .scaled meter (.ratio ⟨1, 1000000000⟩)

/-- Source: `BOOST_UNITS2_DEF(time);` of `dimensions.hpp`. -/
def time : U := .fundamental "time" "time"

/-- Source: `BOOST_UNITS2_DEF(second,time);` of `si.hpp`. -/
def second : U := .derived "second" "second" time

/-- The unit `std::milli() * second`. -/
def millisecond : U := .scaled second (.ratio ⟨1, 1000⟩)

/-- The unit `std::deci() * meter`. -/
def decimeter : U := .scaled meter (.ratio ⟨1, 10⟩)

/-- A three-way comparison of natural numbers, to instantiate `merge` with. -/
def nat_compare (a b : Nat) : Option Int :=
  some (if a < b then -1 else if a = b then 0 else 1)

/-! ## Units that can be compared with themselves -/

/-- A unit that `unit_compare_impl` can compare: a unit made by
`BOOST_UNITS2_DEF`, a `compound_unit`, or a `scaled_unit` of such a unit
(`absolute_unit` has neither a `name` nor a specialisation). -/
def Comparable : U → Prop
  | .fundamental _ _ => True
  | .derived _ _ _ => True
  | .scaled b _ => Comparable b
  | .compound _ => True
  | .absolute _ _ => False

/-- The unit is a `compound_unit`. -/
def U.isCompound : U → Bool
  | .compound _ => true
  | _ => false

/-- The pack of a `compound_unit` as the operators build it: every base can
be compared, no base is itself a `compound_unit` (`as_compound_unit` never
wraps one), and every exponent is a `std::ratio` with non-zero denominator. -/
def DimsOk (ps : List (U × Ratio)) : Prop :=
  ∀ p ∈ ps, Comparable p.1 ∧ p.1.isCompound = false ∧ p.2.D ≠ 0

/-- A unit in the sense of `requires_unit` (base, scaled or compound) whose
pack is well formed. -/
def UnitOk (T : U) : Prop :=
  requires_unit T = true ∧ DimsOk (as_compound_unit T)

/-! ## The total scale of a unit -/

/-- The number a scale stands for. -/
def Scale.value : Scale → ℚ
  | .ratio r => r.value
  | .computed _ v => v

mutual
/-- The total scale `S` of a unit, following the specification:
`S(fundamental base) = 1`, `S(scaled(B, s)) = s * S(B)`,
`S(compound of (b_i, e_i)) = product of S(b_i)^e_i`, and
`S(user-defined unit) = S(its definition)`; exponents are integers. -/
def total_scale : U → ℚ
  | .fundamental _ _ => 1
  | .derived _ _ d => total_scale d
  | .scaled b s => s.value * total_scale b
  | .compound ps => total_scale_dims ps
  | .absolute _ _ => 1
/-- The product of `S(b_i)^e_i` over a pack. -/
def total_scale_dims : List (U × Ratio) → ℚ
  | [] => 1
  | (b, e) :: ps => total_scale b ^ e.num * total_scale_dims ps
end

/-- The product of `val(b_i)^e_i` over a sequence of pairs with integer
exponents. -/
def dims_product {α : Type} (val : α → ℚ) : List (Dim α) → ℚ
  | [] => 1
  | p :: L => val p.1 ^ p.2.num * dims_product val L

/-- Every exponent of the sequence is an integer: a `std::ratio` with
non-zero denominator whose `den` is 1. -/
def IntegerExponents {α : Type} (A : List (Dim α)) : Prop :=
  ∀ p ∈ A, p.2.D ≠ 0 ∧ p.2.den = 1

mutual
/-- A unit (base, scaled or compound) all of whose scale factors are
positive ratios and all of whose exponents are integers. -/
def RatioScaled : U → Prop
  | .fundamental _ _ => True
  | .derived _ _ d => RatioScaled d
  | .scaled b (.ratio r) => RatioScaled b ∧ 0 < r.N ∧ 0 < r.D
  | .scaled _ (.computed _ _) => False
  | .compound ps => RatioScaledDims ps
  | .absolute _ _ => False
/-- The pack of a compound unit with positive ratio scales and integer
exponents; its bases are not themselves compound units. -/
def RatioScaledDims : List (U × Ratio) → Prop
  | [] => True
  | (b, e) :: ps =>
    RatioScaled b ∧ b.isCompound = false ∧ e.D ≠ 0 ∧ e.den = 1 ∧ RatioScaledDims ps
end

/-- A scale that is a `std::ratio` with positive arguments. -/
def PositiveRatio : Scale → Prop
  | .ratio r => 0 < r.N ∧ 0 < r.D
  | .computed _ _ => False

/-- A scale list whose atoms are positive ratios and whose exponents are
integers. -/
def RatioScaleList (l : List (Dim Scale)) : Prop :=
  IntegerExponents l ∧ ∀ p ∈ l, PositiveRatio p.1

/-- A pack whose bases have positive ratio scales and are not compound
units, with integer exponents. -/
def RatioScaledPack (ps : List (U × Ratio)) : Prop :=
  ∀ p ∈ ps, RatioScaled p.1 ∧ p.1.isCompound = false ∧ p.2.D ≠ 0 ∧ p.2.den = 1

/-- A unit `BOOST_UNITS2_DEF(metre, "meter", meter)`: a second struct whose
name string is that of `meter`. -/
def metre : U := .derived "metre" "meter" meter

/-- The unit `nm * nm * nm` of the test. -/
def nm_cubed : U := .compound [(nm, ⟨3, 1⟩)]

/-- The unit `meter * meter * meter` of the test. -/
def meter_cubed : U := .compound [(meter, ⟨3, 1⟩)]

/-! ## Scaled units in simplified form -/

/-- The unit is a `scaled_unit` whose scale is a `std::ratio`. -/
def U.isRatioScaled : U → Bool
  | .scaled _ (.ratio _) => true
  | _ => false

/-- The unit under the ratio scale of a `scaled_unit`, or the unit itself. -/
def unscaled_base : U → U
  | .scaled T (.ratio _) => T
  | T => T

/-- The ratio scale of a `scaled_unit`, or `std::ratio<1, 1>`. -/
def outer_scale : U → Ratio
  | .scaled _ (.ratio s) => s
  | _ => ⟨1, 1⟩

/-- A unit as `simplify_unit` leaves it with respect to ratio scales: at most
one ratio scale, in lowest terms and not `1/1`, over a unit (in the sense of
`requires_unit`) that is not itself scaled by a ratio. -/
def ScaleCanonical (T : U) : Prop :=
  requires_unit T = true ∧ requires_unit (unscaled_base T) = true ∧
  (unscaled_base T).isRatioScaled = false ∧ (outer_scale T).Reduced ∧
  (T.isRatioScaled = true → outer_scale T ≠ ⟨1, 1⟩)

/-- The sum of the exponents, as numbers, of all pairs of a sequence whose
base is `b`. -/
def exponent_sum {α : Type} [DecidableEq α] (b : α) : List (Dim α) → ℚ
  | [] => 0
  | p :: L => (if p.1 = b then p.2.value else 0) + exponent_sum b L

/-- The pack of a unit has no `compound_unit` as a base and only exponents
with non-zero denominator. -/
def PackOk (ps : List (U × Ratio)) : Prop :=
  ∀ p ∈ ps, p.1.isCompound = false ∧ p.2.D ≠ 0

/-- The alias `unitdiff_visit<Unit>`, that is `visit<unitdiff_visitor, Unit>`:
`unitdiff_visitor` has `apply_scaled` and `apply_absolute` only, and
`apply_absolute` is `unitdiff_t<Unit>`, the visit of `Unit` or `Unit` itself. -/
def unitdiff_visit : U → Option U
  | .fundamental _ _ => none
  | .derived _ _ d => unitdiff_visit d
  | .scaled u s =>
    match unitdiff_visit u with
    | none => none
    | some v => some (.scaled v s)
  | .compound _ => none
  | .absolute u _ =>
    match unitdiff_visit u with
    | none => some u
    | some v => some v

/-- The alias `unitdiff_t<T>`, that is `detected_or<T, unitdiff_visit, T>`. -/
def unitdiff_t (T : U) : U :=
  match unitdiff_visit T with
  | none => T
  | some v => v

/-- The function `base_offset`, in exact arithmetic: 0 for a unit that
visits `apply_base` or `apply_compound`, `base_offset(Unit) + Offset` for an
`absolute_unit`, `base_offset(Unit) * Scale` for a `scaled_unit` (also for a
struct derived from one). -/
def base_offset : U → ℚ
  | .fundamental _ _ => 0
  | .derived _ _ d => base_offset d
  | .scaled u s => base_offset u * s.value
  | .compound _ => 0
  | .absolute u o => base_offset u + o.value

/-- The alias `requires_absolute<T>`, with `visit` taken as the declared
member (`Written.requires_absolute` follows the text):
`requires_absolute_impl` has `apply_absolute` only. -/
def requires_absolute : U → Bool
  | .absolute _ _ => true
  | _ => false

/-- The function `convert(From, To, value)`, in exact arithmetic, with the
identifiers of the header taken as the declared ones (`Written.convert`
follows the text of the guards). -/
def convert (From To : U) (value : ℚ) : Option ℚ :=
  if requires_absolute From && requires_absolute To then
    match conversion_factor (unitdiff_t From) (unitdiff_t To) with
    | .ok v =>
      match v.denote with
      | some f => some ((value - base_offset From) * f + base_offset To)
      | none => none
    | .error _ => none
  else none

/-- The function `operator*(absolute_unit<Unit, std::ratio<N1, D1>>,
std::ratio<N2, D2>)`, together with `operator*(T, std::ratio<N, D>)` for the
`Unit{} * std::ratio<N2, D2>` inside its return type, with
`std::ratio_divides` taken as `std::ratio_divide` (`Written.mul_absolute`
follows the text). -/
def mul_absolute : U → Ratio → Option U
  | .absolute u o, r =>
    match mul_absolute u r with
    | none => none
    | some v => some (.absolute v (ratio_divide o r))
  | T, r => mul_ratio T r

/-- Source: `BOOST_UNITS2_DEF(temperature);` of `dimensions.hpp`. -/
def temperature : U := .fundamental "temperature" "temperature"

/-- Source: `BOOST_UNITS2_DEF(kelvin,temperature);` of `si.hpp`. -/
def si_kelvin : U := .derived "kelvin" "kelvin" temperature

/-- Source: `constexpr auto kelvin = absolute_unit(si::kelvin);` with the default
`Offset = std::ratio<0>`. -/
def kelvin : U := .absolute si_kelvin ⟨0, 1⟩

/-- Source: `constexpr auto celsius = absolute_unit(kelvin, std::ratio<27315,100>());` -/
def celsius : U := .absolute kelvin ⟨27315, 100⟩

/-- Source: `constexpr auto fahrenheit =
absolute_unit(celsius * std::ratio<5,9>(), std::ratio<-32>());` -/
def fahrenheit : U :=
  .absolute
    (.absolute (.absolute (.scaled si_kelvin (.ratio ⟨5, 9⟩)) ⟨0, 1⟩) ⟨49167, 100⟩)
    ⟨-32, 1⟩

/-- The string `a` is a proper prefix of the string `b`. -/
def ProperPrefix (a b : List Nat) : Prop := ∃ t, t ≠ [] ∧ b = a ++ t

/-- At the first position where the strings `a` and `b` differ, `a` has the
smaller character. -/
def FirstDifferenceLess (a b : List Nat) : Prop :=
  ∃ p x y s t, a = p ++ x :: s ∧ b = p ++ y :: t ∧ x < y

/-- The function `pow<N>(T)`, of return type `unit_pow<T, std::ratio<N>>`. -/
def pow_n (N : Int) (T : U) : Option U :=
  if requires_unit T then some (unit_pow T ⟨N, 1⟩) else none

/-- The function `pow(T, std::ratio<N, D>)`, of return type
`unit_pow<T, std::ratio<N, D>>`: the exponent is passed on as written. -/
def pow (T : U) (r : Ratio) : Option U :=
  if requires_unit T then some (unit_pow T r) else none

/-- Source: `using dimensionless = compound_unit<>;` of `quantity.hpp`. -/
def dimensionless : U := .compound []

/-- The unit of `q * x` for a quantity `q` of unit `T` and a number `x`:
`decltype(q.unit()){} * dimensionless{}`. -/
def quantity_times_value_unit (T : U) : Option U := mul T dimensionless

/-- The unit of `x * q` for a number `x` and a quantity `q` of unit `T`:
`dimensionless{} * decltype(q.unit()){}`. -/
def value_times_quantity_unit (T : U) : Option U := mul dimensionless T

/-- A unit with no `absolute_unit` inside it, as far as `base_offset` looks:
under definitions and under scales. -/
def offset_free : U → Bool
  | .fundamental _ _ => true
  | .derived _ _ d => offset_free d
  | .scaled b _ => offset_free b
  | .compound _ => true
  | .absolute _ _ => false

/-- A unit with no offset, or an `absolute_unit` (with a well-formed offset
ratio) over such a unit or over another such `absolute_unit`. -/
def offset_chain : U → Bool
  | .absolute u o => decide (o.D ≠ 0) && offset_chain u
  | T => offset_free T

/-- A comparator that is a three-way total order on the bases of a set `S`:
among members of `S` every comparison is accepted with a value in
`{-1, 0, 1}`, swapping the arguments negates the value, "less" is transitive,
and `0` is returned only for identical bases. -/
structure ThreeWayTotalOrderOn {α : Type} (S : α → Prop) (Cmp : α → α → Option Int) :
    Prop where
  three_way : ∀ a b, S a → S b →
    (Cmp a b = some (-1) ∨ Cmp a b = some 0 ∨ Cmp a b = some 1)
  antisymm : ∀ a b x, S a → S b → Cmp a b = some x → Cmp b a = some (-x)
  trans : ∀ a b c, S a → S b → S c →
    Cmp a b = some (-1) → Cmp b c = some (-1) → Cmp a c = some (-1)
  zero_eq : ∀ a b, S a → S b → Cmp a b = some 0 → a = b

/-- The sum of `e_i * val(b_i)` over a sequence of pairs. -/
def dims_sum {α : Type} (val : α → ℚ) : List (Dim α) → ℚ
  | [] => 0
  | p :: L => p.2.value * val p.1 + dims_sum val L

/-- A sequence in the normal form of a dimension over a set `S` of bases:
bases of `S` in strictly increasing order, each with a reduced exponent that is
not 0. -/
def CanonPack {α : Type} (S : α → Prop) (Cmp : α → α → Option Int) (L : List (Dim α)) :
    Prop :=
  StrictlyIncreasing Cmp L ∧ ∀ p ∈ L, S p.1 ∧ p.2.Reduced ∧ p.2.num ≠ 0

/-- A set of base units with unique names: every member is a unit made by
`BOOST_UNITS2_DEF(id)` without a definition, and two members with the same
name string are the same unit. -/
structure UniqueNames (S : U → Prop) : Prop where
  base : ∀ u, S u → ∃ i n, u = U.fundamental i n
  unique : ∀ i n j m, S (.fundamental i n) → S (.fundamental j m) →
    cstr n = cstr m → U.fundamental i n = U.fundamental j m

mutual
/-- A unit that `dimension_check` reduces to base units of the set `S`: no
`absolute_unit` is reached, and every exponent of every pack reached is a
`std::ratio` with non-zero denominator and non-zero numerator. -/
def DimGood (S : U → Prop) : U → Prop
  | .fundamental i n => S (.fundamental i n)
  | .derived _ _ d => DimGood S d
  | .scaled b _ => DimGood S b
  | .compound ps => DimGoodPack S ps
  | .absolute _ _ => False
/-- The pack of a `compound_unit` that `dimension_check` reduces to base units
of the set `S`. -/
def DimGoodPack (S : U → Prop) : List (U × Ratio) → Prop
  | [] => True
  | (b, e) :: ps => DimGood S b ∧ e.D ≠ 0 ∧ e.N ≠ 0 ∧ DimGoodPack S ps
end

/-- The exponent of the base unit `f` in the dimension of `T`, as a number;
0 when `T` has no dimension. -/
def dim_exponent (f : U) (T : U) : ℚ :=
  match dimension_check T with
  | some d => exponent_sum f (as_compound_unit d)
  | none => 0

/-- The set of the base units `length` and `time` of `dimensions.hpp`. -/
def length_and_time (u : U) : Prop := u = length ∨ u = time

/-- The unit `meter / second`. -/
def meter_per_second : U := .compound [(meter, ⟨1, 1⟩), (second, ⟨-1, 1⟩)]

/-- A scale that is a `std::ratio` in lowest terms, as `operator*(T,
std::ratio<N, D>)` stores it. -/
def ReducedRatioScale : Scale → Prop
  | .ratio r => r.Reduced
  | .computed _ _ => False

mutual
/-- A unit (base, scaled or compound, with the definitions of its bases) all
of whose scale factors are ratios in lowest terms and all of whose exponents
are ratios with non-zero denominator and non-zero numerator. -/
def ScaleGood : U → Prop
  | .fundamental _ _ => True
  | .derived _ _ d => ScaleGood d
  | .scaled b (.ratio r) => ScaleGood b ∧ r.Reduced
  | .scaled _ (.computed _ _) => False
  | .compound ps => ScaleGoodPack ps
  | .absolute _ _ => False
/-- The pack of a compound unit with ratio scales in lowest terms and
exponents that are not 0. -/
def ScaleGoodPack : List (U × Ratio) → Prop
  | [] => True
  | (b, e) :: ps => ScaleGood b ∧ e.D ≠ 0 ∧ e.N ≠ 0 ∧ ScaleGoodPack ps
end

/-! ## The visitor as written

`unit.hpp:127` writes the alias `visit<F, T>` as `typename T::template
_boost_units_apply2<F, T>`, while every unit template declares the member
template `_boost_units2_apply`.  The definitions `flatten_scale`,
`dimension_check`, `has_same_dimension`, `conversion_factor`,
`requires_absolute` and `convert` above follow the declared member (they
describe the headers with that one name put right); the definitions of the
namespace `Written` follow the text of the headers. -/

/-- The member template that the alias `visit` asks a unit for
(`unit.hpp:127`). -/
def visit_member : String := "_boost_units_apply2"

/-- The member templates for visitors that a unit type has: `unit_base`,
`scaled_unit`, both `compound_unit` templates and `absolute_unit` each declare
`_boost_units2_apply`, and a struct made by `BOOST_UNITS2_DEF` inherits it. -/
def U.visitor_members : U → List String
  | .fundamental _ _ => ["_boost_units2_apply"]
  | .derived _ _ _ => ["_boost_units2_apply"]
  | .scaled _ _ => ["_boost_units2_apply"]
  | .compound _ => ["_boost_units2_apply"]
  | .absolute _ _ => ["_boost_units2_apply"]

/-- The alias `visit<F, T>` names a type only when `T` has the member template
that it asks for. -/
def visit_defined (T : U) : Bool := decide (visit_member ∈ T.visitor_members)

/-- The alias templates of `<ratio>` for arithmetic on `std::ratio`. -/
def std_ratio_arithmetic : List String :=
  ["ratio_add", "ratio_subtract", "ratio_multiply", "ratio_divide"]

namespace Written

mutual
/-- The alias `flatten_scale<T>` as written: `visit<flatten_scale_impl, T>`,
at every level of the recursion. -/
def flatten_scale : U → Option (List (Dim Scale))
  | .fundamental i n => if visit_defined (.fundamental i n) then some [] else none
  | .derived i n d => if visit_defined (.derived i n d) then flatten_scale d else none
  | .scaled Base Scale =>
    if visit_defined (.scaled Base Scale) then
      match flatten_scale Base with
      | none => none
      | some fb => scale_list_multiply fb [(Scale, ⟨1, 1⟩)]
    else none
  | .compound ps =>
    if visit_defined (.compound ps) then
      match flatten_scale_pack ps with
      | none => none
      | some L => mp_fold scale_list_multiply L []
    else none
  | .absolute _ _ => none
/-- The pack expansion
`scale_list_pow<flatten_scale<typename T::base>, typename T::exponent>...`
as written. -/
def flatten_scale_pack : List (U × Ratio) → Option (List (List (Dim Scale)))
  | [] => some []
  | (b, e) :: ps =>
    match flatten_scale b, flatten_scale_pack ps with
    | some fb, some L => some (scale_list_pow fb e :: L)
    | _, _ => none
end

mutual
/-- The alias `dimension_check<T>` as written: `visit<dimension_check_impl,
T>`, at every level of the recursion. -/
def dimension_check : U → Option U
  | .fundamental i n =>
    if visit_defined (.fundamental i n) then some (.fundamental i n) else none
  | .derived i n d => if visit_defined (.derived i n d) then dimension_check d else none
  | .scaled Base Scale =>
    if visit_defined (.scaled Base Scale) then dimension_check Base else none
  | .compound ps =>
    if visit_defined (.compound ps) then
      match dimension_check_pack ps with
      | none => none
      | some L => mp_fold unit_multiply L (.compound [])
    else none
  | .absolute _ _ => none
/-- The pack expansion
`unit_pow<dimension_check<typename T::base>, typename T::exponent>...` as
written. -/
def dimension_check_pack : List (U × Ratio) → Option (List U)
  | [] => some []
  | (b, e) :: ps =>
    match dimension_check b, dimension_check_pack ps with
    | some db, some L => some (unit_pow db e :: L)
    | _, _ => none
end

/-- The function `has_same_dimension(T, U)` as written. -/
def has_same_dimension (T V : U) : Option Bool :=
  if requires_unit T && requires_unit V then
    match dimension_check T, dimension_check V with
    | some dT, some dV => some (decide (dT = dV))
    | _, _ => none
  else none

/-- The function `conversion_factor(T, U)` as written, up to the type whose
`get_value` is returned. -/
def conversion_factor (T V : U) : Except Rejected Val :=
  if requires_unit T && requires_unit V then
    match dimension_check T, dimension_check V with
    | some dT, some dV =>
      if dT = dV then
        match unit_divide T V with
        | none => .error .other
        | some q =>
          match flatten_scale q with
          | none => .error .other
          | some l =>
            match fold_conversion l with
            | none => .error .other
            | some v => .ok v
      else .error .different_dimensions
    | _, _ => .error .other
  else .error .other

/-- The alias `requires_absolute<T>` as written: `visit<requires_absolute_impl,
T>`, and `requires_absolute_impl` has `apply_absolute` only. -/
def requires_absolute : U → Bool
  | .absolute u o => visit_defined (.absolute u o)
  | _ => false

/-- The function `convert(From, To, value)` as written, in exact arithmetic:
the call is viable only when both guards `requires_absolute` are types; the
body is taken with `base_offset(From)` as `base_offset(From{})`. -/
def convert (From To : U) (value : ℚ) : Option ℚ :=
  if requires_absolute From && requires_absolute To then
    match conversion_factor (unitdiff_t From) (unitdiff_t To) with
    | .ok v =>
      match v.denote with
      | some f => some ((value - base_offset From) * f + base_offset To)
      | none => none
    | .error _ => none
  else none

/-- The function `operator*` on an `absolute_unit` and a `std::ratio` as
written: the overload of `absolute.hpp:34` has the return type
`absolute_unit<..., std::ratio_divides<...>>`, which exists only if `<ratio>`
declares `ratio_divides`; without it the overloads of `unit.hpp` remain. -/
def mul_absolute (A : U) (r : Ratio) : Option U :=
  if "ratio_divides" ∈ std_ratio_arithmetic then Units2.mul_absolute A r
  else mul_ratio A r

end Written

/-- The unit `nm * nm * nm * nm`. -/
def nm_fourth : U := .compound [(nm, ⟨4, 1⟩)]

/-- The unit `meter * meter * meter * meter`. -/
def meter_fourth : U := .compound [(meter, ⟨4, 1⟩)]

/-! ## Theorems -/

namespace Ratio

theorem sgn_mul_natAbs (x : Int) : sgn x * (Int.natAbs x : Int) = x := by
  unfold sgn
  rcases lt_trichotomy x 0 with h | h | h
  · rw [if_pos h, Int.ofNat_natAbs_of_nonpos (le_of_lt h)]; ring
  · subst h; simp
  · rw [if_neg (by omega), if_neg (by omega), Int.natAbs_of_nonneg (by omega)]; ring

theorem sgn_mul_self (x : Int) : sgn x * x = (Int.natAbs x : Int) := by
  unfold sgn
  rcases lt_trichotomy x 0 with h | h | h
  · rw [if_pos h, Int.ofNat_natAbs_of_nonpos (le_of_lt h)]; ring
  · subst h; simp
  · rw [if_neg (by omega), if_neg (by omega), Int.natAbs_of_nonneg (by omega)]; ring

theorem gcd_pos (r : Ratio) (h : r.D ≠ 0) : (0 : Int) < (Int.gcd r.N r.D : Int) := by
  have : 0 < Int.gcd r.N r.D := Int.gcd_pos_of_ne_zero_right _ h
  exact_mod_cast this

theorem num_mul_gcd (r : Ratio) : r.num * (Int.gcd r.N r.D : Int) = sgn r.D * r.N := by
  unfold num
  have h1 : sgn r.N * sgn r.D * (Int.natAbs r.N : Int) = sgn r.D * r.N := by
    rw [mul_comm (sgn r.N), mul_assoc, sgn_mul_natAbs]
  rw [h1]
  apply Int.ediv_mul_cancel
  exact Dvd.dvd.mul_left (Int.gcd_dvd_left) _

theorem den_mul_gcd (r : Ratio) : r.den * (Int.gcd r.N r.D : Int) = (Int.natAbs r.D : Int) := by
  unfold den
  apply Int.ediv_mul_cancel
  rw [Int.dvd_natAbs]
  exact Int.gcd_dvd_right

theorem den_pos (r : Ratio) (h : r.D ≠ 0) : 0 < r.den := by
  have hg := gcd_pos r h
  have hd := den_mul_gcd r
  have : (0 : Int) < (Int.natAbs r.D : Int) := by
    have := Int.natAbs_pos.mpr h
    exact_mod_cast this
  rw [← hd] at this
  exact (mul_pos_iff_of_pos_right hg).mp this

theorem sgn_ne_zero (x : Int) (h : x ≠ 0) : sgn x ≠ 0 := by
  unfold sgn
  split_ifs <;> omega

theorem num_div_den (r : Ratio) (h : r.D ≠ 0) : (r.num : ℚ) / (r.den : ℚ) = r.value := by
  have hg : ((Int.gcd r.N r.D : Int) : ℚ) ≠ 0 := by
    exact_mod_cast (gcd_pos r h).ne'
  have hs : ((sgn r.D : Int) : ℚ) ≠ 0 := by exact_mod_cast sgn_ne_zero _ h
  have hD : (r.D : ℚ) ≠ 0 := by exact_mod_cast h
  have h1 : (r.num : ℚ) * ((Int.gcd r.N r.D : Int) : ℚ) = (sgn r.D : ℚ) * (r.N : ℚ) := by
    exact_mod_cast num_mul_gcd r
  have h2 : (r.den : ℚ) * ((Int.gcd r.N r.D : Int) : ℚ) = (sgn r.D : ℚ) * (r.D : ℚ) := by
    have := den_mul_gcd r
    rw [← sgn_mul_self] at this
    exact_mod_cast this
  have hden : (r.den : ℚ) ≠ 0 := by exact_mod_cast (den_pos r h).ne'
  unfold value
  rw [div_eq_div_iff hden hD]
  have e1 : (r.num : ℚ) * (r.D : ℚ) * ((sgn r.D : ℚ) * ((Int.gcd r.N r.D : Int) : ℚ))
      = (r.N : ℚ) * (r.den : ℚ) * ((sgn r.D : ℚ) * ((Int.gcd r.N r.D : Int) : ℚ)) := by
    calc (r.num : ℚ) * (r.D : ℚ) * ((sgn r.D : ℚ) * ((Int.gcd r.N r.D : Int) : ℚ))
        = ((r.num : ℚ) * ((Int.gcd r.N r.D : Int) : ℚ)) * ((sgn r.D : ℚ) * (r.D : ℚ)) := by ring
      _ = ((sgn r.D : ℚ) * (r.N : ℚ)) * ((r.den : ℚ) * ((Int.gcd r.N r.D : Int) : ℚ)) := by
          rw [h1, h2]
      _ = (r.N : ℚ) * (r.den : ℚ) * ((sgn r.D : ℚ) * ((Int.gcd r.N r.D : Int) : ℚ)) := by ring
  exact mul_right_cancel₀ (mul_ne_zero hs hg) e1

theorem type_D_pos (r : Ratio) (h : r.D ≠ 0) : 0 < r.type.D := den_pos r h

theorem type_value (r : Ratio) (h : r.D ≠ 0) : r.type.value = r.value := by
  rw [← num_div_den r h]; rfl

theorem num_eq_zero_iff (r : Ratio) (h : r.D ≠ 0) : r.num = 0 ↔ r.N = 0 := by
  have hg := gcd_pos r h
  have h1 := num_mul_gcd r
  have hs := sgn_ne_zero _ h
  constructor
  · intro h0
    rw [h0, zero_mul] at h1
    rcases mul_eq_zero.mp h1.symm with h2 | h2
    · exact absurd h2 hs
    · exact h2
  · intro h0
    have h3 : r.num * (Int.gcd r.N r.D : Int) = 0 := by rw [h1, h0, mul_zero]
    rcases mul_eq_zero.mp h3 with h2 | h2
    · exact h2
    · exact absurd h2 hg.ne'

theorem value_eq_zero_iff (r : Ratio) (h : r.D ≠ 0) : r.value = 0 ↔ r.N = 0 := by
  have hD : (r.D : ℚ) ≠ 0 := by exact_mod_cast h
  unfold value
  rw [div_eq_zero_iff]
  constructor
  · rintro (h1 | h1)
    · exact_mod_cast h1
    · exact absurd h1 hD
  · intro h1; left; exact_mod_cast h1

theorem num_eq_zero_iff_value (r : Ratio) (h : r.D ≠ 0) : r.num = 0 ↔ r.value = 0 := by
  rw [num_eq_zero_iff r h, value_eq_zero_iff r h]

end Ratio

theorem ratio_add_D_pos (a b : Ratio) (ha : a.D ≠ 0) (hb : b.D ≠ 0) :
    0 < (ratio_add a b).D := by
  unfold ratio_add
  apply Ratio.type_D_pos
  exact mul_ne_zero (Ratio.den_pos a ha).ne' (Ratio.den_pos b hb).ne'

theorem ratio_add_value (a b : Ratio) (ha : a.D ≠ 0) (hb : b.D ≠ 0) :
    (ratio_add a b).value = a.value + b.value := by
  have hda : (a.den : ℚ) ≠ 0 := by exact_mod_cast (Ratio.den_pos a ha).ne'
  have hdb : (b.den : ℚ) ≠ 0 := by exact_mod_cast (Ratio.den_pos b hb).ne'
  unfold ratio_add
  rw [Ratio.type_value _ (mul_ne_zero (Ratio.den_pos a ha).ne' (Ratio.den_pos b hb).ne'),
    ← Ratio.num_div_den a ha, ← Ratio.num_div_den b hb]
  simp only [Ratio.value]
  push_cast
  field_simp

theorem ratio_multiply_D_pos (a b : Ratio) (ha : a.D ≠ 0) (hb : b.D ≠ 0) :
    0 < (ratio_multiply a b).D := by
  unfold ratio_multiply
  apply Ratio.type_D_pos
  exact mul_ne_zero (Ratio.den_pos a ha).ne' (Ratio.den_pos b hb).ne'

theorem ratio_multiply_value (a b : Ratio) (ha : a.D ≠ 0) (hb : b.D ≠ 0) :
    (ratio_multiply a b).value = a.value * b.value := by
  have hda : (a.den : ℚ) ≠ 0 := by exact_mod_cast (Ratio.den_pos a ha).ne'
  have hdb : (b.den : ℚ) ≠ 0 := by exact_mod_cast (Ratio.den_pos b hb).ne'
  unfold ratio_multiply
  rw [Ratio.type_value _ (mul_ne_zero (Ratio.den_pos a ha).ne' (Ratio.den_pos b hb).ne'),
    ← Ratio.num_div_den a ha, ← Ratio.num_div_den b hb]
  simp only [Ratio.value]
  push_cast
  field_simp

theorem ratio_add_num_eq_zero_iff (a b : Ratio) (ha : a.D ≠ 0) (hb : b.D ≠ 0) :
    (ratio_add a b).num = 0 ↔ a.value + b.value = 0 := by
  rw [Ratio.num_eq_zero_iff_value _ (ratio_add_D_pos a b ha hb).ne', ratio_add_value a b ha hb]

/-! ### The recursion of `merge` -/

section MergeEquations
variable {α : Type} (Cmp : α → α → Option Int)

theorem merge_recurse_steps_enough :
    ∀ (n m : Nat) (T U R : List (Dim α)), T.length + U.length ≤ n → T.length + U.length ≤ m →
      merge_recurse_steps Cmp n T U R = merge_recurse_steps Cmp m T U R := by
  intro n
  induction n with
  | zero =>
    intro m T U R hn _
    have hT : T = [] := List.length_eq_zero.mp (by omega)
    have hU : U = [] := List.length_eq_zero.mp (by omega)
    subst hT; subst hU
    cases m <;> simp [merge_recurse_steps]
  | succ n ih =>
    intro m T U R hn hm
    cases T with
    | nil => cases U <;> cases m <;> simp [merge_recurse_steps]
    | cons t T =>
      cases U with
      | nil => cases m <;> simp [merge_recurse_steps]
      | cons u U =>
        cases m with
        | zero => simp at hm
        | succ m =>
          simp only [List.length_cons] at hn hm
          simp only [merge_recurse_steps]
          rw [ih m (t :: T) U (R ++ [u]) (by simp; omega) (by simp; omega),
            ih m T (u :: U) (R ++ [t]) (by simp; omega) (by simp; omega),
            ih m T U R (by omega) (by omega),
            ih m T U (R ++ [(t.1, ratio_add t.2 u.2)]) (by omega) (by omega)]

theorem merge_recurse_nil_nil (R : List (Dim α)) : merge_recurse Cmp [] [] R = some R := by
  simp [merge_recurse, merge_recurse_steps]

theorem merge_recurse_cons_nil (t : Dim α) (T R : List (Dim α)) :
    merge_recurse Cmp (t :: T) [] R = some (R ++ t :: T) := by
  simp [merge_recurse, merge_recurse_steps]

theorem merge_recurse_nil_cons (u : Dim α) (U R : List (Dim α)) :
    merge_recurse Cmp [] (u :: U) R = some (R ++ u :: U) := by
  simp [merge_recurse, merge_recurse_steps]

/-- The step of `merge_recurse_impl<true, true>`, as the source writes it. -/
theorem merge_recurse_cons_cons (t u : Dim α) (T U R : List (Dim α)) :
    merge_recurse Cmp (t :: T) (u :: U) R =
      if Cmp t.1 u.1 = some 1 then merge_recurse Cmp (t :: T) U (R ++ [u])
      else if Cmp t.1 u.1 = some (-1) then merge_recurse Cmp T (u :: U) (R ++ [t])
      else if Cmp t.1 u.1 = some 0 then
        if (ratio_add t.2 u.2).num = 0 then merge_recurse Cmp T U R
        else merge_recurse Cmp T U (R ++ [(t.1, ratio_add t.2 u.2)])
      else none := by
  unfold merge_recurse
  have e : (t :: T).length + (u :: U).length = (T.length + U.length + 1) + 1 := by
    simp only [List.length_cons]; omega
  rw [e]
  simp only [merge_recurse_steps]
  rw [merge_recurse_steps_enough Cmp (T.length + U.length + 1) ((t :: T).length + U.length)
      (t :: T) U (R ++ [u]) (by simp; omega) (le_refl _),
    merge_recurse_steps_enough Cmp (T.length + U.length + 1) (T.length + (u :: U).length)
      T (u :: U) (R ++ [t]) (by simp; omega) (le_refl _),
    merge_recurse_steps_enough Cmp (T.length + U.length + 1) (T.length + U.length)
      T U R (by omega) (le_refl _),
    merge_recurse_steps_enough Cmp (T.length + U.length + 1) (T.length + U.length)
      T U (R ++ [(t.1, ratio_add t.2 u.2)]) (by omega) (le_refl _)]

/-- The accumulated pack `R...` is a prefix of the result. -/
theorem merge_recurse_acc (T U R : List (Dim α)) :
    merge_recurse Cmp T U R = (merge_recurse Cmp T U []).map (fun l => R ++ l) := by
  induction T generalizing U R with
  | nil =>
    cases U with
    | nil => simp [merge_recurse_nil_nil]
    | cons u U => simp [merge_recurse_nil_cons]
  | cons t T ihT =>
    induction U generalizing R with
    | nil => simp [merge_recurse_cons_nil]
    | cons u U ihU =>
      rw [merge_recurse_cons_cons Cmp t u T U R, merge_recurse_cons_cons Cmp t u T U []]
      by_cases h1 : Cmp t.1 u.1 = some 1
      · simp only [h1, if_true]
        rw [ihU (R ++ [u]), ihU ([] ++ [u])]
        simp [Option.map_map, Function.comp_def]
      · by_cases h2 : Cmp t.1 u.1 = some (-1)
        · simp only [h1, h2, if_true, if_false]
          rw [ihT (u :: U) (R ++ [t]), ihT (u :: U) ([] ++ [t])]
          simp [Option.map_map, Function.comp_def]
        · by_cases h3 : Cmp t.1 u.1 = some 0
          · simp only [h1, h2, h3, if_true, if_false]
            by_cases h4 : (ratio_add t.2 u.2).num = 0
            · simp only [h4, if_true]
              exact ihT U R
            · simp only [h4, if_false]
              rw [ihT U (R ++ [(t.1, ratio_add t.2 u.2)]),
                ihT U ([] ++ [(t.1, ratio_add t.2 u.2)])]
              simp [Option.map_map, Function.comp_def]
          · simp [h1, h2, h3]

theorem merge_nil_nil : merge Cmp ([] : List (Dim α)) [] = some [] :=
  merge_recurse_nil_nil Cmp []

theorem merge_cons_nil (t : Dim α) (T : List (Dim α)) : merge Cmp (t :: T) [] = some (t :: T) := by
  simp [merge, merge_recurse_cons_nil]

theorem merge_nil_cons (u : Dim α) (U : List (Dim α)) : merge Cmp [] (u :: U) = some (u :: U) := by
  simp [merge, merge_recurse_nil_cons]

theorem merge_nil_left (U : List (Dim α)) : merge Cmp [] U = some U := by
  cases U with
  | nil => exact merge_nil_nil Cmp
  | cons u U => exact merge_nil_cons Cmp u U

theorem merge_nil_right (T : List (Dim α)) : merge Cmp T [] = some T := by
  cases T with
  | nil => exact merge_nil_nil Cmp
  | cons t T => exact merge_cons_nil Cmp t T

/-- The step of `merge` without the accumulated pack. -/
theorem merge_cons_cons (t u : Dim α) (T U : List (Dim α)) :
    merge Cmp (t :: T) (u :: U) =
      if Cmp t.1 u.1 = some 1 then (merge Cmp (t :: T) U).map (fun l => u :: l)
      else if Cmp t.1 u.1 = some (-1) then (merge Cmp T (u :: U)).map (fun l => t :: l)
      else if Cmp t.1 u.1 = some 0 then
        if (ratio_add t.2 u.2).num = 0 then merge Cmp T U
        else (merge Cmp T U).map (fun l => (t.1, ratio_add t.2 u.2) :: l)
      else none := by
  unfold merge
  rw [merge_recurse_cons_cons]
  rw [merge_recurse_acc Cmp (t :: T) U ([] ++ [u]), merge_recurse_acc Cmp T (u :: U) ([] ++ [t]),
    merge_recurse_acc Cmp T U ([] ++ [(t.1, ratio_add t.2 u.2)])]
  simp

end MergeEquations

/-! ### `merge` on canonical sequences -/

section MergeCanonical
variable {α : Type} (Cmp : α → α → Option Int)

theorem merge_mem (A B : List (Dim α)) :
    ∀ r, merge Cmp A B = some r → ∀ x ∈ r,
      x ∈ A ∨ x ∈ B ∨ ∃ a ∈ A, ∃ b ∈ B,
        x = (a.1, ratio_add a.2 b.2) ∧ (ratio_add a.2 b.2).num ≠ 0 := by
  induction A generalizing B with
  | nil =>
    intro r hr x hx
    rw [merge_nil_left] at hr
    cases hr; exact Or.inr (Or.inl hx)
  | cons t T ihT =>
    induction B with
    | nil =>
      intro r hr x hx
      rw [merge_cons_nil] at hr
      cases hr; exact Or.inl hx
    | cons u U ihU =>
      intro r hr x hx
      rw [merge_cons_cons] at hr
      by_cases h1 : Cmp t.1 u.1 = some 1
      · rw [if_pos h1] at hr
        obtain ⟨r', hr', rfl⟩ := Option.map_eq_some'.mp hr
        rcases List.mem_cons.mp hx with rfl | hx
        · exact Or.inr (Or.inl (List.mem_cons_self _ _))
        · rcases ihU r' hr' x hx with h | h | ⟨a, ha, b, hb, h⟩
          · exact Or.inl h
          · exact Or.inr (Or.inl (List.mem_cons_of_mem _ h))
          · exact Or.inr (Or.inr ⟨a, ha, b, List.mem_cons_of_mem _ hb, h⟩)
      · by_cases h2 : Cmp t.1 u.1 = some (-1)
        · rw [if_neg h1, if_pos h2] at hr
          obtain ⟨r', hr', rfl⟩ := Option.map_eq_some'.mp hr
          rcases List.mem_cons.mp hx with rfl | hx
          · exact Or.inl (List.mem_cons_self _ _)
          · rcases ihT (u :: U) r' hr' x hx with h | h | ⟨a, ha, b, hb, h⟩
            · exact Or.inl (List.mem_cons_of_mem _ h)
            · exact Or.inr (Or.inl h)
            · exact Or.inr (Or.inr ⟨a, List.mem_cons_of_mem _ ha, b, hb, h⟩)
        · by_cases h3 : Cmp t.1 u.1 = some 0
          · rw [if_neg h1, if_neg h2, if_pos h3] at hr
            have key : ∀ r', merge Cmp T U = some r' → ∀ y ∈ r',
                y ∈ t :: T ∨ y ∈ u :: U ∨ ∃ a ∈ t :: T, ∃ b ∈ u :: U,
                  y = (a.1, ratio_add a.2 b.2) ∧ (ratio_add a.2 b.2).num ≠ 0 := by
              intro r' hr' y hy
              rcases ihT U r' hr' y hy with h | h | ⟨a, ha, b, hb, h⟩
              · exact Or.inl (List.mem_cons_of_mem _ h)
              · exact Or.inr (Or.inl (List.mem_cons_of_mem _ h))
              · exact Or.inr (Or.inr ⟨a, List.mem_cons_of_mem _ ha, b,
                  List.mem_cons_of_mem _ hb, h⟩)
            by_cases h4 : (ratio_add t.2 u.2).num = 0
            · rw [if_pos h4] at hr
              exact key r hr x hx
            · rw [if_neg h4] at hr
              obtain ⟨r', hr', rfl⟩ := Option.map_eq_some'.mp hr
              rcases List.mem_cons.mp hx with rfl | hx
              · exact Or.inr (Or.inr ⟨t, List.mem_cons_self _ _, u, List.mem_cons_self _ _,
                  rfl, h4⟩)
              · exact key r' hr' x hx
          · simp [h1, h2, h3] at hr

variable {Cmp}

theorem ThreeWayTotalOrder.refl (hC : ThreeWayTotalOrder Cmp) (a : α) : Cmp a a = some 0 := by
  rcases hC.three_way a a with h | h | h
  · have := hC.antisymm a a _ h
    rw [h] at this; simp at this
  · exact h
  · have := hC.antisymm a a _ h
    rw [h] at this; simp at this

theorem ThreeWayTotalOrder.gt_of_lt (hC : ThreeWayTotalOrder Cmp) {a b : α}
    (h : Cmp a b = some 1) : Cmp b a = some (-1) := hC.antisymm a b 1 h

theorem ThreeWayTotalOrder.irrefl (hC : ThreeWayTotalOrder Cmp) (a : α) :
    Cmp a a ≠ some (-1) := by
  rw [hC.refl a]; simp

/-- The bases of the result lie above every lower bound of the bases of the inputs. -/
theorem merge_lower_bound (A B : List (Dim α)) (c : α)
    (hA : ∀ p ∈ A, Cmp c p.1 = some (-1)) (hB : ∀ p ∈ B, Cmp c p.1 = some (-1))
    (r : List (Dim α)) (hr : merge Cmp A B = some r) :
    ∀ x ∈ r, Cmp c x.1 = some (-1) := by
  intro x hx
  rcases merge_mem Cmp A B r hr x hx with h | h | ⟨a, ha, b, _, rfl, _⟩
  · exact hA x h
  · exact hB x h
  · exact hA a ha

theorem merge_canonical (hC : ThreeWayTotalOrder Cmp) (A B : List (Dim α)) :
    StrictlyIncreasing Cmp A → StrictlyIncreasing Cmp B →
      ∃ r, merge Cmp A B = some r ∧ StrictlyIncreasing Cmp r := by
  induction A generalizing B with
  | nil =>
    intro _ hB
    exact ⟨B, merge_nil_left Cmp B, hB⟩
  | cons t T ihT =>
    induction B with
    | nil =>
      intro hA _
      exact ⟨t :: T, merge_cons_nil Cmp t T, hA⟩
    | cons u U ihU =>
      intro hA hB
      have hA' := List.pairwise_cons.mp hA
      have hB' := List.pairwise_cons.mp hB
      rw [merge_cons_cons]
      rcases hC.three_way t.1 u.1 with h | h | h
      · -- the head of `T` is copied
        have h1 : Cmp t.1 u.1 ≠ some 1 := by rw [h]; simp
        obtain ⟨r', hr', hs'⟩ := ihT (u :: U) hA'.2 hB
        refine ⟨t :: r', by simp [h, hr'], ?_⟩
        apply List.pairwise_cons.mpr
        refine ⟨?_, hs'⟩
        apply merge_lower_bound T (u :: U) t.1 hA'.1 _ r' hr'
        intro p hp
        rcases List.mem_cons.mp hp with rfl | hp
        · exact h
        · exact hC.trans _ _ _ h (hB'.1 p hp)
      · -- equal bases are combined
        have h1 : Cmp t.1 u.1 ≠ some 1 := by rw [h]; simp
        have h2 : Cmp t.1 u.1 ≠ some (-1) := by rw [h]; simp
        have e : t.1 = u.1 := hC.zero_eq _ _ h
        obtain ⟨r', hr', hs'⟩ := ihT U hA'.2 hB'.2
        by_cases h4 : (ratio_add t.2 u.2).num = 0
        · exact ⟨r', by simp [h, h4, hr'], hs'⟩
        · refine ⟨(t.1, ratio_add t.2 u.2) :: r', by simp [h, h4, hr'], ?_⟩
          apply List.pairwise_cons.mpr
          refine ⟨?_, hs'⟩
          apply merge_lower_bound T U t.1 hA'.1 _ r' hr'
          intro p hp
          rw [e]; exact hB'.1 p hp
      · -- the head of `U` is copied
        have hlt : Cmp u.1 t.1 = some (-1) := hC.gt_of_lt h
        obtain ⟨r', hr', hs'⟩ := ihU hA hB'.2
        refine ⟨u :: r', by simp [h, hr'], ?_⟩
        apply List.pairwise_cons.mpr
        refine ⟨?_, hs'⟩
        apply merge_lower_bound (t :: T) U u.1 _ hB'.1 r' hr'
        intro p hp
        rcases List.mem_cons.mp hp with rfl | hp
        · exact hlt
        · exact hC.trans _ _ _ hlt (hA'.1 p hp)

theorem merge_noZero (A B : List (Dim α)) (hA : NoZeroExponent A) (hB : NoZeroExponent B)
    (r : List (Dim α)) (hr : merge Cmp A B = some r) : NoZeroExponent r := by
  intro x hx
  rcases merge_mem Cmp A B r hr x hx with h | h | ⟨a, _, b, _, rfl, h⟩
  · exact hA x h
  · exact hB x h
  · exact h

theorem merge_valid (A B : List (Dim α)) (hA : ValidExponents A) (hB : ValidExponents B)
    (r : List (Dim α)) (hr : merge Cmp A B = some r) : ValidExponents r := by
  intro x hx
  rcases merge_mem Cmp A B r hr x hx with h | h | ⟨a, ha, b, hb, rfl, _⟩
  · exact hA x h
  · exact hB x h
  · exact (ratio_add_D_pos a.2 b.2 (hA a ha) (hB b hb)).ne'

theorem StrictlyIncreasing.nodup (hC : ThreeWayTotalOrder Cmp) {A : List (Dim α)}
    (hA : StrictlyIncreasing Cmp A) : (A.map Prod.fst).Nodup := by
  unfold StrictlyIncreasing at hA
  rw [List.Nodup, List.pairwise_map]
  refine hA.imp ?_
  intro p q h e
  rw [e] at h
  exact hC.irrefl _ h

end MergeCanonical

/-! ### The definitions of the test file are what the operators return -/

theorem yard_defn : mul_ratio meter ⟨9144, 10000⟩ = some (.scaled meter (.ratio ⟨1143, 1250⟩)) := by
  decide

theorem sq_meter_defn : mul meter meter = some (.compound [(meter, ⟨2, 1⟩)]) := by
  decide

theorem centimeter_defn : mul_ratio meter ⟨1, 100⟩ = some centimeter := by
  decide

/-! ### C1–C3: the scaled comparison and the algebra of `unit_multiply` -/

/-- C1 (code behaviour at the failing input): for the scaled units
`centimeter = std::centi() * meter` and `millisecond = std::milli() * second`,
whose bases differ, `unit_compare_impl` answers 1 in both directions, and
`unit_multiply` yields two different compound units for the two argument
orders. -/
theorem C1_unit_multiply_scaled_not_commutative :
    unit_compare_impl centimeter millisecond = some 1 ∧
    unit_compare_impl millisecond centimeter = some 1 ∧
    unit_multiply centimeter millisecond
      = some (.compound [(millisecond, ⟨1, 1⟩), (centimeter, ⟨1, 1⟩)]) ∧
    unit_multiply millisecond centimeter
      = some (.compound [(centimeter, ⟨1, 1⟩), (millisecond, ⟨1, 1⟩)]) ∧
    unit_multiply centimeter millisecond ≠ unit_multiply millisecond centimeter := by
  decide

/-- C2 (code behaviour at the failing input): with
`A = millisecond * decimeter` and `B = (centimeter / millisecond) / decimeter`,
both results of the unit operators with pairwise distinct bases and non-zero
exponents, `(A * B) / B` is a compound unit of four pairs, not `A`. -/
theorem C2_divide_product_not_identity :
    unit_multiply millisecond decimeter
      = some (.compound [(decimeter, ⟨1, 1⟩), (millisecond, ⟨1, 1⟩)]) ∧
    (unit_divide centimeter millisecond).bind (fun q => unit_divide q decimeter)
      = some (.compound [(decimeter, ⟨-1, 1⟩), (millisecond, ⟨-1, 1⟩), (centimeter, ⟨1, 1⟩)]) ∧
    (unit_multiply (.compound [(decimeter, ⟨1, 1⟩), (millisecond, ⟨1, 1⟩)])
        (.compound [(decimeter, ⟨-1, 1⟩), (millisecond, ⟨-1, 1⟩), (centimeter, ⟨1, 1⟩)])).bind
      (fun p => unit_divide p
        (.compound [(decimeter, ⟨-1, 1⟩), (millisecond, ⟨-1, 1⟩), (centimeter, ⟨1, 1⟩)]))
      = some (.compound [(centimeter, ⟨1, 1⟩), (decimeter, ⟨1, 1⟩), (millisecond, ⟨1, 1⟩),
          (centimeter, ⟨-1, 1⟩)]) := by
  decide

/-- C3 (code behaviour at the failing input): for `A = C = centimeter` and
`B = millisecond`, `(A * B) * C` lists the base `centimeter` twice, while
`A * (B * C)` is `centimeter^2 * millisecond`. -/
theorem C3_unit_multiply_not_associative :
    (unit_multiply centimeter millisecond).bind (fun p => unit_multiply p centimeter)
      = some (.compound [(centimeter, ⟨1, 1⟩), (millisecond, ⟨1, 1⟩), (centimeter, ⟨1, 1⟩)]) ∧
    (unit_multiply millisecond centimeter).bind (fun p => unit_multiply centimeter p)
      = some (.compound [(centimeter, ⟨2, 1⟩), (millisecond, ⟨1, 1⟩)]) := by
  decide

/-! ### C4, C5: `merge` keeps the canonical form and adds exponents -/

theorem nat_compare_order : ThreeWayTotalOrder nat_compare where
  three_way := by
    intro a b
    unfold nat_compare
    rcases lt_trichotomy a b with h | h | h
    · left; simp [h]
    · right; left; simp [h]
    · right; right
      rw [if_neg (by omega), if_neg (by omega)]
  antisymm := by
    intro a b x h
    unfold nat_compare at h ⊢
    rcases lt_trichotomy a b with h' | h' | h'
    · rw [if_pos h'] at h
      rw [if_neg (by omega), if_neg (by omega)]
      cases h; rfl
    · subst h'; simp at h ⊢; omega
    · rw [if_neg (by omega), if_neg (by omega)] at h
      rw [if_pos h']
      cases h; rfl
  trans := by
    intro a b c h1 h2
    unfold nat_compare at h1 h2 ⊢
    have hab : a < b := by
      by_contra hn
      rw [if_neg hn] at h1
      split_ifs at h1 <;> simp at h1
    have hbc : b < c := by
      by_contra hn
      rw [if_neg hn] at h2
      split_ifs at h2 <;> simp at h2
    rw [if_pos (by omega)]
  zero_eq := by
    intro a b h
    unfold nat_compare at h
    split_ifs at h with h1 h2
    · simp at h
    · exact h2
    · simp at h

/-- C4: for a comparator that is a three-way total order and two sequences
that are strictly increasing in it with no zero exponent, `merge` returns a
sequence that is strictly increasing (so no base occurs twice) and has no
pair with exponent 0. -/
theorem C4_merge_preserves_canonical {α : Type} (Cmp : α → α → Option Int)
    (hC : ThreeWayTotalOrder Cmp) (A B : List (Dim α))
    (hA : StrictlyIncreasing Cmp A) (hB : StrictlyIncreasing Cmp B)
    (hA0 : NoZeroExponent A) (hB0 : NoZeroExponent B) :
    ∃ r, merge Cmp A B = some r ∧ StrictlyIncreasing Cmp r ∧
      (r.map Prod.fst).Nodup ∧ NoZeroExponent r := by
  obtain ⟨r, hr, hs⟩ := merge_canonical hC A B hA hB
  exact ⟨r, hr, hs, hs.nodup hC, merge_noZero A B hA0 hB0 r hr⟩

theorem C4_merge_preserves_canonical_witness :
    ThreeWayTotalOrder nat_compare ∧
    StrictlyIncreasing nat_compare [(1, ⟨1, 1⟩), (3, ⟨1, 2⟩)] ∧
    StrictlyIncreasing nat_compare [(1, ⟨-1, 1⟩), (2, ⟨2, 1⟩), (3, ⟨1, 2⟩)] ∧
    NoZeroExponent [((1 : Nat), (⟨1, 1⟩ : Ratio)), (3, ⟨1, 2⟩)] ∧
    NoZeroExponent [((1 : Nat), (⟨-1, 1⟩ : Ratio)), (2, ⟨2, 1⟩), (3, ⟨1, 2⟩)] ∧
    merge nat_compare [(1, ⟨1, 1⟩), (3, ⟨1, 2⟩)] [(1, ⟨-1, 1⟩), (2, ⟨2, 1⟩), (3, ⟨1, 2⟩)]
      = some [(2, ⟨2, 1⟩), (3, ⟨1, 1⟩)] ∧
    ∃ r, merge nat_compare [(1, ⟨1, 1⟩), (3, ⟨1, 2⟩)]
        [(1, ⟨-1, 1⟩), (2, ⟨2, 1⟩), (3, ⟨1, 2⟩)] = some r ∧
      StrictlyIncreasing nat_compare r ∧ (r.map Prod.fst).Nodup ∧ NoZeroExponent r :=
  ⟨nat_compare_order, by unfold StrictlyIncreasing; decide, by unfold StrictlyIncreasing; decide,
    by unfold NoZeroExponent; decide, by unfold NoZeroExponent; decide, by decide,
    C4_merge_preserves_canonical nat_compare nat_compare_order _ _
      (by unfold StrictlyIncreasing; decide) (by unfold StrictlyIncreasing; decide)
      (by unfold NoZeroExponent; decide) (by unfold NoZeroExponent; decide)⟩

section MergeExponents
variable {α : Type} [DecidableEq α] {Cmp : α → α → Option Int}

theorem exponent_of_cons_self (p : Dim α) (L : List (Dim α)) :
    exponent_of p.1 (p :: L) = p.2.value := by
  simp [exponent_of]

theorem exponent_of_cons_ne (b : α) (p : Dim α) (L : List (Dim α)) (h : p.1 ≠ b) :
    exponent_of b (p :: L) = exponent_of b L := by
  simp [exponent_of, h]

theorem exponent_of_absent (b : α) (L : List (Dim α)) (h : ∀ p ∈ L, p.1 ≠ b) :
    exponent_of b L = 0 := by
  induction L with
  | nil => rfl
  | cons p L ih =>
    rw [exponent_of_cons_ne b p L (h p (List.mem_cons_self _ _))]
    exact ih (fun q hq => h q (List.mem_cons_of_mem _ hq))

theorem exponent_of_above (hC : ThreeWayTotalOrder Cmp) (b : α) (L : List (Dim α))
    (h : ∀ p ∈ L, Cmp b p.1 = some (-1)) : exponent_of b L = 0 := by
  apply exponent_of_absent
  intro p hp e
  have := h p hp
  rw [e] at this
  exact hC.irrefl b this

theorem exponent_of_present (b : α) (L : List (Dim α)) (h0 : NoZeroExponent L)
    (hv : ValidExponents L) (p : Dim α) (hp : p ∈ L) (e : p.1 = b) :
    exponent_of b L ≠ 0 := by
  induction L with
  | nil => cases hp
  | cons q L ih =>
    by_cases hq : q.1 = b
    · subst hq
      rw [exponent_of_cons_self]
      intro hz
      have hD := hv q (List.mem_cons_self _ _)
      exact h0 q (List.mem_cons_self _ _) ((Ratio.num_eq_zero_iff_value q.2 hD).mpr hz)
    · rw [exponent_of_cons_ne b q L hq]
      rcases List.mem_cons.mp hp with rfl | hp
      · exact absurd e hq
      · exact ih (fun x hx => h0 x (List.mem_cons_of_mem _ hx))
          (fun x hx => hv x (List.mem_cons_of_mem _ hx)) hp

theorem merge_exponent_of (hC : ThreeWayTotalOrder Cmp) (A B : List (Dim α)) :
    StrictlyIncreasing Cmp A → StrictlyIncreasing Cmp B →
    ValidExponents A → ValidExponents B →
    ∀ r, merge Cmp A B = some r →
      ∀ b, exponent_of b r = exponent_of b A + exponent_of b B := by
  induction A generalizing B with
  | nil =>
    intro _ _ _ _ r hr b
    rw [merge_nil_left] at hr
    cases hr
    simp [exponent_of]
  | cons t T ihT =>
    induction B with
    | nil =>
      intro _ _ _ _ r hr b
      rw [merge_cons_nil] at hr
      cases hr
      simp [exponent_of]
    | cons u U ihU =>
      intro hA hB hvA hvB r hr b
      have hA' := List.pairwise_cons.mp hA
      have hB' := List.pairwise_cons.mp hB
      have hvT : ValidExponents T := fun x hx => hvA x (List.mem_cons_of_mem _ hx)
      have hvU : ValidExponents U := fun x hx => hvB x (List.mem_cons_of_mem _ hx)
      rw [merge_cons_cons] at hr
      rcases hC.three_way t.1 u.1 with h | h | h
      · have h1 : Cmp t.1 u.1 ≠ some 1 := by rw [h]; simp
        rw [if_neg h1, if_pos h] at hr
        obtain ⟨r', hr', rfl⟩ := Option.map_eq_some'.mp hr
        have ih := ihT (u :: U) hA'.2 hB hvT hvB r' hr' b
        by_cases hb : t.1 = b
        · subst hb
          have hz : exponent_of t.1 (u :: U) = 0 := by
            apply exponent_of_above hC
            intro p hp
            rcases List.mem_cons.mp hp with rfl | hp
            · exact h
            · exact hC.trans _ _ _ h (hB'.1 p hp)
          rw [exponent_of_cons_self, exponent_of_cons_self, hz, add_zero]
        · rw [exponent_of_cons_ne b t r' hb, exponent_of_cons_ne b t T hb, ih]
      · have h1 : Cmp t.1 u.1 ≠ some 1 := by rw [h]; simp
        have h2 : Cmp t.1 u.1 ≠ some (-1) := by rw [h]; simp
        have e : t.1 = u.1 := hC.zero_eq _ _ h
        rw [if_neg h1, if_neg h2, if_pos h] at hr
        have hDt := hvA t (List.mem_cons_self _ _)
        have hDu := hvB u (List.mem_cons_self _ _)
        have hzT : exponent_of t.1 T = 0 := exponent_of_above hC _ _ hA'.1
        have hzU : exponent_of t.1 U = 0 := by
          rw [e]; exact exponent_of_above hC _ _ hB'.1
        by_cases h4 : (ratio_add t.2 u.2).num = 0
        · rw [if_pos h4] at hr
          have ih := ihT U hA'.2 hB'.2 hvT hvU r hr b
          by_cases hb : t.1 = b
          · subst hb
            have hu : exponent_of t.1 (u :: U) = u.2.value := by
              rw [e]; exact exponent_of_cons_self u U
            rw [ih, hzT, hzU, exponent_of_cons_self, hu]
            rw [(ratio_add_num_eq_zero_iff t.2 u.2 hDt hDu).mp h4]; simp
          · have hb' : u.1 ≠ b := by rw [← e]; exact hb
            rw [exponent_of_cons_ne b t T hb, exponent_of_cons_ne b u U hb', ih]
        · rw [if_neg h4] at hr
          obtain ⟨r', hr', rfl⟩ := Option.map_eq_some'.mp hr
          have ih := ihT U hA'.2 hB'.2 hvT hvU r' hr' b
          by_cases hb : t.1 = b
          · subst hb
            have hu : exponent_of t.1 (u :: U) = u.2.value := by
              rw [e]; exact exponent_of_cons_self u U
            rw [exponent_of_cons_self t T, hu]
            have : exponent_of t.1 ((t.1, ratio_add t.2 u.2) :: r')
                = (ratio_add t.2 u.2).value :=
              exponent_of_cons_self (t.1, ratio_add t.2 u.2) r'
            rw [this, ratio_add_value t.2 u.2 hDt hDu]
          · have hb' : u.1 ≠ b := by rw [← e]; exact hb
            rw [exponent_of_cons_ne b (t.1, ratio_add t.2 u.2) r' hb,
              exponent_of_cons_ne b t T hb, exponent_of_cons_ne b u U hb', ih]
      · have hlt : Cmp u.1 t.1 = some (-1) := hC.gt_of_lt h
        rw [if_pos h] at hr
        obtain ⟨r', hr', rfl⟩ := Option.map_eq_some'.mp hr
        have ih := ihU hA hB'.2 hvA hvU r' hr'
        by_cases hb : u.1 = b
        · subst hb
          have hz : exponent_of u.1 (t :: T) = 0 := by
            apply exponent_of_above hC
            intro p hp
            rcases List.mem_cons.mp hp with rfl | hp
            · exact hlt
            · exact hC.trans _ _ _ hlt (hA'.1 p hp)
          rw [exponent_of_cons_self, exponent_of_cons_self, hz, zero_add]
        · rw [exponent_of_cons_ne b u r' hb, exponent_of_cons_ne b u U hb, ih]

end MergeExponents

/-- C5: for a comparator that is a three-way total order and canonical
sorted inputs `A` and `B` (strictly increasing, no zero exponent), `merge`
returns a sequence in which the exponent of every base `b` (0 when absent)
is its exponent in `A` plus its exponent in `B`, and `b` is absent from the
result exactly when that sum is 0. -/
theorem C5_merge_sums_exponents {α : Type} [DecidableEq α] (Cmp : α → α → Option Int)
    (hC : ThreeWayTotalOrder Cmp) (A B : List (Dim α))
    (hA : StrictlyIncreasing Cmp A) (hB : StrictlyIncreasing Cmp B)
    (hA0 : NoZeroExponent A) (hB0 : NoZeroExponent B)
    (hvA : ValidExponents A) (hvB : ValidExponents B) :
    ∃ r, merge Cmp A B = some r ∧
      ∀ b, exponent_of b r = exponent_of b A + exponent_of b B ∧
        ((∀ p ∈ r, p.1 ≠ b) ↔ exponent_of b A + exponent_of b B = 0) := by
  obtain ⟨r, hr, _⟩ := merge_canonical hC A B hA hB
  refine ⟨r, hr, fun b => ?_⟩
  have hsum := merge_exponent_of hC A B hA hB hvA hvB r hr b
  refine ⟨hsum, ?_, ?_⟩
  · intro habs
    rw [← hsum]
    exact exponent_of_absent b r habs
  · intro hz p hp e
    rw [← hsum] at hz
    exact exponent_of_present b r (merge_noZero A B hA0 hB0 r hr)
      (merge_valid A B hvA hvB r hr) p hp e hz

theorem C5_merge_sums_exponents_witness :
    ThreeWayTotalOrder nat_compare ∧
    StrictlyIncreasing nat_compare [(1, ⟨1, 1⟩), (3, ⟨1, 2⟩)] ∧
    StrictlyIncreasing nat_compare [(1, ⟨-1, 1⟩), (2, ⟨2, 1⟩), (3, ⟨1, 2⟩)] ∧
    NoZeroExponent [((1 : Nat), (⟨1, 1⟩ : Ratio)), (3, ⟨1, 2⟩)] ∧
    NoZeroExponent [((1 : Nat), (⟨-1, 1⟩ : Ratio)), (2, ⟨2, 1⟩), (3, ⟨1, 2⟩)] ∧
    ValidExponents [((1 : Nat), (⟨1, 1⟩ : Ratio)), (3, ⟨1, 2⟩)] ∧
    ValidExponents [((1 : Nat), (⟨-1, 1⟩ : Ratio)), (2, ⟨2, 1⟩), (3, ⟨1, 2⟩)] ∧
    ∃ r, merge nat_compare [(1, ⟨1, 1⟩), (3, ⟨1, 2⟩)]
        [(1, ⟨-1, 1⟩), (2, ⟨2, 1⟩), (3, ⟨1, 2⟩)] = some r ∧
      ∀ b, exponent_of b r = exponent_of b [(1, ⟨1, 1⟩), (3, ⟨1, 2⟩)]
            + exponent_of b [(1, ⟨-1, 1⟩), (2, ⟨2, 1⟩), (3, ⟨1, 2⟩)] ∧
        ((∀ p ∈ r, p.1 ≠ b) ↔ exponent_of b [(1, ⟨1, 1⟩), (3, ⟨1, 2⟩)]
            + exponent_of b [(1, ⟨-1, 1⟩), (2, ⟨2, 1⟩), (3, ⟨1, 2⟩)] = 0) :=
  ⟨nat_compare_order, by unfold StrictlyIncreasing; decide, by unfold StrictlyIncreasing; decide,
    by unfold NoZeroExponent; decide, by unfold NoZeroExponent; decide,
    by unfold ValidExponents; decide, by unfold ValidExponents; decide,
    C5_merge_sums_exponents nat_compare nat_compare_order _ _
      (by unfold StrictlyIncreasing; decide) (by unfold StrictlyIncreasing; decide)
      (by unfold NoZeroExponent; decide) (by unfold NoZeroExponent; decide)
      (by unfold ValidExponents; decide) (by unfold ValidExponents; decide)⟩

/-! ### Converting a unit to itself -/

theorem const_strcmp_self (l : List Nat) : const_strcmp l l = 0 := by
  induction l with
  | nil => rfl
  | cons a l ih => simp [const_strcmp, ih]

theorem scale_compare_self (s : Scale) : scale_compare s s = some 0 := by
  cases s with
  | ratio r => simp [scale_compare, ratio_less]
  | computed i v => simp [scale_compare]

theorem unit_compare_compound_self (ps : List (U × Ratio)) :
    unit_compare_compound ps ps = some 0 := by
  induction ps with
  | nil => simp [unit_compare_compound]
  | cons p ps ih =>
    obtain ⟨b, e⟩ := p
    simp [unit_compare_compound, ih]

theorem unit_compare_impl_self : ∀ (T : U), Comparable T → unit_compare_impl T T = some 0
  | .fundamental i n, _ => by
    simp [unit_compare_impl, U.name?, const_strcmp_self]
  | .derived i n d, _ => by
    simp [unit_compare_impl, U.name?, const_strcmp_self]
  | .scaled b s, h => by
    have hb := unit_compare_impl_self b h
    simp [unit_compare_impl, hb, scale_compare_self]
  | .compound ps, _ => by
    simp [unit_compare_impl, unit_compare_compound_self]
  | .absolute _ _, h => by
    exact absurd h (by simp [Comparable])

theorem ratio_add_neg_self (e : Ratio) (h : e.D ≠ 0) :
    (ratio_add e (ratio_multiply e ⟨-1, 1⟩)).num = 0 := by
  have h1 : (⟨-1, 1⟩ : Ratio).D ≠ 0 := by decide
  rw [ratio_add_num_eq_zero_iff e _ h (ratio_multiply_D_pos e _ h h1).ne',
    ratio_multiply_value e _ h h1]
  simp [Ratio.value]

/-- Merging a pack with its own inverse cancels every pair. -/
theorem merge_inverse_self {α : Type} (Cmp : α → α → Option Int) (ps : List (Dim α))
    (h : ∀ p ∈ ps, Cmp p.1 p.1 = some 0 ∧ p.2.D ≠ 0) :
    merge Cmp ps (ps.map (fun p => (p.1, ratio_multiply p.2 ⟨-1, 1⟩))) = some [] := by
  induction ps with
  | nil => exact merge_nil_nil Cmp
  | cons p ps ih =>
    have hp := h p (List.mem_cons_self _ _)
    rw [List.map_cons, merge_cons_cons]
    have h1 : Cmp p.1 p.1 ≠ some 1 := by rw [hp.1]; simp
    have h2 : Cmp p.1 p.1 ≠ some (-1) := by rw [hp.1]; simp
    rw [if_neg h1, if_neg h2, if_pos hp.1, if_pos (ratio_add_neg_self p.2 hp.2)]
    exact ih (fun q hq => h q (List.mem_cons_of_mem _ hq))

theorem as_compound_unit_not_compound (T : U) (h : T.isCompound = false) :
    as_compound_unit T = [(T, ⟨1, 1⟩)] := by
  cases T <;> simp [as_compound_unit, U.isCompound] at h ⊢

theorem as_compound_simplify_compound (ps : List (U × Ratio))
    (h : ∀ p ∈ ps, p.1.isCompound = false) :
    as_compound_unit (simplify_unit (.compound ps)) = ps := by
  match ps, h with
  | [], _ => simp [simplify_unit, as_compound_unit]
  | [(T, e)], h =>
    by_cases he : e = ⟨1, 1⟩
    · subst he
      simp only [simplify_unit, if_true]
      exact as_compound_unit_not_compound T (h (T, _) (List.mem_cons_self _ _))
    · simp [simplify_unit, he, as_compound_unit]
  | _ :: _ :: _, _ => simp [simplify_unit, as_compound_unit]

theorem unit_divide_self (T : U) (h : DimsOk (as_compound_unit T)) :
    unit_divide T T = some (.compound []) := by
  unfold unit_divide unit_multiply compound_unit_multiply unit_pow unit_pow_impl
  rw [if_neg (by decide)]
  rw [as_compound_simplify_compound]
  · rw [merge_inverse_self]
    · simp [simplify_unit]
    · intro p hp
      exact ⟨unit_compare_impl_self p.1 (h p hp).1, (h p hp).2.2⟩
  · intro p hp
    obtain ⟨q, hq, rfl⟩ := List.mem_map.mp hp
    exact (h q hq).2.1

theorem flatten_scale_dimensionless : flatten_scale (.compound []) = some [] := by
  simp [flatten_scale, flatten_scale_pack, mp_fold]

theorem fold_conversion_nil : fold_conversion [] = some (.ratio ⟨1, 1⟩) := by
  simp [fold_conversion, evaluate_power_pack, mp_fold]

/-- With `visit` read as the declared member `_boost_units2_apply`: for every unit `U` (base, scaled or compound, with a well-formed
pack) whose dimension is computed, `unit_divide(U, U)` is the empty compound
unit, its flattened scale list is empty, `fold_conversion` of the empty list
is `std::ratio<1, 1>` (no `multiplier` is formed), and so
`conversion_factor(U, U)` is the ratio 1/1, which denotes 1. -/
theorem declared_conversion_factor_self (T : U) (hT : UnitOk T) (d : U)
    (hd : dimension_check T = some d) :
    unit_divide T T = some (.compound []) ∧
    flatten_scale (.compound []) = some [] ∧
    fold_conversion [] = some (.ratio ⟨1, 1⟩) ∧
    conversion_factor T T = .ok (.ratio ⟨1, 1⟩) ∧
    Val.denote (.ratio ⟨1, 1⟩) = some 1 := by
  refine ⟨unit_divide_self T hT.2, flatten_scale_dimensionless, fold_conversion_nil, ?_, ?_⟩
  · unfold conversion_factor
    simp [hT.1, hd, unit_divide_self T hT.2, flatten_scale_dimensionless, fold_conversion_nil]
  · simp [Val.denote, Ratio.value]

theorem inch_ok : UnitOk inch := by
  refine ⟨by decide, ?_⟩
  intro p hp
  simp [as_compound_unit, inch] at hp
  subst hp
  simp [Comparable, U.isCompound]

theorem declared_conversion_factor_self_witness :
    UnitOk inch ∧ dimension_check inch = some length ∧
    (unit_divide inch inch = some (.compound []) ∧
    flatten_scale (.compound []) = some [] ∧
    fold_conversion [] = some (.ratio ⟨1, 1⟩) ∧
    conversion_factor inch inch = .ok (.ratio ⟨1, 1⟩) ∧
    Val.denote (.ratio ⟨1, 1⟩) = some 1) :=
  ⟨inch_ok, by decide, declared_conversion_factor_self inch inch_ok length (by decide)⟩

/-! ### The conversion factor is the ratio of the total scales -/

theorem ratio_add_integer (a b : Ratio) (ha : a.den = 1) (hb : b.den = 1) :
    (ratio_add a b).D ≠ 0 ∧ (ratio_add a b).den = 1 ∧ (ratio_add a b).num = a.num + b.num := by
  have e : ratio_add a b = Ratio.type ⟨a.num + b.num, 1⟩ := by
    unfold ratio_add; rw [ha, hb]; simp
  have h1 : (Ratio.type ⟨a.num + b.num, 1⟩).D = 1 := by
    simp [Ratio.type, Ratio.den]
  have h2 : (Ratio.type ⟨a.num + b.num, 1⟩).N = a.num + b.num := by
    have := Ratio.num_mul_gcd ⟨a.num + b.num, 1⟩
    simp [Ratio.sgn] at this
    simpa [Ratio.type] using this
  rw [e]
  refine ⟨by rw [h1]; decide, ?_, ?_⟩
  · rw [show (Ratio.type ⟨a.num + b.num, 1⟩) = ⟨a.num + b.num, 1⟩ from by
      cases h : Ratio.type ⟨a.num + b.num, 1⟩; simp_all]
    simp [Ratio.den]
  · rw [show (Ratio.type ⟨a.num + b.num, 1⟩) = ⟨a.num + b.num, 1⟩ from by
      cases h : Ratio.type ⟨a.num + b.num, 1⟩; simp_all]
    have := Ratio.num_mul_gcd ⟨a.num + b.num, 1⟩
    simpa [Ratio.sgn] using this

theorem ratio_multiply_integer (a b : Ratio) (ha : a.den = 1) (hb : b.den = 1) :
    (ratio_multiply a b).D ≠ 0 ∧ (ratio_multiply a b).den = 1 ∧
      (ratio_multiply a b).num = a.num * b.num := by
  have e : ratio_multiply a b = Ratio.type ⟨a.num * b.num, 1⟩ := by
    unfold ratio_multiply; rw [ha, hb]; simp
  have h1 : (Ratio.type ⟨a.num * b.num, 1⟩).D = 1 := by
    simp [Ratio.type, Ratio.den]
  have h2 : (Ratio.type ⟨a.num * b.num, 1⟩).N = a.num * b.num := by
    have := Ratio.num_mul_gcd ⟨a.num * b.num, 1⟩
    simp [Ratio.sgn] at this
    simpa [Ratio.type] using this
  have h3 : Ratio.type ⟨a.num * b.num, 1⟩ = ⟨a.num * b.num, 1⟩ := by
    cases h : Ratio.type ⟨a.num * b.num, 1⟩; simp_all
  rw [e, h3]
  refine ⟨by simp, by simp [Ratio.den], ?_⟩
  have := Ratio.num_mul_gcd ⟨a.num * b.num, 1⟩
  simpa [Ratio.sgn] using this

theorem merge_integer {α : Type} (Cmp : α → α → Option Int) (A B : List (Dim α))
    (hA : IntegerExponents A) (hB : IntegerExponents B)
    (r : List (Dim α)) (hr : merge Cmp A B = some r) : IntegerExponents r := by
  intro x hx
  rcases merge_mem Cmp A B r hr x hx with h | h | ⟨a, ha, b, hb, rfl, _⟩
  · exact hA x h
  · exact hB x h
  · have := ratio_add_integer a.2 b.2 (hA a ha).2 (hB b hb).2
    exact ⟨this.1, this.2.1⟩

/-- The bases of the result are bases of the inputs. -/
theorem merge_base_mem {α : Type} (Cmp : α → α → Option Int) (A B : List (Dim α))
    (r : List (Dim α)) (hr : merge Cmp A B = some r) :
    ∀ x ∈ r, (∃ a ∈ A, a.1 = x.1) ∨ (∃ b ∈ B, b.1 = x.1) := by
  intro x hx
  rcases merge_mem Cmp A B r hr x hx with h | h | ⟨a, ha, b, _, rfl, _⟩
  · exact Or.inl ⟨x, h, rfl⟩
  · exact Or.inr ⟨x, h, rfl⟩
  · exact Or.inl ⟨a, ha, rfl⟩

/-- The product of the powers is multiplicative over `merge`, whatever the
order of the sequences, when bases that compare equal have the same value. -/
theorem merge_product {α : Type} (Cmp : α → α → Option Int) (val : α → ℚ)
    (A B : List (Dim α)) :
    IntegerExponents A → IntegerExponents B →
    (∀ p ∈ A, val p.1 ≠ 0) →
    (∀ a ∈ A, ∀ b ∈ B, Cmp a.1 b.1 = some 0 → val a.1 = val b.1) →
    ∀ r, merge Cmp A B = some r →
      dims_product val r = dims_product val A * dims_product val B := by
  induction A generalizing B with
  | nil =>
    intro _ _ _ _ r hr
    rw [merge_nil_left] at hr
    cases hr
    simp [dims_product]
  | cons t T ihT =>
    induction B with
    | nil =>
      intro _ _ _ _ r hr
      rw [merge_cons_nil] at hr
      cases hr
      simp [dims_product]
    | cons u U ihU =>
      intro hA hB hnz hval r hr
      have hT : IntegerExponents T := fun x hx => hA x (List.mem_cons_of_mem _ hx)
      have hU : IntegerExponents U := fun x hx => hB x (List.mem_cons_of_mem _ hx)
      have hnzT : ∀ p ∈ T, val p.1 ≠ 0 := fun x hx => hnz x (List.mem_cons_of_mem _ hx)
      rw [merge_cons_cons] at hr
      by_cases h1 : Cmp t.1 u.1 = some 1
      · rw [if_pos h1] at hr
        obtain ⟨r', hr', rfl⟩ := Option.map_eq_some'.mp hr
        have ih := ihU hA hU hnz
          (fun a ha b hb => hval a ha b (List.mem_cons_of_mem _ hb)) r' hr'
        simp only [dims_product] at ih ⊢
        rw [ih]; ring
      · by_cases h2 : Cmp t.1 u.1 = some (-1)
        · rw [if_neg h1, if_pos h2] at hr
          obtain ⟨r', hr', rfl⟩ := Option.map_eq_some'.mp hr
          have ih := ihT (u :: U) hT hB hnzT
            (fun a ha b hb => hval a (List.mem_cons_of_mem _ ha) b hb) r' hr'
          simp only [dims_product] at ih ⊢
          rw [ih]; ring
        · by_cases h3 : Cmp t.1 u.1 = some 0
          · rw [if_neg h1, if_neg h2, if_pos h3] at hr
            have hv : val t.1 = val u.1 :=
              hval t (List.mem_cons_self _ _) u (List.mem_cons_self _ _) h3
            have hnt : val t.1 ≠ 0 := hnz t (List.mem_cons_self _ _)
            have hint := ratio_add_integer t.2 u.2 (hA t (List.mem_cons_self _ _)).2
              (hB u (List.mem_cons_self _ _)).2
            have ih := fun r' hr' => ihT U hT hU hnzT
              (fun a ha b hb => hval a (List.mem_cons_of_mem _ ha) b
                (List.mem_cons_of_mem _ hb)) r' hr'
            have hpow : val t.1 ^ t.2.num * val u.1 ^ u.2.num
                = val t.1 ^ (ratio_add t.2 u.2).num := by
              rw [hint.2.2, ← hv, zpow_add₀ hnt]
            by_cases h4 : (ratio_add t.2 u.2).num = 0
            · rw [if_pos h4] at hr
              have := ih r hr
              simp only [dims_product]
              rw [this]
              have h5 : val t.1 ^ t.2.num * val u.1 ^ u.2.num = 1 := by
                rw [hpow, h4, zpow_zero]
              calc dims_product val T * dims_product val U
                  = (val t.1 ^ t.2.num * val u.1 ^ u.2.num)
                      * (dims_product val T * dims_product val U) := by rw [h5, one_mul]
                _ = _ := by ring
            · rw [if_neg h4] at hr
              obtain ⟨r', hr', rfl⟩ := Option.map_eq_some'.mp hr
              have := ih r' hr'
              simp only [dims_product]
              rw [this, ← hpow]; ring
          · simp [h1, h2, h3] at hr

theorem PositiveRatio.value_pos {s : Scale} (h : PositiveRatio s) : 0 < s.value := by
  cases s with
  | ratio r =>
    simp only [PositiveRatio] at h
    simp only [Scale.value, Ratio.value]
    have h1 : (0 : ℚ) < (r.N : ℚ) := by exact_mod_cast h.1
    have h2 : (0 : ℚ) < (r.D : ℚ) := by exact_mod_cast h.2
    exact div_pos h1 h2
  | computed i v => exact absurd h (by simp [PositiveRatio])

theorem ratio_compare_zero_value (a b : Ratio) (ha : a.D ≠ 0) (hb : b.D ≠ 0)
    (h1 : ratio_less a b = false) (h2 : ratio_less b a = false) : a.value = b.value := by
  simp only [ratio_less, decide_eq_false_iff_not, not_lt] at h1 h2
  have e : a.num * b.den = b.num * a.den := le_antisymm h2 h1
  have hda : (a.den : ℚ) ≠ 0 := by exact_mod_cast (Ratio.den_pos a ha).ne'
  have hdb : (b.den : ℚ) ≠ 0 := by exact_mod_cast (Ratio.den_pos b hb).ne'
  rw [← Ratio.num_div_den a ha, ← Ratio.num_div_den b hb, div_eq_div_iff hda hdb]
  exact_mod_cast e

theorem scale_compare_zero_value (a b : Scale) (ha : PositiveRatio a) (hb : PositiveRatio b)
    (h : scale_compare a b = some 0) : a.value = b.value := by
  cases a with
  | computed i v => exact absurd ha (by simp [PositiveRatio])
  | ratio r =>
    cases b with
    | computed i v => exact absurd hb (by simp [PositiveRatio])
    | ratio q =>
      simp only [PositiveRatio] at ha hb
      simp only [scale_compare, Option.some.injEq] at h
      simp only [Scale.value]
      apply ratio_compare_zero_value r q ha.2.ne' hb.2.ne'
      · by_contra hc
        simp only [Bool.not_eq_false] at hc
        rw [if_pos hc] at h
        simp at h
      · by_contra hc
        simp only [Bool.not_eq_false] at hc
        split_ifs at h; simp at h

theorem scale_list_multiply_product (A B : List (Dim Scale))
    (hA : RatioScaleList A) (hB : RatioScaleList B) (r : List (Dim Scale))
    (hr : scale_list_multiply A B = some r) :
    RatioScaleList r ∧
      dims_product Scale.value r = dims_product Scale.value A * dims_product Scale.value B := by
  unfold scale_list_multiply at hr
  refine ⟨⟨merge_integer _ A B hA.1 hB.1 r hr, ?_⟩, ?_⟩
  · intro x hx
    rcases merge_base_mem _ A B r hr x hx with ⟨a, ha, e⟩ | ⟨b, hb, e⟩
    · rw [← e]; exact hA.2 a ha
    · rw [← e]; exact hB.2 b hb
  · apply merge_product scale_compare Scale.value A B hA.1 hB.1
    · intro p hp; exact (hA.2 p hp).value_pos.ne'
    · intro a ha b hb h
      exact scale_compare_zero_value a.1 b.1 (hA.2 a ha) (hB.2 b hb) h
    · exact hr

theorem scale_list_pow_product (l : List (Dim Scale)) (hl : RatioScaleList l) (R : Ratio)
    (hR : R.den = 1) :
    RatioScaleList (scale_list_pow l R) ∧
      dims_product Scale.value (scale_list_pow l R) = dims_product Scale.value l ^ R.num := by
  induction l with
  | nil =>
    refine ⟨⟨?_, ?_⟩, ?_⟩
    · intro p hp; simp [scale_list_pow] at hp
    · intro p hp; simp [scale_list_pow] at hp
    · simp [scale_list_pow, dims_product]
  | cons p l ih =>
    have hl' : RatioScaleList l :=
      ⟨fun x hx => hl.1 x (List.mem_cons_of_mem _ hx), fun x hx => hl.2 x (List.mem_cons_of_mem _ hx)⟩
    obtain ⟨⟨ih1, ih2⟩, ih3⟩ := ih hl'
    have hp := hl.1 p (List.mem_cons_self _ _)
    have hm := ratio_multiply_integer p.2 R hp.2 hR
    refine ⟨⟨?_, ?_⟩, ?_⟩
    · intro x hx
      simp only [scale_list_pow, List.map_cons, List.mem_cons] at hx
      rcases hx with rfl | hx
      · exact ⟨hm.1, hm.2.1⟩
      · exact ih1 x hx
    · intro x hx
      simp only [scale_list_pow, List.map_cons, List.mem_cons] at hx
      rcases hx with rfl | hx
      · exact hl.2 p (List.mem_cons_self _ _)
      · exact ih2 x hx
    · have : dims_product Scale.value (scale_list_pow (p :: l) R)
          = Scale.value p.1 ^ (ratio_multiply p.2 R).num
            * dims_product Scale.value (scale_list_pow l R) := by
        simp [scale_list_pow, dims_product]
      rw [this, ih3, hm.2.2, zpow_mul]
      simp only [dims_product]
      rw [mul_zpow]

/-- The fold of `scale_list_multiply` over a pack of scale lists. -/
theorem mp_fold_scale_product (L : List (List (Dim Scale))) :
    (∀ l ∈ L, RatioScaleList l) → ∀ acc, RatioScaleList acc →
    ∀ r, mp_fold scale_list_multiply L acc = some r →
      RatioScaleList r ∧
        dims_product Scale.value r
          = dims_product Scale.value acc * (L.map (dims_product Scale.value)).prod := by
  induction L with
  | nil =>
    intro _ acc hacc r hr
    simp only [mp_fold, Option.some.injEq] at hr
    subst hr
    exact ⟨hacc, by simp⟩
  | cons l L ih =>
    intro hL acc hacc r hr
    simp only [mp_fold] at hr
    cases hm : scale_list_multiply acc l with
    | none => rw [hm] at hr; simp at hr
    | some w =>
      rw [hm] at hr
      have h1 := scale_list_multiply_product acc l hacc (hL l (List.mem_cons_self _ _)) w hm
      have h2 := ih (fun x hx => hL x (List.mem_cons_of_mem _ hx)) w h1.1 r hr
      refine ⟨h2.1, ?_⟩
      rw [h2.2, h1.2, List.map_cons, List.prod_cons]; ring

theorem RatioScaleList.nil : RatioScaleList [] :=
  ⟨fun _ h => absurd h (List.not_mem_nil _), fun _ h => absurd h (List.not_mem_nil _)⟩

theorem RatioScaleList.single (r : Ratio) (h : 0 < r.N ∧ 0 < r.D) :
    RatioScaleList [(Scale.ratio r, ⟨1, 1⟩)] := by
  refine ⟨?_, ?_⟩
  · intro p hp
    simp only [List.mem_singleton] at hp
    subst hp
    exact ⟨by simp, by simp [Ratio.den]⟩
  · intro p hp
    simp only [List.mem_singleton] at hp
    subst hp
    exact h

mutual
/-- The flattened scale list of a unit multiplies up to its total scale. -/
theorem flatten_scale_product : ∀ (T : U), RatioScaled T →
    ∀ l, flatten_scale T = some l →
      RatioScaleList l ∧ dims_product Scale.value l = total_scale T
  | .fundamental _ _, _, l, hl => by
    simp only [flatten_scale, Option.some.injEq] at hl
    subst hl
    exact ⟨RatioScaleList.nil, by simp [dims_product, total_scale]⟩
  | .derived _ _ d, h, l, hl => by
    simp only [flatten_scale] at hl
    simp only [RatioScaled] at h
    have := flatten_scale_product d h l hl
    exact ⟨this.1, by rw [this.2]; simp [total_scale]⟩
  | .scaled b (.ratio r), h, l, hl => by
    simp only [RatioScaled] at h
    simp only [flatten_scale] at hl
    cases hb : flatten_scale b with
    | none => rw [hb] at hl; simp at hl
    | some fb =>
      rw [hb] at hl
      have ih := flatten_scale_product b h.1 fb hb
      have := scale_list_multiply_product fb _ ih.1 (RatioScaleList.single r h.2) l hl
      refine ⟨this.1, ?_⟩
      rw [this.2, ih.2]
      simp [dims_product, total_scale, Ratio.num, Ratio.sgn, mul_comm]
  | .scaled _ (.computed _ _), h, _, _ => by
    simp [RatioScaled] at h
  | .compound ps, h, l, hl => by
    simp only [RatioScaled] at h
    simp only [flatten_scale] at hl
    cases hp : flatten_scale_pack ps with
    | none => rw [hp] at hl; simp at hl
    | some L =>
      rw [hp] at hl
      have ih := flatten_scale_pack_product ps h L hp
      have := mp_fold_scale_product L ih.1 [] RatioScaleList.nil l hl
      refine ⟨this.1, ?_⟩
      rw [this.2, ih.2]
      simp [dims_product, total_scale]
  | .absolute _ _, h, _, _ => by
    simp [RatioScaled] at h
/-- The pack of flattened scale lists of a compound unit. -/
theorem flatten_scale_pack_product : ∀ (ps : List (U × Ratio)), RatioScaledDims ps →
    ∀ L, flatten_scale_pack ps = some L →
      (∀ l ∈ L, RatioScaleList l) ∧
        (L.map (dims_product Scale.value)).prod = total_scale_dims ps
  | [], _, L, hL => by
    simp only [flatten_scale_pack, Option.some.injEq] at hL
    subst hL
    exact ⟨fun _ h => absurd h (List.not_mem_nil _), by simp [total_scale_dims]⟩
  | (b, e) :: ps, h, L, hL => by
    simp only [RatioScaledDims] at h
    simp only [flatten_scale_pack] at hL
    cases hb : flatten_scale b with
    | none => rw [hb] at hL; simp at hL
    | some fb =>
      cases hp : flatten_scale_pack ps with
      | none => rw [hb, hp] at hL; simp at hL
      | some L' =>
        rw [hb, hp] at hL
        simp only [Option.some.injEq] at hL
        subst hL
        have ihb := flatten_scale_product b h.1 fb hb
        have ihp := flatten_scale_pack_product ps h.2.2.2.2 L' hp
        have hpow := scale_list_pow_product fb ihb.1 e h.2.2.2.1
        refine ⟨?_, ?_⟩
        · intro l hl
          rcases List.mem_cons.mp hl with rfl | hl
          · exact hpow.1
          · exact ihp.1 l hl
        · rw [List.map_cons, List.prod_cons, hpow.2, ihb.2, ihp.2]
          simp [total_scale_dims]
end

theorem ratioScaledDims_iff (ps : List (U × Ratio)) :
    RatioScaledDims ps ↔ RatioScaledPack ps := by
  induction ps with
  | nil => simp [RatioScaledDims, RatioScaledPack]
  | cons p ps ih =>
    obtain ⟨b, e⟩ := p
    simp only [RatioScaledDims, RatioScaledPack, List.mem_cons, forall_eq_or_imp, ih]
    constructor
    · rintro ⟨h1, h2, h3, h4, h5⟩
      exact ⟨⟨h1, h2, h3, h4⟩, h5⟩
    · rintro ⟨⟨h1, h2, h3, h4⟩, h5⟩
      exact ⟨h1, h2, h3, h4, h5⟩

theorem total_scale_dims_eq (ps : List (U × Ratio)) :
    total_scale_dims ps = dims_product total_scale ps := by
  induction ps with
  | nil => simp [total_scale_dims, dims_product]
  | cons p ps ih =>
    obtain ⟨b, e⟩ := p
    simp [total_scale_dims, dims_product, ih]

mutual
theorem total_scale_pos : ∀ (T : U), RatioScaled T → 0 < total_scale T
  | .fundamental _ _, _ => by simp [total_scale]
  | .derived _ _ d, h => by
    simp only [RatioScaled] at h
    simpa [total_scale] using total_scale_pos d h
  | .scaled b (.ratio r), h => by
    simp only [RatioScaled] at h
    have h1 := total_scale_pos b h.1
    have h2 : 0 < (Scale.ratio r).value := PositiveRatio.value_pos (s := .ratio r) h.2
    simpa [total_scale] using mul_pos h2 h1
  | .scaled _ (.computed _ _), h => by simp [RatioScaled] at h
  | .compound ps, h => by
    simp only [RatioScaled] at h
    simpa [total_scale] using total_scale_dims_pos ps h
  | .absolute _ _, h => by simp [RatioScaled] at h
theorem total_scale_dims_pos : ∀ (ps : List (U × Ratio)), RatioScaledDims ps →
    0 < total_scale_dims ps
  | [], _ => by simp [total_scale_dims]
  | (b, e) :: ps, h => by
    simp only [RatioScaledDims] at h
    have h1 := total_scale_pos b h.1
    have h2 := total_scale_dims_pos ps h.2.2.2.2
    simpa [total_scale_dims] using mul_pos (zpow_pos h1 e.num) h2
end

theorem unit_compare_compound_zero : ∀ (ps qs : List (U × Ratio)),
    unit_compare_compound ps qs = some 0 → ps = qs
  | [], [], _ => rfl
  | [], _ :: _, h => by simp [unit_compare_compound] at h
  | _ :: _, [], h => by simp [unit_compare_compound] at h
  | (tb, te) :: T, (ub, ue) :: V, h => by
    simp only [unit_compare_compound] at h
    by_cases e : tb = ub ∧ te = ue
    · rw [if_pos e] at h
      rw [e.1, e.2, unit_compare_compound_zero T V h]
    · rw [if_neg e] at h
      cases hc : unit_compare_impl tb ub with
      | none => rw [hc] at h; simp at h
      | some c =>
        rw [hc] at h
        simp only at h
        by_cases h0 : c ≠ 0
        · rw [if_pos h0] at h
          simp only [Option.some.injEq] at h
          exact absurd h h0
        · rw [if_neg h0] at h
          split_ifs at h <;> simp at h

theorem unit_compare_zero_scale : ∀ (T V : U), RatioScaled T → RatioScaled V →
    unit_compare_impl T V = some 0 → total_scale T = total_scale V
  | .scaled b1 (.ratio r1), .scaled b2 (.ratio r2), hT, hV, h => by
    simp only [RatioScaled] at hT hV
    simp only [unit_compare_impl] at h
    cases hc : unit_compare_impl b1 b2 with
    | none => rw [hc] at h; simp at h
    | some c =>
      rw [hc] at h
      simp only at h
      by_cases h0 : c ≠ 0
      · rw [if_pos h0] at h
        simp [boolToInt, h0] at h
      · rw [if_neg h0] at h
        have hc0 : c = 0 := not_not.mp h0
        subst hc0
        have ih := unit_compare_zero_scale b1 b2 hT.1 hV.1 hc
        have hs := scale_compare_zero_value (.ratio r1) (.ratio r2) hT.2 hV.2 h
        simp only [total_scale]
        rw [ih, hs]
  | .scaled _ (.computed _ _), _, hT, _, _ => by simp [RatioScaled] at hT
  | _, .scaled _ (.computed _ _), _, hV, _ => by simp [RatioScaled] at hV
  | .absolute _ _, _, hT, _, _ => by simp [RatioScaled] at hT
  | _, .absolute _ _, _, hV, _ => by simp [RatioScaled] at hV
  | .compound ps, .compound qs, _, _, h => by
    simp only [unit_compare_impl] at h
    rw [unit_compare_compound_zero ps qs h]
  | .fundamental i n, .fundamental j m, _, _, h => by
    simp only [unit_compare_impl, U.name?] at h
    split_ifs at h with hc
    simp only [Option.some.injEq] at h
    rcases hc with hc | hc
    · rw [hc]
    · exact absurd h hc
  | .fundamental i n, .derived j m d, _, _, h => by
    simp [unit_compare_impl, U.name?] at h
  | .derived i n d, .fundamental j m, _, _, h => by
    simp [unit_compare_impl, U.name?] at h
  | .derived i n d, .derived j m d2, _, _, h => by
    simp only [unit_compare_impl, U.name?] at h
    split_ifs at h with hc
    simp only [Option.some.injEq] at h
    rcases hc with hc | hc
    · rw [hc]
    · exact absurd h hc
  | .fundamental _ _, .scaled _ (.ratio _), _, _, h => by simp [unit_compare_impl] at h
  | .derived _ _ _, .scaled _ (.ratio _), _, _, h => by simp [unit_compare_impl] at h
  | .scaled _ (.ratio _), .fundamental _ _, _, _, h => by simp [unit_compare_impl] at h
  | .scaled _ (.ratio _), .derived _ _ _, _, _, h => by simp [unit_compare_impl] at h
  | .fundamental _ _, .compound _, _, _, h => by simp [unit_compare_impl] at h
  | .derived _ _ _, .compound _, _, _, h => by simp [unit_compare_impl] at h
  | .scaled _ (.ratio _), .compound _, _, _, h => by simp [unit_compare_impl] at h
  | .compound _, .fundamental _ _, _, _, h => by simp [unit_compare_impl] at h
  | .compound _, .derived _ _ _, _, _, h => by simp [unit_compare_impl] at h
  | .compound _, .scaled _ (.ratio _), _, _, h => by simp [unit_compare_impl] at h

theorem as_compound_unit_pack (T : U) (h : RatioScaled T) :
    RatioScaledPack (as_compound_unit T) ∧
      total_scale_dims (as_compound_unit T) = total_scale T := by
  cases T with
  | compound ps =>
    simp only [RatioScaled] at h
    exact ⟨(ratioScaledDims_iff ps).mp h, by simp [as_compound_unit, total_scale]⟩
  | fundamental i n =>
    refine ⟨?_, by simp [as_compound_unit, total_scale_dims, Ratio.num, Ratio.sgn]⟩
    intro p hp
    simp only [as_compound_unit, List.mem_singleton] at hp
    subst hp
    exact ⟨h, rfl, by simp, by simp [Ratio.den]⟩
  | derived i n d =>
    refine ⟨?_, by simp [as_compound_unit, total_scale_dims, Ratio.num, Ratio.sgn]⟩
    intro p hp
    simp only [as_compound_unit, List.mem_singleton] at hp
    subst hp
    exact ⟨h, rfl, by simp, by simp [Ratio.den]⟩
  | scaled b s =>
    refine ⟨?_, by simp [as_compound_unit, total_scale_dims, Ratio.num, Ratio.sgn]⟩
    intro p hp
    simp only [as_compound_unit, List.mem_singleton] at hp
    subst hp
    exact ⟨h, rfl, by simp, by simp [Ratio.den]⟩
  | absolute u o => simp [RatioScaled] at h

theorem neg_one_integer : (⟨-1, 1⟩ : Ratio).den = 1 ∧ (⟨-1, 1⟩ : Ratio).num = -1 := by
  decide

theorem inverse_pack (ps : List (U × Ratio)) (h : RatioScaledPack ps) :
    RatioScaledPack (ps.map (fun p => (p.1, ratio_multiply p.2 ⟨-1, 1⟩))) ∧
      total_scale_dims (ps.map (fun p => (p.1, ratio_multiply p.2 ⟨-1, 1⟩)))
        = (total_scale_dims ps)⁻¹ := by
  induction ps with
  | nil =>
    exact ⟨fun _ hp => absurd hp (List.not_mem_nil _), by simp [total_scale_dims]⟩
  | cons p ps ih =>
    obtain ⟨b, e⟩ := p
    have hp := h (b, e) (List.mem_cons_self _ _)
    have ih' := ih (fun q hq => h q (List.mem_cons_of_mem _ hq))
    have hm := ratio_multiply_integer e ⟨-1, 1⟩ hp.2.2.2 neg_one_integer.1
    refine ⟨?_, ?_⟩
    · intro q hq
      simp only [List.map_cons, List.mem_cons] at hq
      rcases hq with rfl | hq
      · exact ⟨hp.1, hp.2.1, hm.1, hm.2.1⟩
      · exact ih'.1 q hq
    · simp only [List.map_cons, total_scale_dims]
      rw [ih'.2, hm.2.2, neg_one_integer.2, mul_neg_one, zpow_neg, mul_inv]

theorem simplify_compound_pack (r : List (U × Ratio)) (h : RatioScaledPack r) :
    RatioScaled (simplify_unit (.compound r)) ∧
      total_scale (simplify_unit (.compound r)) = total_scale_dims r := by
  match r, h with
  | [], _ => simp [simplify_unit, RatioScaled, RatioScaledDims, total_scale]
  | [(T, e)], h =>
    by_cases he : e = ⟨1, 1⟩
    · subst he
      simp only [simplify_unit, if_true]
      exact ⟨(h _ (List.mem_cons_self _ _)).1,
        by simp [total_scale_dims, Ratio.num, Ratio.sgn]⟩
    · simp only [simplify_unit, if_neg he]
      exact ⟨by simp only [RatioScaled]; exact (ratioScaledDims_iff _).mpr h,
        by simp [total_scale]⟩
  | p :: q :: r', h =>
    simp only [simplify_unit]
    exact ⟨by simp only [RatioScaled]; exact (ratioScaledDims_iff _).mpr h,
      by simp [total_scale]⟩

/-- The total scale of a quotient of units is the quotient of the total scales. -/
theorem unit_divide_scale (From To : U) (hF : RatioScaled From) (hT : RatioScaled To)
    (q : U) (hq : unit_divide From To = some q) :
    RatioScaled q ∧ total_scale q = total_scale From / total_scale To := by
  have hFp := as_compound_unit_pack From hF
  have hTp := as_compound_unit_pack To hT
  have hinv := inverse_pack (as_compound_unit To) hTp.1
  unfold unit_divide unit_multiply compound_unit_multiply unit_pow unit_pow_impl at hq
  rw [if_neg (by decide), as_compound_simplify_compound _ (fun p hp => (hinv.1 p hp).2.1)] at hq
  obtain ⟨r, hr, rfl⟩ := Option.map_eq_some'.mp hq
  have hpack : RatioScaledPack r := by
    intro x hx
    rcases merge_mem _ _ _ r hr x hx with h | h | ⟨a, ha, b, hb, rfl, _⟩
    · exact hFp.1 x h
    · exact hinv.1 x h
    · have := ratio_add_integer a.2 b.2 (hFp.1 a ha).2.2.2 (hinv.1 b hb).2.2.2
      exact ⟨(hFp.1 a ha).1, (hFp.1 a ha).2.1, this.1, this.2.1⟩
  have hprod := merge_product unit_compare_impl total_scale _ _
    (fun p hp => ⟨(hFp.1 p hp).2.2.1, (hFp.1 p hp).2.2.2⟩)
    (fun p hp => ⟨(hinv.1 p hp).2.2.1, (hinv.1 p hp).2.2.2⟩)
    (fun p hp => (total_scale_pos p.1 (hFp.1 p hp).1).ne')
    (fun a ha b hb h => unit_compare_zero_scale a.1 b.1 (hFp.1 a ha).1 (hinv.1 b hb).1 h)
    r hr
  have hs := simplify_compound_pack r hpack
  refine ⟨hs.1, ?_⟩
  rw [hs.2, total_scale_dims_eq, hprod, ← total_scale_dims_eq, ← total_scale_dims_eq,
    hFp.2, hinv.2, hTp.2, div_eq_mul_inv]

/-! #### `safe_power` and `evaluate_power` -/

theorem safe_multiply_some (lhs rhs x : Int) (h : safe_multiply lhs rhs = some x) :
    lhs ≠ 0 ∧ (x = lhs * rhs ∨ x = 0) := by
  unfold safe_multiply at h
  by_cases h0 : lhs = 0
  · rw [if_pos h0] at h; simp at h
  · rw [if_neg h0] at h
    refine ⟨h0, ?_⟩
    split_ifs at h with h1
    · unfold checked at h
      split_ifs at h
      simp only [Option.some.injEq] at h
      exact Or.inl h.symm
    · simp only [Option.some.injEq] at h
      exact Or.inr h.symm

theorem pow_halves (b : Int) (k : Nat) :
    b ^ (k / 2) * b ^ (k / 2) * (if k % 2 ≠ 0 then b else 1) = b ^ k := by
  have hk := Nat.div_add_mod k 2
  rcases Nat.mod_two_eq_zero_or_one k with h | h
  · rw [h] at hk
    simp only [h, ne_eq, not_true_eq_false, if_false, mul_one]
    rw [← pow_add]
    congr 1; omega
  · rw [h] at hk
    simp only [h, ne_eq, one_ne_zero, not_false_eq_true, if_true]
    rw [← pow_add, ← pow_succ]
    congr 1; omega

/-- A result of `safe_power` is 0 (overflow reported) or the exact power. -/
theorem safe_power_steps_spec : ∀ (n : Nat) (base exponent x : Int), 1 ≤ exponent →
    safe_power_steps n base exponent = some x → x = 0 ∨ x = base ^ exponent.toNat := by
  intro n
  induction n with
  | zero => intro base exponent x _ h; simp [safe_power_steps] at h
  | succ n ih =>
    intro base exponent x he h
    simp only [safe_power_steps] at h
    by_cases h1 : exponent = 1
    · rw [if_pos h1] at h
      simp only [Option.some.injEq] at h
      subst h1; subst h
      right; simp
    · rw [if_neg h1] at h
      have hd : Int.tdiv exponent 2 = exponent / 2 := Int.tdiv_eq_ediv (by omega) (by omega)
      have hm : Int.tmod exponent 2 = exponent % 2 := Int.tmod_eq_emod (by omega) (by omega)
      rw [hd, hm] at h
      cases hp : safe_power_steps n base (exponent / 2) with
      | none => rw [hp] at h; simp at h
      | some p =>
        rw [hp] at h
        simp only at h
        cases hs : safe_square p with
        | none => rw [hs] at h; simp at h
        | some s =>
          rw [hs] at h
          simp only at h
          have h2 := safe_multiply_some _ _ _ hs
          have h3 := safe_multiply_some _ _ _ h
          rcases h3.2 with h4 | h4
          · right
            rcases h2.2 with h5 | h5
            · rcases ih base (exponent / 2) p (by omega) hp with h6 | h6
              · exact absurd h6 h2.1
              · rw [h4, h5, h6]
                obtain ⟨k, rfl⟩ := Int.eq_ofNat_of_zero_le (show 0 ≤ exponent by omega)
                have e1 : ((k : Int) / 2).toNat = k / 2 := by omega
                have e2 : ((k : Int) % 2 ≠ 0) ↔ (k % 2 ≠ 0) := by omega
                rw [e1, Int.toNat_ofNat]
                simp only [e2]
                exact pow_halves base k
            · exact absurd h5 h3.1
          · exact Or.inl h4

theorem safe_power_spec (base exponent x : Int) (h : safe_power base exponent = some x) :
    1 ≤ exponent ∧ (x = 0 ∨ x = base ^ exponent.toNat) := by
  unfold safe_power at h
  have he : 1 ≤ exponent := by
    by_contra hn
    have : exponent.toNat = 0 := by omega
    rw [this] at h
    simp [safe_power_steps] at h
  exact ⟨he, safe_power_steps_spec _ _ _ _ he h⟩

theorem Ratio.num_pos (r : Ratio) (hN : 0 < r.N) (hD : 0 < r.D) : 0 < r.num := by
  have h1 := Ratio.num_mul_gcd r
  have hg := Ratio.gcd_pos r hD.ne'
  have hs : Ratio.sgn r.D = 1 := by
    unfold Ratio.sgn
    rw [if_neg (by omega), if_neg (by omega)]
  rw [hs, one_mul] at h1
  have : 0 < r.num * (Int.gcd r.N r.D : Int) := by rw [h1]; exact hN
  exact (mul_pos_iff_of_pos_right hg).mp this

/-- When `safe_ratio_pow` yields a ratio with non-zero numerator, that ratio
is the exact power. -/
theorem safe_ratio_pow_spec (B : Ratio) (hN : 0 < B.N) (hD : 0 < B.D) (E : Int)
    (result1 : Ratio) (h : safe_ratio_pow B E = some result1) (hnum : result1.num ≠ 0) :
    result1.D ≠ 0 ∧ result1.value = B.value ^ E := by
  have hn := Ratio.num_pos B hN hD
  have hd := Ratio.den_pos B hD.ne'
  have hv := Ratio.num_div_den B hD.ne'
  have hnq : (B.num : ℚ) ≠ 0 := by exact_mod_cast hn.ne'
  have hdq : (B.den : ℚ) ≠ 0 := by exact_mod_cast hd.ne'
  unfold safe_ratio_pow at h
  simp only at h
  by_cases hE : E < 0
  · simp only [if_pos hE] at h
    cases h1 : safe_power B.den (-E) with
    | none => rw [h1] at h; simp at h
    | some n =>
      cases h2 : safe_power B.num (-E) with
      | none => rw [h1, h2] at h; simp at h
      | some d =>
        rw [h1, h2] at h
        simp only [Option.some.injEq] at h
        have s1 := safe_power_spec _ _ _ h1
        have s2 := safe_power_spec _ _ _ h2
        by_cases hov : (n == 0 || d == 0) = true
        · rw [hov] at h
          simp only [if_true] at h
          subst h
          exact absurd (by decide) hnum
        · simp only [Bool.not_eq_true] at hov
          rw [hov] at h
          simp only [Bool.false_eq_true, if_false] at h
          simp only [Bool.or_eq_false_iff, beq_eq_false_iff_ne, ne_eq] at hov
          subst h
          have en : n = B.den ^ (-E).toNat := by
            rcases s1.2 with e | e
            · exact absurd e hov.1
            · exact e
          have ed : d = B.num ^ (-E).toNat := by
            rcases s2.2 with e | e
            · exact absurd e hov.2
            · exact e
          refine ⟨hov.2, ?_⟩
          have hk : E = -(((-E).toNat : Nat) : Int) := by omega
          simp only [Ratio.value]
          rw [en, ed]
          push_cast
          rw [show ((B.N : ℚ) / (B.D : ℚ)) = (B.num : ℚ) / (B.den : ℚ) from hv.symm]
          conv_rhs => rw [hk]
          rw [zpow_neg, zpow_natCast, div_pow, inv_div]
  · simp only [if_neg hE] at h
    cases h1 : safe_power B.num E with
    | none => rw [h1] at h; simp at h
    | some n =>
      cases h2 : safe_power B.den E with
      | none => rw [h1, h2] at h; simp at h
      | some d =>
        rw [h1, h2] at h
        simp only [Option.some.injEq] at h
        have s1 := safe_power_spec _ _ _ h1
        have s2 := safe_power_spec _ _ _ h2
        by_cases hov : (n == 0 || d == 0) = true
        · rw [hov] at h
          simp only [if_true] at h
          subst h
          exact absurd (by decide) hnum
        · simp only [Bool.not_eq_true] at hov
          rw [hov] at h
          simp only [Bool.false_eq_true, if_false] at h
          simp only [Bool.or_eq_false_iff, beq_eq_false_iff_ne, ne_eq] at hov
          subst h
          have en : n = B.num ^ E.toNat := by
            rcases s1.2 with e | e
            · exact absurd e hov.1
            · exact e
          have ed : d = B.den ^ E.toNat := by
            rcases s2.2 with e | e
            · exact absurd e hov.2
            · exact e
          refine ⟨hov.2, ?_⟩
          have hk : E = ((E.toNat : Nat) : Int) := by omega
          simp only [Ratio.value]
          rw [en, ed]
          push_cast
          rw [show ((B.N : ℚ) / (B.D : ℚ)) = (B.num : ℚ) / (B.den : ℚ) from hv.symm]
          conv_rhs => rw [hk]
          rw [zpow_natCast, div_pow]

theorem Ratio.num_of_D_one (e : Ratio) (h : e.D = 1) : e.num = e.N ∧ e.den = 1 := by
  have h1 := Ratio.num_mul_gcd e
  have h2 := Ratio.den_mul_gcd e
  rw [h] at h1 h2
  simp [Ratio.sgn] at h1 h2
  exact ⟨h1, h2⟩

/-- Every type that `evaluate_power` yields denotes the power of the scale. -/
theorem evaluate_power_denote (s : Scale) (e : Ratio) (hs : PositiveRatio s)
    (he : e.D ≠ 0 ∧ e.den = 1) (v : Val) (h : evaluate_power (s, e) = some v) :
    v.denote = some (s.value ^ e.num) ∧ (∀ r, v = .ratio r → r.D ≠ 0) := by
  cases s with
  | computed i w => exact absurd hs (by simp [PositiveRatio])
  | ratio B =>
    simp only [PositiveRatio] at hs
    simp only [evaluate_power] at h
    by_cases hD : e.D = 1
    · rw [if_pos hD] at h
      cases hp : safe_ratio_pow B e.N with
      | none => rw [hp] at h; simp at h
      | some result1 =>
        rw [hp] at h
        simp only at h
        by_cases hn : result1.num ≠ 0
        · rw [if_pos hn] at h
          simp only [Option.some.injEq] at h
          subst h
          have := safe_ratio_pow_spec B hs.1 hs.2 e.N result1 hp hn
          refine ⟨?_, ?_⟩
          · simp only [Val.denote, Scale.value]
            rw [this.2, (Ratio.num_of_D_one e hD).1]
          · intro r hr
            cases hr
            exact this.1
        · rw [if_neg hn] at h
          simp only [Option.some.injEq] at h
          subst h
          exact ⟨by simp [Val.denote, he.2, Scale.value], by intro r hr; cases hr⟩
    · rw [if_neg hD] at h
      simp only [Option.some.injEq] at h
      subst h
      exact ⟨by simp [Val.denote, he.2, Scale.value], by intro r hr; cases hr⟩

/-! #### `fold_conversion` -/

theorem cdiv_one (a : Int) : cdiv a 1 = some a := by
  simp [cdiv, Int.tdiv_one]

/-- Starting from a ratio equal to `1/1`, `safe_ratio_multiply` yields a
non-zero numerator only for the ratio `max/max`. -/
theorem safe_ratio_multiply_one (t r result1 : Ratio) (ht : t.num = 1 ∧ t.den = 1)
    (h : safe_ratio_multiply t r = some result1) (hn : result1.num ≠ 0) :
    result1 = ⟨LLONG_MAX, LLONG_MAX⟩ ∧ r.num = LLONG_MAX ∧ r.den = LLONG_MAX := by
  unfold safe_ratio_multiply safe_ratio_multiply_overflow at h
  simp only [ht.1, ht.2, Int.one_gcd, Int.gcd_one, Nat.cast_one, cdiv_one] at h
  by_cases h1 : LLONG_MAX > r.num
  · simp only [if_pos h1] at h
    simp only [Option.some.injEq] at h
    subst h
    exact absurd (by decide) hn
  · simp only [if_neg h1] at h
    by_cases h2 : LLONG_MAX > r.den
    · simp only [h2, decide_True] at h
      simp only [Option.some.injEq] at h
      subst h
      exact absurd (by decide) hn
    · simp only [h2, decide_False, one_mul] at h
      unfold checked at h
      by_cases c1 : LLONG_MIN ≤ r.num ∧ r.num ≤ LLONG_MAX
      · by_cases c2 : LLONG_MIN ≤ r.den ∧ r.den ≤ LLONG_MAX
        · simp only [if_pos c1, if_pos c2] at h
          have e1 : r.num = LLONG_MAX := le_antisymm c1.2 (not_lt.mp h1)
          have e2 : r.den = LLONG_MAX := le_antisymm c2.2 (not_lt.mp h2)
          rw [e1, e2] at h
          simp only [show (LLONG_MAX = 0) = False from by decide, if_false,
            Option.some.injEq] at h
          exact ⟨h.symm, e1, e2⟩
        · simp [if_pos c1, if_neg c2] at h
      · simp [if_neg c1] at h

theorem conversion_fold_op_step (acc V acc' : Val) (P x : ℚ)
    (hacc : acc.denote = some P)
    (hrat : ∀ t, acc = .ratio t → t.D ≠ 0 ∧ t.num = 1 ∧ t.den = 1)
    (hV : V.denote = some x) (hVr : ∀ r, V = .ratio r → r.D ≠ 0)
    (h : conversion_fold_op acc V = some acc') :
    acc'.denote = some (P * x) ∧ (∀ t, acc' = .ratio t → t.D ≠ 0 ∧ t.num = 1 ∧ t.den = 1) := by
  have hmul : (Val.multiplier acc V).denote = some (P * x) := by
    simp [Val.denote, hacc, hV]
  cases acc with
  | ratio t =>
    cases V with
    | ratio r =>
      simp only [conversion_fold_op] at h
      cases hm : safe_ratio_multiply t r with
      | none => rw [hm] at h; simp at h
      | some result1 =>
        rw [hm] at h
        simp only at h
        by_cases hn : result1.num ≠ 0
        · rw [if_pos hn] at h
          simp only [Option.some.injEq] at h
          subst h
          have ht := hrat t rfl
          have hr := hVr r rfl
          have key := safe_ratio_multiply_one t r result1 ht.2 hm hn
          have hP : P = 1 := by
            simp only [Val.denote, Option.some.injEq] at hacc
            rw [← hacc, ← Ratio.num_div_den t ht.1, ht.2.1, ht.2.2]; simp
          have hx : x = 1 := by
            simp only [Val.denote, Option.some.injEq] at hV
            rw [← hV, ← Ratio.num_div_den r hr, key.2.1, key.2.2]
            simp [LLONG_MAX]
          refine ⟨?_, ?_⟩
          · rw [key.1, hP, hx]
            simp [Val.denote, Ratio.value, LLONG_MAX]
          · intro t' ht'
            cases ht'
            rw [key.1]
            decide
        · rw [if_neg hn] at h
          simp only [Option.some.injEq] at h
          subst h
          exact ⟨hmul, by intro t' ht'; cases ht'⟩
    | scale i w =>
      simp only [conversion_fold_op, Option.some.injEq] at h
      subst h
      exact ⟨hmul, by intro t' ht'; cases ht'⟩
    | multiplier a b =>
      simp only [conversion_fold_op, Option.some.injEq] at h
      subst h
      exact ⟨hmul, by intro t' ht'; cases ht'⟩
    | power b e =>
      simp only [conversion_fold_op, Option.some.injEq] at h
      subst h
      exact ⟨hmul, by intro t' ht'; cases ht'⟩
  | scale i w =>
    simp only [conversion_fold_op, Option.some.injEq] at h
    subst h
    exact ⟨hmul, by intro t' ht'; cases ht'⟩
  | multiplier a b =>
    simp only [conversion_fold_op, Option.some.injEq] at h
    subst h
    exact ⟨hmul, by intro t' ht'; cases ht'⟩
  | power b e =>
    simp only [conversion_fold_op, Option.some.injEq] at h
    subst h
    exact ⟨hmul, by intro t' ht'; cases ht'⟩

theorem fold_conversion_steps (l : List (Dim Scale)) :
    RatioScaleList l → ∀ (vs : List Val), evaluate_power_pack l = some vs →
    ∀ (acc : Val) (P : ℚ), acc.denote = some P →
    (∀ t, acc = .ratio t → t.D ≠ 0 ∧ t.num = 1 ∧ t.den = 1) →
    ∀ v, mp_fold conversion_fold_op vs acc = some v →
      v.denote = some (P * dims_product Scale.value l) := by
  induction l with
  | nil =>
    intro _ vs hvs acc P hacc _ v hv
    simp only [evaluate_power_pack, Option.some.injEq] at hvs
    subst hvs
    simp only [mp_fold, Option.some.injEq] at hv
    subst hv
    simp [dims_product, hacc]
  | cons p l ih =>
    intro hl vs hvs acc P hacc hrat v hv
    obtain ⟨s, e⟩ := p
    have hl' : RatioScaleList l :=
      ⟨fun x hx => hl.1 x (List.mem_cons_of_mem _ hx), fun x hx => hl.2 x (List.mem_cons_of_mem _ hx)⟩
    simp only [evaluate_power_pack] at hvs
    cases h1 : evaluate_power (s, e) with
    | none => rw [h1] at hvs; simp at hvs
    | some w =>
      cases h2 : evaluate_power_pack l with
      | none => rw [h1, h2] at hvs; simp at hvs
      | some ws =>
        rw [h1, h2] at hvs
        simp only [Option.some.injEq] at hvs
        subst hvs
        simp only [mp_fold] at hv
        cases h3 : conversion_fold_op acc w with
        | none => rw [h3] at hv; simp at hv
        | some acc' =>
          rw [h3] at hv
          simp only at hv
          have hw := evaluate_power_denote s e (hl.2 _ (List.mem_cons_self _ _))
            (hl.1 _ (List.mem_cons_self _ _)) w h1
          have hstep := conversion_fold_op_step acc w acc' P _ hacc hrat hw.1 hw.2 h3
          have := ih hl' ws h2 acc' _ hstep.1 hstep.2 v hv
          rw [this]
          simp only [dims_product]
          rw [mul_assoc]

/-- The type that `fold_conversion` yields denotes the product of the powers
of the scale list. -/
theorem fold_conversion_denote (l : List (Dim Scale)) (hl : RatioScaleList l) (v : Val)
    (h : fold_conversion l = some v) : v.denote = some (dims_product Scale.value l) := by
  unfold fold_conversion at h
  cases h1 : evaluate_power_pack l with
  | none => rw [h1] at h; simp at h
  | some vs =>
    rw [h1] at h
    simp only at h
    have := fold_conversion_steps l hl vs h1 (.ratio ⟨1, 1⟩) 1
      (by simp [Val.denote, Ratio.value])
      (by intro t ht; cases ht; decide) v h
    rw [this, one_mul]

theorem conversion_factor_ok (From To : U) (v : Val) (h : conversion_factor From To = .ok v) :
    ∃ d q l, dimension_check From = some d ∧ dimension_check To = some d ∧
      unit_divide From To = some q ∧ flatten_scale q = some l ∧ fold_conversion l = some v := by
  unfold conversion_factor at h
  split_ifs at h with hreq
  cases h1 : dimension_check From with
  | none => rw [h1] at h; simp at h
  | some dT =>
    cases h2 : dimension_check To with
    | none => rw [h1, h2] at h; simp at h
    | some dV =>
      rw [h1, h2] at h
      simp only at h
      split_ifs at h with hd
      subst hd
      cases h3 : unit_divide From To with
      | none => rw [h3] at h; simp at h
      | some q =>
        rw [h3] at h
        simp only at h
        cases h4 : flatten_scale q with
        | none => rw [h4] at h; simp at h
        | some l =>
          rw [h4] at h
          simp only at h
          cases h5 : fold_conversion l with
          | none => rw [h5] at h; simp at h
          | some w =>
            rw [h5] at h
            simp only [Except.ok.injEq] at h
            subst h
            exact ⟨dT, q, l, rfl, rfl, rfl, h4, h5⟩

theorem conversion_factor_denote (From To : U) (hF : RatioScaled From) (hT : RatioScaled To)
    (v : Val) (h : conversion_factor From To = .ok v) :
    v.denote = some (total_scale From / total_scale To) := by
  obtain ⟨d, q, l, _, _, hq, hl, hv⟩ := conversion_factor_ok From To v h
  have h1 := unit_divide_scale From To hF hT q hq
  have h2 := flatten_scale_product q h1.1 l hl
  rw [fold_conversion_denote l h2.1 v hv, h2.2, h1.2]

theorem inch_ratioScaled : RatioScaled inch := by
  simp [inch, foot, yard, meter, length, RatioScaled]

theorem centimeter_ratioScaled : RatioScaled centimeter := by
  simp [centimeter, meter, length, RatioScaled]

theorem total_scale_inch : total_scale inch = 254 / 10000 := by
  simp [inch, foot, yard, meter, length, total_scale, Scale.value, Ratio.value]
  norm_num

theorem total_scale_centimeter : total_scale centimeter = 1 / 100 := by
  simp [centimeter, meter, length, total_scale, Scale.value, Ratio.value]

theorem conversion_factor_inch_centimeter :
    conversion_factor inch centimeter = .ok
      (.multiplier (.multiplier (.multiplier (.multiplier (.ratio ⟨1, 1⟩) (.ratio ⟨100, 1⟩))
        (.ratio ⟨1, 12⟩)) (.ratio ⟨1, 3⟩)) (.ratio ⟨1143, 1250⟩)) := by
  rfl

theorem conversion_factor_centimeter_inch :
    conversion_factor centimeter inch = .ok
      (.multiplier (.multiplier (.multiplier (.multiplier (.ratio ⟨1, 1⟩) (.ratio ⟨1, 100⟩))
        (.ratio ⟨12, 1⟩)) (.ratio ⟨3, 1⟩)) (.ratio ⟨1250, 1143⟩)) := by
  rfl

/-- With `visit` read as the declared member `_boost_units2_apply`: for units `From` and `To` whose scale factors are positive ratios and
whose exponents are integers, every accepted `conversion_factor(From, To)`
(so the dimensions are the same) denotes, in exact rational arithmetic,
`S(From) / S(To)`; in particular `conversion_factor(inch, centimeter)` is
accepted and denotes 254/100, and `conversion_factor(centimeter, inch)` is
accepted and denotes 100/254. -/
theorem declared_conversion_factor_is_scale_ratio (From To : U)
    (hF : RatioScaled From) (hT : RatioScaled To)
    (v : Val) (h : conversion_factor From To = .ok v) :
    v.denote = some (total_scale From / total_scale To) ∧
    (∃ w, conversion_factor inch centimeter = .ok w ∧ w.denote = some (254 / 100)) ∧
    (∃ w, conversion_factor centimeter inch = .ok w ∧ w.denote = some (100 / 254)) := by
  refine ⟨conversion_factor_denote From To hF hT v h, ⟨_, conversion_factor_inch_centimeter, ?_⟩,
    ⟨_, conversion_factor_centimeter_inch, ?_⟩⟩
  · rw [conversion_factor_denote inch centimeter inch_ratioScaled centimeter_ratioScaled _
      conversion_factor_inch_centimeter, total_scale_inch, total_scale_centimeter]
    norm_num
  · rw [conversion_factor_denote centimeter inch centimeter_ratioScaled inch_ratioScaled _
      conversion_factor_centimeter_inch, total_scale_inch, total_scale_centimeter]
    norm_num

theorem declared_conversion_factor_is_scale_ratio_witness :
    RatioScaled inch ∧ RatioScaled centimeter ∧
    conversion_factor inch centimeter = .ok
      (.multiplier (.multiplier (.multiplier (.multiplier (.ratio ⟨1, 1⟩) (.ratio ⟨100, 1⟩))
        (.ratio ⟨1, 12⟩)) (.ratio ⟨1, 3⟩)) (.ratio ⟨1143, 1250⟩)) ∧
    (Val.denote (.multiplier (.multiplier (.multiplier (.multiplier (.ratio ⟨1, 1⟩)
        (.ratio ⟨100, 1⟩)) (.ratio ⟨1, 12⟩)) (.ratio ⟨1, 3⟩)) (.ratio ⟨1143, 1250⟩))
      = some (total_scale inch / total_scale centimeter) ∧
    (∃ w, conversion_factor inch centimeter = .ok w ∧ w.denote = some (254 / 100)) ∧
    (∃ w, conversion_factor centimeter inch = .ok w ∧ w.denote = some (100 / 254))) :=
  ⟨inch_ratioScaled, centimeter_ratioScaled, conversion_factor_inch_centimeter,
    declared_conversion_factor_is_scale_ratio inch centimeter inch_ratioScaled centimeter_ratioScaled _
      conversion_factor_inch_centimeter⟩

/-! ### Both directions, the overflow fallback, the dimension check -/

/-- With `visit` read as the declared member `_boost_units2_apply`: for units `A` and `B` whose scale factors are positive ratios (and
whose exponents are integers), when `conversion_factor(A, B)` and
`conversion_factor(B, A)` are accepted (so the dimensions are the same), the
two factors multiply to 1 in exact rational arithmetic. -/
theorem declared_conversion_factor_inverse (A B : U) (hA : RatioScaled A) (hB : RatioScaled B)
    (v w : Val) (hv : conversion_factor A B = .ok v) (hw : conversion_factor B A = .ok w) :
    ∃ x y, v.denote = some x ∧ w.denote = some y ∧ x * y = 1 := by
  refine ⟨_, _, conversion_factor_denote A B hA hB v hv,
    conversion_factor_denote B A hB hA w hw, ?_⟩
  have h1 := (total_scale_pos A hA).ne'
  have h2 := (total_scale_pos B hB).ne'
  field_simp

theorem declared_conversion_factor_inverse_witness :
    RatioScaled inch ∧ RatioScaled centimeter ∧
    conversion_factor inch centimeter = .ok
      (.multiplier (.multiplier (.multiplier (.multiplier (.ratio ⟨1, 1⟩) (.ratio ⟨100, 1⟩))
        (.ratio ⟨1, 12⟩)) (.ratio ⟨1, 3⟩)) (.ratio ⟨1143, 1250⟩)) ∧
    conversion_factor centimeter inch = .ok
      (.multiplier (.multiplier (.multiplier (.multiplier (.ratio ⟨1, 1⟩) (.ratio ⟨1, 100⟩))
        (.ratio ⟨12, 1⟩)) (.ratio ⟨3, 1⟩)) (.ratio ⟨1250, 1143⟩)) ∧
    ∃ x y,
      Val.denote (.multiplier (.multiplier (.multiplier (.multiplier (.ratio ⟨1, 1⟩)
        (.ratio ⟨100, 1⟩)) (.ratio ⟨1, 12⟩)) (.ratio ⟨1, 3⟩)) (.ratio ⟨1143, 1250⟩)) = some x ∧
      Val.denote (.multiplier (.multiplier (.multiplier (.multiplier (.ratio ⟨1, 1⟩)
        (.ratio ⟨1, 100⟩)) (.ratio ⟨12, 1⟩)) (.ratio ⟨3, 1⟩)) (.ratio ⟨1250, 1143⟩)) = some y ∧
      x * y = 1 :=
  ⟨inch_ratioScaled, centimeter_ratioScaled, conversion_factor_inch_centimeter,
    conversion_factor_centimeter_inch,
    declared_conversion_factor_inverse inch centimeter inch_ratioScaled centimeter_ratioScaled _ _
      conversion_factor_inch_centimeter conversion_factor_centimeter_inch⟩

theorem nm_cubed_defn :
    (mul nm nm).bind (fun p => mul p nm) = some nm_cubed ∧
    (mul meter meter).bind (fun p => mul p meter) = some meter_cubed := by
  decide

/-- C9 (code behaviour at the failing input): for `B = std::ratio<1, 1000000000>`
and `E = 4`, `safe_power(1000000000, 4)` squares the overflow marker 0 and
`safe_multiply(0, 1)` divides by zero, so `evaluate_power` has no result and
`power<B, E>` is not used.  For `E = 3` the exact path reports overflow,
`power<B, E>` is used, and `conversion_factor(nm*nm*nm, meter*meter*meter)`
denotes `10^-27`, its inverse `10^27`. -/
theorem C9_overflow_fallback :
    safe_square 1000000000000000000 = some 0 ∧
    safe_multiply 0 1 = none ∧
    safe_power 1000000000 4 = none ∧
    evaluate_power (.ratio ⟨1, 1000000000⟩, ⟨4, 1⟩) = none ∧
    safe_ratio_pow ⟨1, 1000000000⟩ 3 = some ⟨0, 1⟩ ∧
    evaluate_power (.ratio ⟨1, 1000000000⟩, ⟨3, 1⟩)
      = some (.power (.ratio ⟨1, 1000000000⟩) ⟨3, 1⟩) ∧
    conversion_factor nm_cubed meter_cubed
      = .ok (.multiplier (.ratio ⟨1, 1⟩) (.power (.ratio ⟨1, 1000000000⟩) ⟨3, 1⟩)) ∧
    Val.denote (.multiplier (.ratio ⟨1, 1⟩) (.power (.ratio ⟨1, 1000000000⟩) ⟨3, 1⟩))
      = some (1 / 10 ^ 27) ∧
    conversion_factor meter_cubed nm_cubed
      = .ok (.multiplier (.ratio ⟨1, 1⟩) (.power (.ratio ⟨1, 1000000000⟩) ⟨-3, 1⟩)) ∧
    Val.denote (.multiplier (.ratio ⟨1, 1⟩) (.power (.ratio ⟨1, 1000000000⟩) ⟨-3, 1⟩))
      = some (10 ^ 27) := by
  refine ⟨by decide, by decide, by decide, by decide, by decide, by decide, by rfl, ?_, by rfl, ?_⟩
  · simp [Val.denote, Ratio.value, Ratio.den, Ratio.num, Ratio.sgn]
    norm_num
  · simp [Val.denote, Ratio.value, Ratio.den, Ratio.num, Ratio.sgn]
    norm_num

theorem has_same_dimension_true (From To : U) (d : U) (h1 : requires_unit From = true)
    (h2 : requires_unit To = true) (hF : dimension_check From = some d)
    (hT : dimension_check To = some d) : has_same_dimension From To = some true := by
  simp [has_same_dimension, h1, h2, hF, hT]

/-- With `visit` read as the declared member `_boost_units2_apply`: `conversion_factor(From, To)` is accepted only if
`dimension_check(From)` and `dimension_check(To)` are the identical unit,
that is only if `has_same_dimension(From, To)` is true; and when
`has_same_dimension(From, To)` is false it is rejected with the "different
dimensions" error and no factor is produced. -/
theorem declared_conversion_checks_dimension (From To : U) :
    (∀ v, conversion_factor From To = .ok v → has_same_dimension From To = some true) ∧
    (has_same_dimension From To = some false →
      conversion_factor From To = .error .different_dimensions) := by
  constructor
  · intro v h
    have hreq : (requires_unit From && requires_unit To) = true := by
      unfold conversion_factor at h
      by_contra hc
      rw [if_neg hc] at h
      cases h
    obtain ⟨d, _, _, hF, hT, _, _, _⟩ := conversion_factor_ok From To v h
    simp only [Bool.and_eq_true] at hreq
    exact has_same_dimension_true From To d hreq.1 hreq.2 hF hT
  · intro h
    unfold has_same_dimension at h
    unfold conversion_factor
    by_cases hreq : (requires_unit From && requires_unit To) = true
    · rw [if_pos hreq] at h ⊢
      cases hF : dimension_check From with
      | none => rw [hF] at h; simp at h
      | some dT =>
        cases hT : dimension_check To with
        | none => rw [hF, hT] at h; simp at h
        | some dV =>
          rw [hF, hT] at h
          simp only [Option.some.injEq, decide_eq_false_iff_not] at h
          simp [h]
    · rw [if_neg hreq] at h
      cases h

theorem declared_conversion_checks_dimension_witness :
    (∀ v, conversion_factor meter second = .ok v → has_same_dimension meter second = some true) ∧
    (has_same_dimension meter second = some false →
      conversion_factor meter second = .error .different_dimensions) ∧
    has_same_dimension meter second = some false ∧
    conversion_factor meter second = .error .different_dimensions :=
  ⟨(declared_conversion_checks_dimension meter second).1,
    (declared_conversion_checks_dimension meter second).2, by decide,
    (declared_conversion_checks_dimension meter second).2 (by decide)⟩

/-- With `visit` read as the declared member `_boost_units2_apply`: `metre` and `meter` are two units with the name
"meter" and the dimension `length`; `has_same_dimension` is true, yet
`conversion_factor` is rejected, by the name assertion of
`unit_compare_impl` and not by the dimension check. -/
theorem declared_same_dimension_not_accepted :
    has_same_dimension metre meter = some true ∧
    unit_compare_impl metre meter = none ∧
    conversion_factor metre meter = .error .other ∧
    ¬ ((∃ v, conversion_factor metre meter = .ok v) ↔
        has_same_dimension metre meter = some true) := by
  have h1 : has_same_dimension metre meter = some true := by decide
  have h2 : conversion_factor metre meter = .error .other := by rfl
  refine ⟨h1, by decide, h2, ?_⟩
  intro h
  obtain ⟨v, hv⟩ := h.mpr h1
  rw [h2] at hv
  cases hv

/-! ### Reduced ratios are determined by their value -/

namespace Ratio

theorem natAbs_sgn (x : Int) (h : x ≠ 0) : (sgn x).natAbs = 1 := by
  unfold sgn
  split_ifs <;> simp_all

theorem coprime_num_den (r : Ratio) (h : r.D ≠ 0) : Int.gcd r.num r.den = 1 := by
  have hg : 0 < Int.gcd r.N r.D := Int.gcd_pos_of_ne_zero_right _ h
  have hdN : ((Int.gcd r.N r.D : Nat) : Int) ∣ r.N := Int.gcd_dvd_left
  have hdD : ((Int.gcd r.N r.D : Nat) : Int) ∣ r.D := Int.gcd_dvd_right
  have e1 : r.num = sgn r.D * (r.N / (Int.gcd r.N r.D : Int)) := by
    unfold num
    rw [mul_comm (sgn r.N), mul_assoc, sgn_mul_natAbs, Int.mul_ediv_assoc _ hdN]
  have e2 : r.den = sgn r.D * (r.D / (Int.gcd r.N r.D : Int)) := by
    unfold den
    rw [← sgn_mul_self, Int.mul_ediv_assoc _ hdD]
  have key := Int.gcd_div_gcd_div_gcd hg
  rw [e1, e2]
  unfold Int.gcd at key ⊢
  rw [Int.natAbs_mul, Int.natAbs_mul, natAbs_sgn _ h, one_mul, one_mul]
  exact key

theorem value_num (r : Ratio) (h : r.D ≠ 0) : r.value.num = r.num := by
  rw [← num_div_den r h]
  exact Rat.num_div_eq_of_coprime (den_pos r h) (coprime_num_den r h)

theorem value_den (r : Ratio) (h : r.D ≠ 0) : (r.value.den : Int) = r.den := by
  rw [← num_div_den r h]
  exact Rat.den_div_eq_of_coprime (den_pos r h) (coprime_num_den r h)

/-- Two ratios with the same value have the same `type`. -/
theorem type_eq_of_value (a b : Ratio) (ha : a.D ≠ 0) (hb : b.D ≠ 0)
    (h : a.value = b.value) : a.type = b.type := by
  unfold type
  rw [← value_num a ha, ← value_num b hb, ← value_den a ha, ← value_den b hb, h]

theorem type_reduced (r : Ratio) (h : r.D ≠ 0) : r.type.Reduced :=
  ⟨den_pos r h, coprime_num_den r h⟩

theorem Reduced.type_eq {r : Ratio} (h : r.Reduced) : r.type = r := by
  obtain ⟨hD, hg⟩ := h
  have h1 := num_mul_gcd r
  have h2 := den_mul_gcd r
  have hs : sgn r.D = 1 := by
    unfold sgn
    rw [if_neg (by omega), if_neg (by omega)]
  rw [hg, hs] at h1
  rw [hg] at h2
  simp only [Nat.cast_one, mul_one, one_mul] at h1 h2
  have h3 : (r.D.natAbs : Int) = r.D := Int.natAbs_of_nonneg hD.le
  cases r
  simp_all [type]

theorem Reduced.D_ne {r : Ratio} (h : r.Reduced) : r.D ≠ 0 := h.1.ne'

theorem type_idem (r : Ratio) (h : r.D ≠ 0) : r.type.type = r.type :=
  (type_reduced r h).type_eq

/-- Reduced ratios with the same value are the same type. -/
theorem Reduced.eq_of_value {a b : Ratio} (ha : a.Reduced) (hb : b.Reduced)
    (h : a.value = b.value) : a = b := by
  rw [← ha.type_eq, ← hb.type_eq]
  exact type_eq_of_value a b ha.D_ne hb.D_ne h

theorem one_reduced : (⟨1, 1⟩ : Ratio).Reduced := by decide

theorem eq_one_iff {r : Ratio} (h : r.Reduced) : r = ⟨1, 1⟩ ↔ r.value = 1 := by
  constructor
  · intro e; rw [e]; simp [value]
  · intro e
    apply h.eq_of_value one_reduced
    rw [e]; simp [value]

theorem num_den_one_iff {r : Ratio} (h : r.Reduced) :
    (r.num = 1 ∧ r.den = 1) ↔ r = ⟨1, 1⟩ := by
  have := h.type_eq
  constructor
  · intro e
    rw [← this]; simp [type, e.1, e.2]
  · intro e; rw [e]; decide

end Ratio

theorem ratio_multiply_reduced (a b : Ratio) (ha : a.D ≠ 0) (hb : b.D ≠ 0) :
    (ratio_multiply a b).Reduced := by
  unfold ratio_multiply
  apply Ratio.type_reduced
  exact mul_ne_zero (Ratio.den_pos a ha).ne' (Ratio.den_pos b hb).ne'

/-! ### C11–C13: multiplying a unit by a `std::ratio` -/

theorem simplify_scaled_base (X : U) (r : Ratio) (h : X.isRatioScaled = false) :
    simplify_unit (.scaled X (.ratio r)) = if r = ⟨1, 1⟩ then X else .scaled X (.ratio r) := by
  cases X with
  | scaled T s =>
    cases s with
    | ratio q => simp [U.isRatioScaled] at h
    | computed i v => simp [simplify_unit]
  | fundamental i n => simp [simplify_unit]
  | derived i n d => simp [simplify_unit]
  | compound ps => simp [simplify_unit]
  | absolute u o => simp [simplify_unit]

theorem simplify_scaled_scaled (T : U) (s r : Ratio) :
    simplify_unit (.scaled (.scaled T (.ratio s)) (.ratio r)) =
      if r = ⟨1, 1⟩ then .scaled T (.ratio s)
      else if (ratio_multiply s r).num = 1 ∧ (ratio_multiply s r).den = 1 then T
      else .scaled T (.ratio (ratio_multiply s r)) := by
  simp [simplify_unit]

theorem ratio_multiply_type_right (s r : Ratio) (hs : s.D ≠ 0) (hr : r.D ≠ 0) :
    ratio_multiply s r.type = ratio_multiply s r := by
  have hr' : r.type.D ≠ 0 := (Ratio.type_D_pos r hr).ne'
  apply (ratio_multiply_reduced s r.type hs hr').eq_of_value (ratio_multiply_reduced s r hs hr)
  rw [ratio_multiply_value s _ hs hr', ratio_multiply_value s r hs hr, Ratio.type_value r hr]

theorem ratio_multiply_one_left (r : Ratio) (hr : r.D ≠ 0) :
    ratio_multiply ⟨1, 1⟩ r = r.type := by
  have h1 : (⟨1, 1⟩ : Ratio).D ≠ 0 := by decide
  apply (ratio_multiply_reduced _ r h1 hr).eq_of_value (Ratio.type_reduced r hr)
  rw [ratio_multiply_value _ r h1 hr, Ratio.type_value r hr]
  simp [Ratio.value]

/-- The unit `T` under the ratio scale `s`, as `simplify_unit` writes it. -/
theorem mul_ratio_simplified (T : U) (s r : Ratio) (hT : T.isRatioScaled = false)
    (hreq : requires_unit T = true) (hs : s.Reduced) (hr : r.D ≠ 0) :
    mul_ratio (if s = ⟨1, 1⟩ then T else .scaled T (.ratio s)) r =
      some (if ratio_multiply s r = ⟨1, 1⟩ then T
        else .scaled T (.ratio (ratio_multiply s r))) := by
  have hred := ratio_multiply_reduced s r hs.D_ne hr
  by_cases h1 : s = ⟨1, 1⟩
  · subst h1
    rw [if_pos rfl]
    unfold mul_ratio
    rw [if_pos hreq, simplify_scaled_base T _ hT, ratio_multiply_one_left r hr]
  · rw [if_neg h1]
    unfold mul_ratio
    rw [if_pos (by simp [requires_unit]), simplify_scaled_scaled,
      ratio_multiply_type_right s r hs.D_ne hr]
    by_cases h2 : r.type = ⟨1, 1⟩
    · rw [if_pos h2]
      have e : ratio_multiply s r = s := by
        apply hred.eq_of_value hs
        rw [ratio_multiply_value s r hs.D_ne hr, ← Ratio.type_value r hr, h2]
        simp [Ratio.value]
      rw [e, if_neg h1]
    · rw [if_neg h2]
      by_cases h3 : ratio_multiply s r = ⟨1, 1⟩
      · rw [if_pos ((Ratio.num_den_one_iff hred).mpr h3), if_pos h3]
      · rw [if_neg (fun h => h3 ((Ratio.num_den_one_iff hred).mp h)), if_neg h3]

theorem scaleCanonical_eq (T : U) (h : ScaleCanonical T) :
    T = if outer_scale T = ⟨1, 1⟩ then unscaled_base T
      else .scaled (unscaled_base T) (.ratio (outer_scale T)) := by
  obtain ⟨_, _, _, _, h5⟩ := h
  cases T with
  | scaled X s =>
    cases s with
    | ratio q =>
      have := h5 (by simp [U.isRatioScaled])
      simp only [outer_scale] at this
      simp [outer_scale, unscaled_base, this]
    | computed i v => simp [outer_scale, unscaled_base]
  | fundamental i n => simp [outer_scale, unscaled_base]
  | derived i n d => simp [outer_scale, unscaled_base]
  | compound ps => simp [outer_scale, unscaled_base]
  | absolute u o => simp [outer_scale, unscaled_base]

theorem ratio_same_type (N : Int) (h : N ≠ 0) : (⟨N, N⟩ : Ratio).type = ⟨1, 1⟩ := by
  have h1 : (⟨N, N⟩ : Ratio).type = (⟨1, 1⟩ : Ratio).type := by
    apply Ratio.type_eq_of_value _ _ h (by decide)
    have : (N : ℚ) ≠ 0 := by exact_mod_cast h
    simp [Ratio.value, this]
  rw [h1]; decide

theorem simplify_scaled_one (T : U) : simplify_unit (.scaled T (.ratio ⟨1, 1⟩)) = T := by
  cases T with
  | scaled X s =>
    cases s with
    | ratio q => simp [simplify_unit]
    | computed i v => simp [simplify_unit]
  | fundamental i n => simp [simplify_unit]
  | derived i n d => simp [simplify_unit]
  | compound ps => simp [simplify_unit]
  | absolute u o => simp [simplify_unit]

/-- C12: for every unit `U` (base, scaled or compound, also one that is
already a `scaled_unit`) and every `std::ratio<N, N>`, the type of
`ratio * U` and of `U * ratio` is `U` itself, not a `scaled_unit` around it;
in particular for `meter` and `centimeter` with `1/1` and `3/3`. -/
theorem C12_unit_scale_ignored (T : U) (N : Int) (hT : requires_unit T = true) (hN : N ≠ 0) :
    mul_ratio T ⟨N, N⟩ = some T ∧
    mul_ratio meter ⟨1, 1⟩ = some meter ∧ mul_ratio meter ⟨3, 3⟩ = some meter ∧
    mul_ratio centimeter ⟨3, 3⟩ = some centimeter := by
  refine ⟨?_, by decide, by decide, by decide⟩
  unfold mul_ratio
  rw [if_pos hT, ratio_same_type N hN, simplify_scaled_one]

theorem C12_unit_scale_ignored_witness :
    requires_unit centimeter = true ∧ (-7 : Int) ≠ 0 ∧
    (mul_ratio centimeter ⟨-7, -7⟩ = some centimeter ∧
    mul_ratio meter ⟨1, 1⟩ = some meter ∧ mul_ratio meter ⟨3, 3⟩ = some meter ∧
    mul_ratio centimeter ⟨3, 3⟩ = some centimeter) :=
  ⟨by decide, by decide, C12_unit_scale_ignored centimeter (-7) (by decide) (by decide)⟩

theorem mul_ratio_congr (T : U) (r1 r2 : Ratio) (h1 : r1.D ≠ 0) (h2 : r2.D ≠ 0)
    (hx : r1.N * r2.D = r2.N * r1.D) : mul_ratio T r1 = mul_ratio T r2 := by
  have e : r1.type = r2.type := by
    apply Ratio.type_eq_of_value r1 r2 h1 h2
    have q1 : (r1.D : ℚ) ≠ 0 := by exact_mod_cast h1
    have q2 : (r2.D : ℚ) ≠ 0 := by exact_mod_cast h2
    simp only [Ratio.value]
    rw [div_eq_div_iff q1 q2]
    exact_mod_cast hx
  unfold mul_ratio
  rw [e]

/-- C13: for every unit `U` in simplified form and all `std::ratio<N1, D1>`,
`std::ratio<N2, D2>` with `N1 * D2 = N2 * D1`, the types of
`ratio<N1, D1> * U` and `U * ratio<N2, D2>` are identical, and when the
result is a `scaled_unit` its stored scale has a positive denominator and
`gcd(num, den) = 1`; in particular `ratio<4,2> * meter` and
`meter * ratio<6,3>` are both `scaled_unit<meter_t, ratio<2,1>>`. -/
theorem C13_scale_in_lowest_terms (T : U) (r1 r2 : Ratio) (hT : ScaleCanonical T)
    (h1 : r1.D ≠ 0) (h2 : r2.D ≠ 0) (hx : r1.N * r2.D = r2.N * r1.D) :
    mul_ratio T r1 = mul_ratio T r2 ∧
    (∀ X s, mul_ratio T r1 = some (.scaled X (.ratio s)) → 0 < s.D ∧ Int.gcd s.N s.D = 1) ∧
    mul_ratio meter ⟨4, 2⟩ = some (.scaled meter (.ratio ⟨2, 1⟩)) ∧
    mul_ratio meter ⟨6, 3⟩ = some (.scaled meter (.ratio ⟨2, 1⟩)) := by
  refine ⟨mul_ratio_congr T r1 r2 h1 h2 hx, ?_, by decide, by decide⟩
  obtain ⟨_, hreq, hb, hs, _⟩ := id hT
  intro X s hres
  have e := scaleCanonical_eq T hT
  have key := mul_ratio_simplified (unscaled_base T) (outer_scale T) r1 hb hreq hs h1
  rw [← e, hres] at key
  simp only [Option.some.injEq] at key
  by_cases h3 : ratio_multiply (outer_scale T) r1 = ⟨1, 1⟩
  · rw [if_pos h3] at key
    rw [← key] at hb
    simp [U.isRatioScaled] at hb
  · rw [if_neg h3] at key
    simp only [U.scaled.injEq, Scale.ratio.injEq] at key
    rw [key.2]
    exact ratio_multiply_reduced _ _ hs.D_ne h1

theorem meter_scaleCanonical : ScaleCanonical meter := by
  refine ⟨by decide, by decide, by decide, by decide, ?_⟩
  intro h; simp [meter, U.isRatioScaled] at h

theorem C13_scale_in_lowest_terms_witness :
    ScaleCanonical meter ∧ (⟨4, 2⟩ : Ratio).D ≠ 0 ∧ (⟨6, 3⟩ : Ratio).D ≠ 0 ∧
    (4 : Int) * 3 = 6 * 2 ∧
    (mul_ratio meter ⟨4, 2⟩ = mul_ratio meter ⟨6, 3⟩ ∧
    (∀ X s, mul_ratio meter ⟨4, 2⟩ = some (.scaled X (.ratio s)) →
      0 < s.D ∧ Int.gcd s.N s.D = 1) ∧
    mul_ratio meter ⟨4, 2⟩ = some (.scaled meter (.ratio ⟨2, 1⟩)) ∧
    mul_ratio meter ⟨6, 3⟩ = some (.scaled meter (.ratio ⟨2, 1⟩))) :=
  ⟨meter_scaleCanonical, by decide, by decide, by decide,
    C13_scale_in_lowest_terms meter ⟨4, 2⟩ ⟨6, 3⟩ meter_scaleCanonical
      (by decide) (by decide) (by decide)⟩

/-! ### C14: units made by `BOOST_UNITS2_DEF` are primitive -/

section ExponentSum
variable {α : Type} [DecidableEq α]

theorem exponent_sum_zero_of_absent (b : α) (L : List (Dim α)) (h : ∀ p ∈ L, p.1 ≠ b) :
    exponent_sum b L = 0 := by
  induction L with
  | nil => rfl
  | cons p L ih =>
    simp only [exponent_sum]
    rw [if_neg (h p (List.mem_cons_self _ _)), ih (fun q hq => h q (List.mem_cons_of_mem _ hq))]
    simp

/-- The exponents of a base that compares equal only to itself add up under
`merge`, whatever the order of the sequences. -/
theorem merge_exponent_sum (Cmp : α → α → Option Int) (b : α)
    (hb1 : ∀ a, Cmp b a = some 0 → a = b) (hb2 : ∀ a, Cmp a b = some 0 → a = b)
    (A B : List (Dim α)) :
    ValidExponents A → ValidExponents B →
    ∀ r, merge Cmp A B = some r →
      exponent_sum b r = exponent_sum b A + exponent_sum b B := by
  induction A generalizing B with
  | nil =>
    intro _ _ r hr
    rw [merge_nil_left] at hr
    cases hr
    simp [exponent_sum]
  | cons t T ihT =>
    induction B with
    | nil =>
      intro _ _ r hr
      rw [merge_cons_nil] at hr
      cases hr
      simp [exponent_sum]
    | cons u U ihU =>
      intro hA hB r hr
      have hT : ValidExponents T := fun x hx => hA x (List.mem_cons_of_mem _ hx)
      have hU : ValidExponents U := fun x hx => hB x (List.mem_cons_of_mem _ hx)
      rw [merge_cons_cons] at hr
      by_cases h1 : Cmp t.1 u.1 = some 1
      · rw [if_pos h1] at hr
        obtain ⟨r', hr', rfl⟩ := Option.map_eq_some'.mp hr
        have ih := ihU hA hU r' hr'
        simp only [exponent_sum] at ih ⊢
        rw [ih]; ring
      · by_cases h2 : Cmp t.1 u.1 = some (-1)
        · rw [if_neg h1, if_pos h2] at hr
          obtain ⟨r', hr', rfl⟩ := Option.map_eq_some'.mp hr
          have ih := ihT (u :: U) hT hB r' hr'
          simp only [exponent_sum] at ih ⊢
          rw [ih]; ring
        · by_cases h3 : Cmp t.1 u.1 = some 0
          · rw [if_neg h1, if_neg h2, if_pos h3] at hr
            have hDt := hA t (List.mem_cons_self _ _)
            have hDu := hB u (List.mem_cons_self _ _)
            have hiff : t.1 = b ↔ u.1 = b := by
              constructor
              · intro e; rw [e] at h3; exact hb1 _ h3
              · intro e; rw [e] at h3; exact hb2 _ h3
            have hhead : (if t.1 = b then t.2.value else 0) + (if u.1 = b then u.2.value else 0)
                = if t.1 = b then (ratio_add t.2 u.2).value else 0 := by
              by_cases e : t.1 = b
              · rw [if_pos e, if_pos (hiff.mp e), if_pos e, ratio_add_value _ _ hDt hDu]
              · rw [if_neg e, if_neg (fun h => e (hiff.mpr h)), if_neg e]; simp
            by_cases h4 : (ratio_add t.2 u.2).num = 0
            · rw [if_pos h4] at hr
              have ih := ihT U hT hU r hr
              have hz : (ratio_add t.2 u.2).value = 0 := by
                rw [ratio_add_value _ _ hDt hDu]
                exact (ratio_add_num_eq_zero_iff _ _ hDt hDu).mp h4
              rw [hz] at hhead
              simp only [ite_self] at hhead
              simp only [exponent_sum]
              rw [ih]
              linarith
            · rw [if_neg h4] at hr
              obtain ⟨r', hr', rfl⟩ := Option.map_eq_some'.mp hr
              have ih := ihT U hT hU r' hr'
              simp only [exponent_sum]
              rw [ih, ← hhead]; ring
          · simp [h1, h2, h3] at hr

end ExponentSum

theorem derived_compare_zero_left (i n : String) (E V : U)
    (h : unit_compare_impl (.derived i n E) V = some 0) : V = .derived i n E := by
  cases V with
  | fundamental j m => simp [unit_compare_impl, U.name?] at h
  | derived j m d =>
    simp only [unit_compare_impl, U.name?] at h
    split_ifs at h with hc
    simp only [Option.some.injEq] at h
    rcases hc with hc | hc
    · exact hc.symm
    · exact absurd h hc
  | scaled b s => simp [unit_compare_impl] at h
  | compound ps => simp [unit_compare_impl] at h
  | absolute u o => simp [unit_compare_impl, U.name?] at h

theorem derived_compare_zero_right (i n : String) (E V : U)
    (h : unit_compare_impl V (.derived i n E) = some 0) : V = .derived i n E := by
  cases V with
  | fundamental j m => simp [unit_compare_impl, U.name?] at h
  | derived j m d =>
    simp only [unit_compare_impl, U.name?] at h
    split_ifs at h with hc
    simp only [Option.some.injEq] at h
    rcases hc with hc | hc
    · exact hc
    · exact absurd h hc
  | scaled b s => simp [unit_compare_impl] at h
  | compound ps => simp [unit_compare_impl] at h
  | absolute u o => simp [unit_compare_impl, U.name?] at h

/-- A unit is not a base of the pack of its own definition. -/
theorem not_base_of_definition (i n : String) (E : U) :
    ∀ p ∈ as_compound_unit E, p.1 ≠ .derived i n E := by
  intro p hp e
  have hsz : sizeOf p.1 < sizeOf (U.derived i n E) := by
    cases E with
    | compound ps =>
      simp only [as_compound_unit] at hp
      have h1 := List.sizeOf_lt_of_mem hp
      have h2 : sizeOf p.1 < sizeOf p := by
        obtain ⟨b, e'⟩ := p
        simp
        omega
      simp only [U.derived.sizeOf_spec, U.compound.sizeOf_spec]
      omega
    | fundamental j m =>
      simp only [as_compound_unit, List.mem_singleton] at hp
      subst hp
      simp
    | derived j m d =>
      simp only [as_compound_unit, List.mem_singleton] at hp
      subst hp
      simp
    | scaled b s =>
      simp only [as_compound_unit, List.mem_singleton] at hp
      subst hp
      simp
    | absolute u o =>
      simp only [as_compound_unit, List.mem_singleton] at hp
      subst hp
      simp
  rw [e] at hsz
  exact lt_irrefl _ hsz

theorem merge_packOk (A B : List (U × Ratio)) (hA : PackOk A) (hB : PackOk B)
    (r : List (U × Ratio)) (hr : merge unit_compare_impl A B = some r) : PackOk r := by
  intro x hx
  rcases merge_mem _ A B r hr x hx with h | h | ⟨a, ha, b, hb, rfl, _⟩
  · exact hA x h
  · exact hB x h
  · exact ⟨(hA a ha).1, (ratio_add_D_pos a.2 b.2 (hA a ha).2 (hB b hb).2).ne'⟩

theorem unit_multiply_pack (T V P : U) (hT : PackOk (as_compound_unit T))
    (hV : PackOk (as_compound_unit V)) (h : unit_multiply T V = some P) :
    PackOk (as_compound_unit P) ∧
      merge unit_compare_impl (as_compound_unit T) (as_compound_unit V)
        = some (as_compound_unit P) := by
  unfold unit_multiply compound_unit_multiply at h
  obtain ⟨r, hr, rfl⟩ := Option.map_eq_some'.mp h
  have hp := merge_packOk _ _ hT hV r hr
  rw [as_compound_simplify_compound r (fun p hp' => (hp p hp').1)]
  exact ⟨hp, hr⟩

theorem derived_pack (i n : String) (E : U) :
    as_compound_unit (.derived i n E) = [(.derived i n E, ⟨1, 1⟩)] ∧
      PackOk (as_compound_unit (.derived i n E)) := by
  refine ⟨rfl, ?_⟩
  intro p hp
  simp only [as_compound_unit, List.mem_singleton] at hp
  subst hp
  exact ⟨rfl, by simp⟩

/-- C14 (as amended): a unit `D` made by `BOOST_UNITS2_DEF(id, expr)` with
definition `E` is one atomic base, compared with other such units by its own
name; for every unit `X`, the canonical form of `D * X` differs from the
canonical form of `E * X`, and it has `D` as a base unless the exponents of
`D` in `X` sum to -1.  In particular `meter*meter*meter` and `sq_meter*meter`
are different types. -/
theorem C14_defined_units_are_primitive (i n : String) (E X P Q : U)
    (hE : PackOk (as_compound_unit E)) (hX : PackOk (as_compound_unit X))
    (hP : unit_multiply (.derived i n E) X = some P) (hQ : unit_multiply E X = some Q) :
    P ≠ Q ∧
    (exponent_sum (U.derived i n E) (as_compound_unit X) ≠ -1 →
      ∃ p ∈ as_compound_unit P, p.1 = .derived i n E) ∧
    (∀ j m d c, unit_compare_impl (.derived i n E) (.derived j m d) = some c →
      c = const_strcmp (cstr n) (cstr m)) ∧
    (mul meter meter).bind (fun p => mul p meter) = some (.compound [(meter, ⟨3, 1⟩)]) ∧
    mul sq_meter meter = some (.compound [(meter, ⟨1, 1⟩), (sq_meter, ⟨1, 1⟩)]) := by
  have hD := derived_pack i n E
  have hp := unit_multiply_pack _ X P hD.2 hX hP
  have hq := unit_multiply_pack E X Q hE hX hQ
  have sP := merge_exponent_sum unit_compare_impl (U.derived i n E)
    (derived_compare_zero_left i n E) (derived_compare_zero_right i n E) _ _
    (fun p hp' => (hD.2 p hp').2) (fun p hp' => (hX p hp').2) _ hp.2
  have sQ := merge_exponent_sum unit_compare_impl (U.derived i n E)
    (derived_compare_zero_left i n E) (derived_compare_zero_right i n E) _ _
    (fun p hp' => (hE p hp').2) (fun p hp' => (hX p hp').2) _ hq.2
  rw [exponent_sum_zero_of_absent _ _ (not_base_of_definition i n E), zero_add] at sQ
  have s1 : exponent_sum (U.derived i n E) (as_compound_unit (U.derived i n E)) = 1 := by
    rw [hD.1]; simp [exponent_sum, Ratio.value]
  rw [s1] at sP
  refine ⟨?_, ?_, ?_, by decide, by decide⟩
  · intro e
    rw [e, sQ] at sP
    linarith
  · intro hx
    by_contra hne
    have : exponent_sum (U.derived i n E) (as_compound_unit P) = 0 := by
      apply exponent_sum_zero_of_absent
      intro p hp' e
      exact hne ⟨p, hp', e⟩
    rw [this] at sP
    apply hx
    linarith
  · intro j m d c h
    simp only [unit_compare_impl, U.name?] at h
    split_ifs at h
    simp only [Option.some.injEq] at h
    exact h.symm

theorem C14_defined_units_are_primitive_witness :
    PackOk (as_compound_unit (.compound [(meter, ⟨2, 1⟩)])) ∧
    PackOk (as_compound_unit meter) ∧
    unit_multiply sq_meter meter = some (.compound [(meter, ⟨1, 1⟩), (sq_meter, ⟨1, 1⟩)]) ∧
    unit_multiply (.compound [(meter, ⟨2, 1⟩)]) meter = some (.compound [(meter, ⟨3, 1⟩)]) ∧
    ((U.compound [(meter, ⟨1, 1⟩), (sq_meter, ⟨1, 1⟩)]) ≠ .compound [(meter, ⟨3, 1⟩)] ∧
    (exponent_sum sq_meter (as_compound_unit meter) ≠ -1 →
      ∃ p ∈ as_compound_unit (.compound [(meter, ⟨1, 1⟩), (sq_meter, ⟨1, 1⟩)]),
        p.1 = sq_meter) ∧
    (∀ j m d c, unit_compare_impl sq_meter (.derived j m d) = some c →
      c = const_strcmp (cstr "sq_meter") (cstr m)) ∧
    (mul meter meter).bind (fun p => mul p meter) = some (.compound [(meter, ⟨3, 1⟩)]) ∧
    mul sq_meter meter = some (.compound [(meter, ⟨1, 1⟩), (sq_meter, ⟨1, 1⟩)])) :=
  ⟨by intro p hp; simp [as_compound_unit] at hp; subst hp; exact ⟨rfl, by simp⟩,
    by intro p hp; simp [as_compound_unit, meter] at hp; subst hp; exact ⟨rfl, by simp⟩,
    by decide, by decide,
    C14_defined_units_are_primitive "sq_meter" "sq_meter" (.compound [(meter, ⟨2, 1⟩)]) meter _ _
      (by intro p hp; simp [as_compound_unit] at hp; subst hp; exact ⟨rfl, by simp⟩)
      (by intro p hp; simp [as_compound_unit, meter] at hp; subst hp; exact ⟨rfl, by simp⟩)
      (by decide) (by decide)⟩

/-- C14 (counterexample): for `D = sq_meter` and `X = pow<-1>(sq_meter)`, the
product `D * X` is the dimensionless unit `compound_unit<>`, which has no
base at all, so `D` is not a base of it. -/
theorem C14_defined_unit_cancels :
    unit_pow sq_meter ⟨-1, 1⟩ = .compound [(sq_meter, ⟨-1, 1⟩)] ∧
    unit_multiply sq_meter (.compound [(sq_meter, ⟨-1, 1⟩)]) = some (.compound []) ∧
    ¬ ∃ p ∈ as_compound_unit (.compound []), p.1 = sq_meter := by
  refine ⟨by decide, by decide, ?_⟩
  simp [as_compound_unit]

/-! ### A unit defined directly as another unit -/

/-- With `visit` read as the declared member `_boost_units2_apply`: for a unit `X` made by `BOOST_UNITS2_DEF(id, U)` directly from a unit
`U` whose dimension is computed, `dimension_check(X)` is `dimension_check(U)`,
`has_same_dimension(X, U)` is true, and every accepted
`conversion_factor(X, U)` denotes exactly 1 (for `U` with positive ratio
scales and integer exponents).  For `xmeter`, defined as `meter`, itself
defined as `length`: the dimension is `length` and `conversion_factor` is
`std::ratio<1, 1>`. -/
theorem declared_dimension_follows_definition (i n : String) (T d : U)
    (hreq : requires_unit T = true) (hd : dimension_check T = some d) :
    dimension_check (.derived i n T) = some d ∧
    has_same_dimension (.derived i n T) T = some true ∧
    (RatioScaled T → ∀ v, conversion_factor (.derived i n T) T = .ok v → v.denote = some 1) ∧
    dimension_check xmeter = some length ∧ dimension_check meter = some length ∧
    has_same_dimension xmeter meter = some true ∧
    conversion_factor xmeter meter = .ok (.ratio ⟨1, 1⟩) := by
  have h1 : dimension_check (.derived i n T) = some d := by
    simp only [dimension_check]; exact hd
  refine ⟨h1, has_same_dimension_true _ _ d rfl hreq h1 hd, ?_, by decide, by decide,
    by decide, by rfl⟩
  intro hT v hv
  have hX : RatioScaled (.derived i n T) := by
    simp only [RatioScaled]; exact hT
  rw [conversion_factor_denote _ T hX hT v hv]
  have : total_scale (.derived i n T) = total_scale T := by simp [total_scale]
  rw [this, div_self (total_scale_pos T hT).ne']

theorem declared_dimension_follows_definition_witness :
    requires_unit meter = true ∧ dimension_check meter = some length ∧
    (dimension_check (.derived "xmeter" "xmeter" meter) = some length ∧
    has_same_dimension (.derived "xmeter" "xmeter" meter) meter = some true ∧
    (RatioScaled meter → ∀ v, conversion_factor (.derived "xmeter" "xmeter" meter) meter = .ok v →
      v.denote = some 1) ∧
    dimension_check xmeter = some length ∧ dimension_check meter = some length ∧
    has_same_dimension xmeter meter = some true ∧
    conversion_factor xmeter meter = .ok (.ratio ⟨1, 1⟩)) :=
  ⟨by decide, by decide,
    declared_dimension_follows_definition "xmeter" "xmeter" meter length (by decide) (by decide)⟩

/-! ### C16, C17: `safe_ratio_multiply` -/

/-- C16 (code behaviour at the failing input): for `T = std::ratio<1, 2>` and
`U = std::ratio<1, 3>`, `overflow` is true because
`max() / (T::num / gcd1) > U::num / gcd2`, so `safe_ratio_multiply` is the
marker `std::ratio<0, 1>` and `fold_conversion_impl` yields
`multiplier<T, U>`, although the product `1/6` is representable. -/
theorem C16_exact_product_not_used :
    safe_ratio_multiply_overflow ⟨1, 2⟩ ⟨1, 3⟩ = some true ∧
    safe_ratio_multiply ⟨1, 2⟩ ⟨1, 3⟩ = some ⟨0, 1⟩ ∧
    conversion_fold_op (.ratio ⟨1, 2⟩) (.ratio ⟨1, 3⟩)
      = some (.multiplier (.ratio ⟨1, 2⟩) (.ratio ⟨1, 3⟩)) ∧
    ratio_multiply ⟨1, 2⟩ ⟨1, 3⟩ = ⟨1, 6⟩ := by
  decide

/-- C17 (code behaviour at the failing inputs): for
`T = U = std::ratio<4294967296, 4294967297>` both products exceed the maximum
`long long`, yet `overflow` is false and the products are formed (signed
overflow, no marker).  For `T = std::ratio<3, 8589934592>` and
`U = std::ratio<9223372036854775807, 9663676416>` the result has a non-zero
numerator and is `max / 9223372034707292160`, while the exact product is
`T * U = max / 27670116110564327424`. -/
theorem C17_overflow_not_detected :
    safe_ratio_multiply_overflow ⟨4294967296, 4294967297⟩ ⟨4294967296, 4294967297⟩
      = some false ∧
    checked (4294967296 * 4294967296) = none ∧
    safe_ratio_multiply ⟨4294967296, 4294967297⟩ ⟨4294967296, 4294967297⟩ = none ∧
    safe_ratio_multiply ⟨3, 8589934592⟩ ⟨9223372036854775807, 9663676416⟩
      = some ⟨9223372036854775807, 9223372034707292160⟩ ∧
    (⟨9223372036854775807, 9223372034707292160⟩ : Ratio).num ≠ 0 ∧
    ratio_less ⟨9223372036854775807, 27670116110564327424⟩
      ⟨9223372036854775807, 9223372034707292160⟩ = true ∧
    (3 : Int) * 9223372036854775807 * 27670116110564327424
      = 9223372036854775807 * (8589934592 * 9663676416) := by
  decide

/-! ### C18: negative powers -/

theorem conversion_factor_self (T : U) (hT : UnitOk T) (d : U)
    (hd : dimension_check T = some d) : conversion_factor T T = .ok (.ratio ⟨1, 1⟩) := by
  unfold conversion_factor
  simp [hT.1, hd, unit_divide_self T hT.2, flatten_scale_dimensionless, fold_conversion_nil]

theorem fahrenheit_defn :
    mul_absolute celsius ⟨5, 9⟩
      = some (.absolute (.absolute (.scaled si_kelvin (.ratio ⟨5, 9⟩)) ⟨0, 1⟩) ⟨49167, 100⟩) := by
  decide

theorem unitdiff_temperature :
    unitdiff_t kelvin = si_kelvin ∧ unitdiff_t celsius = si_kelvin ∧
    unitdiff_t fahrenheit = .scaled si_kelvin (.ratio ⟨5, 9⟩) := by
  decide

theorem si_kelvin_ok : UnitOk si_kelvin := by
  refine ⟨by decide, ?_⟩
  intro p hp
  simp only [as_compound_unit, si_kelvin, List.mem_singleton] at hp
  subst hp
  simp [Comparable, U.isCompound]

/-- With `visit` read as the declared member `_boost_units2_apply`: for every absolute unit `A` whose difference unit is a well-formed
unit with a computed dimension, and every value `x`, `convert(A, A, x)` is
`x` in exact arithmetic; in particular for `celsius`. -/
theorem declared_convert_self (u : U) (o : Ratio) (d : U)
    (hD : UnitOk (unitdiff_t (.absolute u o)))
    (hd : dimension_check (unitdiff_t (.absolute u o)) = some d) (x : ℚ) :
    convert (.absolute u o) (.absolute u o) x = some x ∧
    (∀ y : ℚ, convert celsius celsius y = some y) := by
  have key : ∀ (u' : U) (o' : Ratio) (d' : U), UnitOk (unitdiff_t (.absolute u' o')) →
      dimension_check (unitdiff_t (.absolute u' o')) = some d' →
      ∀ y : ℚ, convert (.absolute u' o') (.absolute u' o') y = some y := by
    intro u' o' d' h1 h2 y
    unfold convert
    simp only [requires_absolute, Bool.and_self, if_true]
    rw [conversion_factor_self _ h1 d' h2]
    simp [Val.denote, Ratio.value]
  refine ⟨key u o d hD hd x, ?_⟩
  intro y
  exact key kelvin ⟨27315, 100⟩ temperature
    (by rw [show unitdiff_t (.absolute kelvin ⟨27315, 100⟩) = si_kelvin from by decide]
        exact si_kelvin_ok)
    (by decide) y

theorem declared_convert_self_witness :
    UnitOk (unitdiff_t (.absolute kelvin ⟨27315, 100⟩)) ∧
    dimension_check (unitdiff_t (.absolute kelvin ⟨27315, 100⟩)) = some temperature ∧
    (convert (.absolute kelvin ⟨27315, 100⟩) (.absolute kelvin ⟨27315, 100⟩) 37 = some 37 ∧
    (∀ y : ℚ, convert celsius celsius y = some y)) :=
  ⟨by rw [show unitdiff_t (.absolute kelvin ⟨27315, 100⟩) = si_kelvin from by decide]
      exact si_kelvin_ok,
    by decide,
    declared_convert_self kelvin ⟨27315, 100⟩ temperature
      (by rw [show unitdiff_t (.absolute kelvin ⟨27315, 100⟩) = si_kelvin from by decide]
          exact si_kelvin_ok)
      (by decide) 37⟩

theorem convert_round_trip (A B : U) (hA : requires_absolute A = true)
    (hB : requires_absolute B = true)
    (hdA : RatioScaled (unitdiff_t A)) (hdB : RatioScaled (unitdiff_t B)) (v w : Val)
    (hv : conversion_factor (unitdiff_t A) (unitdiff_t B) = .ok v)
    (hw : conversion_factor (unitdiff_t B) (unitdiff_t A) = .ok w) (x : ℚ) :
    (convert A B x).bind (fun y => convert B A y) = some x := by
  have h1 := conversion_factor_denote _ _ hdA hdB v hv
  have h2 := conversion_factor_denote _ _ hdB hdA w hw
  have p1 := (total_scale_pos _ hdA).ne'
  have p2 := (total_scale_pos _ hdB).ne'
  unfold convert
  simp only [hA, hB, Bool.and_self, if_true, hv, hw, h1, h2, Option.some_bind]
  congr 1
  field_simp
  ring

theorem si_kelvin_ratioScaled : RatioScaled si_kelvin := by
  simp [si_kelvin, temperature, RatioScaled]

theorem fahrenheit_diff_ratioScaled : RatioScaled (.scaled si_kelvin (.ratio ⟨5, 9⟩)) := by
  simp [si_kelvin, temperature, RatioScaled]

/-- With `visit` read as the declared member `_boost_units2_apply`: for absolute units `A` and `B` whose difference units have positive
ratio scales and integer exponents and are convertible in both directions
(so they have the same dimension), and every value `x`,
`convert(B, A, convert(A, B, x))` is `x` in exact arithmetic; in particular
for `celsius` and `fahrenheit`. -/
theorem declared_convert_round_trip (A B : U) (hA : requires_absolute A = true)
    (hB : requires_absolute B = true)
    (hdA : RatioScaled (unitdiff_t A)) (hdB : RatioScaled (unitdiff_t B)) (v w : Val)
    (hv : conversion_factor (unitdiff_t A) (unitdiff_t B) = .ok v)
    (hw : conversion_factor (unitdiff_t B) (unitdiff_t A) = .ok w) (x : ℚ) :
    (convert A B x).bind (fun y => convert B A y) = some x ∧
    (∀ y : ℚ, (convert celsius fahrenheit y).bind (fun z => convert fahrenheit celsius z)
      = some y) := by
  refine ⟨convert_round_trip A B hA hB hdA hdB v w hv hw x, ?_⟩
  intro y
  apply convert_round_trip celsius fahrenheit rfl rfl
    (by rw [unitdiff_temperature.2.1]; exact si_kelvin_ratioScaled)
    (by rw [unitdiff_temperature.2.2]; exact fahrenheit_diff_ratioScaled)
    (.multiplier (.ratio ⟨1, 1⟩) (.ratio ⟨9, 5⟩)) (.multiplier (.ratio ⟨1, 1⟩) (.ratio ⟨5, 9⟩))
  · rfl
  · rfl

theorem declared_convert_round_trip_witness :
    requires_absolute celsius = true ∧ requires_absolute fahrenheit = true ∧
    RatioScaled (unitdiff_t celsius) ∧ RatioScaled (unitdiff_t fahrenheit) ∧
    conversion_factor (unitdiff_t celsius) (unitdiff_t fahrenheit)
      = .ok (.multiplier (.ratio ⟨1, 1⟩) (.ratio ⟨9, 5⟩)) ∧
    conversion_factor (unitdiff_t fahrenheit) (unitdiff_t celsius)
      = .ok (.multiplier (.ratio ⟨1, 1⟩) (.ratio ⟨5, 9⟩)) ∧
    ((convert celsius fahrenheit 100).bind (fun y => convert fahrenheit celsius y) = some 100 ∧
    (∀ y : ℚ, (convert celsius fahrenheit y).bind (fun z => convert fahrenheit celsius z)
      = some y)) :=
  ⟨rfl, rfl, by rw [unitdiff_temperature.2.1]; exact si_kelvin_ratioScaled,
    by rw [unitdiff_temperature.2.2]; exact fahrenheit_diff_ratioScaled, by rfl, by rfl,
    declared_convert_round_trip celsius fahrenheit rfl rfl
      (by rw [unitdiff_temperature.2.1]; exact si_kelvin_ratioScaled)
      (by rw [unitdiff_temperature.2.2]; exact fahrenheit_diff_ratioScaled) _ _
      (by rfl) (by rfl) 100⟩

/-! ### `const_strcmp` -/

theorem properPrefix_cons (x y : Nat) (a b : List Nat) :
    ProperPrefix (x :: a) (y :: b) ↔ x = y ∧ ProperPrefix a b := by
  constructor
  · rintro ⟨t, ht, h⟩
    simp only [List.cons_append, List.cons.injEq] at h
    exact ⟨h.1.symm, t, ht, h.2⟩
  · rintro ⟨rfl, t, ht, h⟩
    exact ⟨t, ht, by rw [h]; rfl⟩

theorem firstDifferenceLess_cons (x y : Nat) (a b : List Nat) :
    FirstDifferenceLess (x :: a) (y :: b) ↔
      x < y ∨ (x = y ∧ FirstDifferenceLess a b) := by
  constructor
  · rintro ⟨p, u, v, s, t, ha, hb, huv⟩
    cases p with
    | nil =>
      simp only [List.nil_append, List.cons.injEq] at ha hb
      left
      rw [ha.1, hb.1]
      exact huv
    | cons z p =>
      simp only [List.cons_append, List.cons.injEq] at ha hb
      right
      exact ⟨ha.1.trans hb.1.symm, p, u, v, s, t, ha.2, hb.2, huv⟩
  · rintro (h | ⟨rfl, p, u, v, s, t, ha, hb, huv⟩)
    · exact ⟨[], x, y, a, b, rfl, rfl, h⟩
    · exact ⟨x :: p, u, v, s, t, by rw [ha]; rfl, by rw [hb]; rfl, huv⟩

theorem const_strcmp_eq_zero_iff (a : List Nat) :
    ∀ b, const_strcmp a b = 0 ↔ a = b := by
  induction a with
  | nil => intro b; cases b <;> simp [const_strcmp]
  | cons x a ih =>
    intro b
    cases b with
    | nil => simp [const_strcmp]
    | cons y b =>
      by_cases h : x = y
      · simp [const_strcmp, h, ih b]
      · by_cases h2 : x < y <;> simp [const_strcmp, h, h2]

theorem const_strcmp_antisymm (a : List Nat) :
    ∀ b, const_strcmp a b = - const_strcmp b a := by
  induction a with
  | nil => intro b; cases b <;> simp [const_strcmp]
  | cons x a ih =>
    intro b
    cases b with
    | nil => simp [const_strcmp]
    | cons y b =>
      by_cases h : x = y
      · subst h
        simp [const_strcmp, ih b]
      · rcases Nat.lt_or_gt_of_ne h with h2 | h2
        · simp [const_strcmp, h, Ne.symm h, h2, Nat.lt_asymm h2]
        · simp [const_strcmp, h, Ne.symm h, h2, Nat.lt_asymm h2]

theorem const_strcmp_neg_one_iff (a : List Nat) :
    ∀ b, const_strcmp a b = -1 ↔ (ProperPrefix a b ∨ FirstDifferenceLess a b) := by
  induction a with
  | nil =>
    intro b
    cases b with
    | nil =>
      simp only [const_strcmp]
      constructor
      · intro h; exact absurd h (by decide)
      · rintro (⟨t, ht, h⟩ | ⟨p, x, y, s, t, ha, -, -⟩)
        · simp at h; exact absurd h ht
        · simp at ha
    | cons y b =>
      simp only [const_strcmp, true_iff]
      exact Or.inl ⟨y :: b, by simp, rfl⟩
  | cons x a ih =>
    intro b
    cases b with
    | nil =>
      simp only [const_strcmp]
      constructor
      · intro h; exact absurd h (by decide)
      · rintro (⟨t, -, h⟩ | ⟨p, u, v, s, t, -, hb, -⟩)
        · simp at h
        · simp at hb
    | cons y b =>
      rw [properPrefix_cons, firstDifferenceLess_cons]
      by_cases h : x = y
      · subst h
        simp [const_strcmp, ih b]
      · by_cases h2 : x < y <;> simp [const_strcmp, h, h2]

theorem const_strcmp_values (a : List Nat) :
    ∀ b, const_strcmp a b = -1 ∨ const_strcmp a b = 0 ∨ const_strcmp a b = 1 := by
  induction a with
  | nil => intro b; cases b <;> simp [const_strcmp]
  | cons x a ih =>
    intro b
    cases b with
    | nil => simp [const_strcmp]
    | cons y b =>
      by_cases h : x = y
      · simp only [const_strcmp, h, if_true]; exact ih b
      · by_cases h2 : x < y <;> simp [const_strcmp, h, h2]

/-- C27: `const_strcmp` is the three-way lexicographic comparison of the two
strings: 0 for equal strings, -1 when the first is a proper prefix of the
second or has the smaller character at the first difference, +1 in every other
case; and swapping the arguments negates the result. -/
theorem C27_const_strcmp_lexicographic (a b : List Nat) :
    (a = b → const_strcmp a b = 0) ∧
    ((ProperPrefix a b ∨ FirstDifferenceLess a b) → const_strcmp a b = -1) ∧
    (a ≠ b → ¬ (ProperPrefix a b ∨ FirstDifferenceLess a b) →
      const_strcmp a b = 1) ∧
    const_strcmp a b = - const_strcmp b a := by
  refine ⟨(const_strcmp_eq_zero_iff a b).mpr, (const_strcmp_neg_one_iff a b).mpr,
    ?_, const_strcmp_antisymm a b⟩
  intro hne hnot
  rcases const_strcmp_values a b with h | h | h
  · exact absurd ((const_strcmp_neg_one_iff a b).mp h) hnot
  · exact absurd ((const_strcmp_eq_zero_iff a b).mp h) hne
  · exact h

/-! ### Comparison of named units -/

theorem unit_compare_named (T V : U) (n m : String)
    (hT : T.name? = some n) (hV : V.name? = some m) :
    unit_compare_impl T V =
      if T = V ∨ const_strcmp (cstr n) (cstr m) ≠ 0 then
        some (const_strcmp (cstr n) (cstr m))
      else none := by
  cases T <;> cases V <;> simp [U.name?] at hT hV <;>
    subst hT <;> subst hV <;> simp [unit_compare_impl, U.name?]

/-- C24: for two units made by `BOOST_UNITS2_DEF`, the comparison is rejected
exactly when they are distinct units with equal name strings, and an accepted
comparison is 0 if and only if they are the same unit. -/
theorem C24_name_uniqueness (T V : U) (n m : String)
    (hT : T.name? = some n) (hV : V.name? = some m) :
    (unit_compare_impl T V = none ↔ (T ≠ V ∧ cstr n = cstr m)) ∧
    (∀ c, unit_compare_impl T V = some c → (c = 0 ↔ T = V)) := by
  rw [unit_compare_named T V n m hT hV]
  by_cases h : T = V
  · subst h
    have hnm : n = m := by rw [hT] at hV; exact Option.some.inj hV
    subst hnm
    simp [(const_strcmp_eq_zero_iff (cstr n) (cstr n)).mpr rfl]
  · by_cases h0 : const_strcmp (cstr n) (cstr m) = 0
    · have he := (const_strcmp_eq_zero_iff _ _).mp h0
      rw [if_neg (fun e => e.elim h (fun e2 => e2 h0))]
      exact ⟨⟨fun _ => ⟨h, he⟩, fun _ => rfl⟩, fun c hc => by simp at hc⟩
    · have hne : cstr n ≠ cstr m := fun e => h0 ((const_strcmp_eq_zero_iff _ _).mpr e)
      rw [if_pos (Or.inr h0)]
      refine ⟨⟨fun e => by simp at e, fun e => absurd e.2 hne⟩, ?_⟩
      intro c hc
      have hc2 : const_strcmp (cstr n) (cstr m) = c := Option.some.inj hc
      rw [← hc2]
      exact ⟨fun e => absurd e h0, fun e => absurd e h⟩

theorem C24_name_uniqueness_witness :
    (unit_compare_impl meter metre = none ↔
      (meter ≠ metre ∧ cstr "meter" = cstr "meter")) ∧
    (∀ c, unit_compare_impl meter metre = some c → (c = 0 ↔ meter = metre)) :=
  C24_name_uniqueness meter metre "meter" "meter" rfl rfl

/-! ### `safe_power` below the limit -/

theorem safe_multiply_exact (lhs rhs : Int) (hl : 1 ≤ lhs) (hr : 0 ≤ rhs)
    (h : lhs * rhs ≤ LLONG_MAX) : safe_multiply lhs rhs = some (lhs * rhs) := by
  have hpos : (0 : Int) < lhs := by omega
  have hmax : (0 : Int) ≤ LLONG_MAX := by decide
  unfold safe_multiply
  rw [if_neg (by omega)]
  have hd : Int.tdiv LLONG_MAX lhs = LLONG_MAX / lhs :=
    Int.tdiv_eq_ediv hmax (le_of_lt hpos)
  have hge : Int.tdiv LLONG_MAX lhs ≥ rhs := by
    rw [hd]
    exact (Int.le_ediv_iff_mul_le hpos).mpr (by rw [mul_comm]; exact h)
  rw [if_pos hge]
  unfold checked
  have h0 : 0 ≤ lhs * rhs := mul_nonneg (le_of_lt hpos) hr
  have hmin : LLONG_MIN ≤ 0 := by decide
  rw [if_pos ⟨le_trans hmin h0, h⟩]

theorem int_half_toNat (e : Int) (he : 1 ≤ e) :
    (Int.tdiv e 2).toNat = e.toNat / 2 ∧ (Int.tmod e 2 ≠ 0 ↔ e.toNat % 2 ≠ 0) := by
  have h0 : 0 ≤ e := by omega
  rw [Int.tdiv_eq_ediv h0 (by decide), Int.tmod_eq_emod h0 (by decide)]
  constructor <;> omega

/-- More steps than the exponent never change the outcome of `safe_power`:
the recursion on `exponent / 2` ends within `exponent` calls. -/
theorem safe_power_steps_stable (base : Int) : ∀ (n m : Nat) (exponent : Int),
    1 ≤ exponent → exponent.toNat ≤ n → exponent.toNat ≤ m →
    safe_power_steps n base exponent = safe_power_steps m base exponent := by
  intro n
  induction n with
  | zero => intro m e he hn _; omega
  | succ n ih =>
    intro m e he hn hm
    cases m with
    | zero => omega
    | succ m =>
      simp only [safe_power_steps]
      by_cases h1 : e = 1
      · rw [if_pos h1, if_pos h1]
      · rw [if_neg h1, if_neg h1]
        have hh := (int_half_toNat e he).1
        have h2 : 1 ≤ Int.tdiv e 2 := by
          rw [Int.tdiv_eq_ediv (by omega) (by decide)]; omega
        rw [ih m (Int.tdiv e 2) h2 (by omega) (by omega)]

theorem safe_power_steps_exact (base : Int) (hb : 1 ≤ base) : ∀ (n : Nat) (exponent : Int),
    1 ≤ exponent → exponent.toNat ≤ n → base ^ exponent.toNat ≤ LLONG_MAX →
    safe_power_steps n base exponent = some (base ^ exponent.toNat) := by
  intro n
  induction n with
  | zero => intro e he hn _; omega
  | succ n ih =>
    intro e he hn hmax
    simp only [safe_power_steps]
    by_cases h1 : e = 1
    · rw [if_pos h1]; subst h1; simp
    · rw [if_neg h1]
      obtain ⟨hh, hm⟩ := int_half_toNat e he
      have h2 : 1 ≤ Int.tdiv e 2 := by
        rw [Int.tdiv_eq_ediv (by omega) (by decide)]; omega
      have hp1 : ∀ k : Nat, 1 ≤ base ^ k := fun k => one_le_pow₀ hb
      have hmono : ∀ j k : Nat, j ≤ k → base ^ j ≤ base ^ k :=
        fun j k hjk => pow_le_pow_right₀ hb hjk
      have hhalf : base ^ (e.toNat / 2) ≤ LLONG_MAX :=
        le_trans (hmono _ _ (Nat.div_le_self _ _)) hmax
      rw [ih (Int.tdiv e 2) h2 (by omega) (by rw [hh]; exact hhalf), hh]
      simp only
      have hsq : base ^ (e.toNat / 2) * base ^ (e.toNat / 2) ≤ LLONG_MAX := by
        rw [← pow_add]
        exact le_trans (hmono _ _ (by omega)) hmax
      unfold safe_square
      rw [safe_multiply_exact _ _ (hp1 _) (by have := hp1 (e.toNat / 2); omega) hsq]
      simp only
      have hfull := pow_halves base e.toNat
      have hif : (if Int.tmod e 2 ≠ 0 then base else 1) =
          (if e.toNat % 2 ≠ 0 then base else 1) := by
        by_cases hx : e.toNat % 2 ≠ 0
        · rw [if_pos hx, if_pos (hm.mpr hx)]
        · rw [if_neg hx, if_neg (fun hy => hx (hm.mp hy))]
      rw [hif, ← hfull]
      apply safe_multiply_exact
      · rw [← pow_add]; exact hp1 _
      · split_ifs <;> omega
      · rw [hfull]; exact hmax

/-- C28: for `base ≥ 1` and `exponent ≥ 1` the recursion of `safe_power` ends
within `exponent` calls (more steps never change the outcome), and the result
is the exact power `base ^ exponent` whenever that power does not exceed the
largest `long long`. -/
theorem C28_safe_power_exact (base exponent : Int) (hb : 1 ≤ base) (he : 1 ≤ exponent) :
    (∀ n, exponent.toNat ≤ n →
      safe_power_steps n base exponent = safe_power base exponent) ∧
    (base ^ exponent.toNat ≤ LLONG_MAX →
      safe_power base exponent = some (base ^ exponent.toNat)) := by
  refine ⟨fun n hn => ?_, fun h => ?_⟩
  · exact safe_power_steps_stable base n exponent.toNat exponent he hn le_rfl
  · exact safe_power_steps_exact base hb exponent.toNat exponent he le_rfl h

theorem C28_safe_power_exact_witness :
    (1 : Int) ≤ 2 ∧ (1 : Int) ≤ 62 ∧ (2 : Int) ^ (62 : Int).toNat ≤ LLONG_MAX ∧
    safe_power 2 62 = some ((2 : Int) ^ (62 : Int).toNat) :=
  ⟨by decide, by decide, by decide,
    (C28_safe_power_exact 2 62 (by decide) (by decide)).2 (by decide)⟩

/-- C29: evaluating `safe_power(1000000000, 4)`: the inner call gives
`10^18`, whose square overflows and is reported as 0 by `safe_square`; the
next call is `safe_multiply(0, 1)`, which divides the maximum by `lhs = 0` and
has no value, with any number of steps allowed. -/
theorem C29_safe_power_divides_by_zero :
    safe_power 1000000000 2 = some 1000000000000000000 ∧
    safe_square 1000000000000000000 = some 0 ∧
    (if Int.tmod 4 2 ≠ 0 then (1000000000 : Int) else 1) = 1 ∧
    safe_multiply 0 1 = none ∧
    (∀ n, safe_power_steps n 1000000000 4 = none) := by
  refine ⟨by decide, by decide, by decide, by decide, fun n => ?_⟩
  by_cases h : 4 ≤ n
  · rw [safe_power_steps_stable 1000000000 n 4 4 (by decide) h (by decide)]
    decide
  · have : n = 0 ∨ n = 1 ∨ n = 2 ∨ n = 3 := by omega
    rcases this with rfl | rfl | rfl | rfl <;> decide

/-- C22: `pow(meter, std::ratio<0, 5>())` is
`compound_unit<dim<meter_t, std::ratio<0, 1>>>`, a unit that keeps a pair with
exponent 0, and not `compound_unit<>`: the specialisation of `unit_pow_impl`
for a zero exponent matches `std::ratio<0>` only, the way `pow<0>(meter)` and
`pow(meter, std::ratio<0, 1>())` pass it. -/
theorem C22_zero_power_keeps_zero_exponent :
    pow meter ⟨0, 5⟩ = some (.compound [(meter, ⟨0, 1⟩)]) ∧
    pow meter ⟨0, 5⟩ ≠ some (.compound []) ∧
    pow meter ⟨0, 1⟩ = some (.compound []) ∧
    pow_n 0 meter = some (.compound []) ∧
    unit_pow_impl [(meter, ⟨1, 1⟩)] ⟨0, 5⟩ = [(meter, ⟨0, 1⟩)] := by
  refine ⟨by decide, by decide, by decide, by decide, by decide⟩

/-- C23: `meter` orders before `second` (the comparison is -1), and the
comparison of `scaled_unit<meter_t, std::centi>` with
`scaled_unit<second_t, std::milli>` is +1, not -1: for bases that differ the
scaled comparison yields the truth value of `!= 0`, in both orders. -/
theorem C23_scaled_compare_loses_sign :
    unit_compare_impl meter second = some (-1) ∧
    unit_compare_impl (.scaled meter (.ratio ⟨1, 100⟩))
      (.scaled second (.ratio ⟨1, 1000⟩)) = some 1 ∧
    (∀ b1 b2 s1 s2 c, unit_compare_impl b1 b2 = some c → c ≠ 0 →
      unit_compare_impl (.scaled b1 s1) (.scaled b2 s2) = some 1) ∧
    (∀ b1 b2 s1 s2, unit_compare_impl b1 b2 = some 0 →
      unit_compare_impl (.scaled b1 s1) (.scaled b2 s2) = scale_compare s1 s2) := by
  refine ⟨by decide, by decide, ?_, ?_⟩
  · intro b1 b2 s1 s2 c h hc
    simp [unit_compare_impl, h, hc, boolToInt]
  · intro b1 b2 s1 s2 h
    simp [unit_compare_impl, h]

/-- C26: the comparison of `centimeter` with `millisecond` is +1 and the
comparison of `millisecond` with `centimeter` is +1 as well, so the one is not
the negation of the other. -/
theorem C26_compare_not_antisymmetric :
    unit_compare_impl centimeter millisecond = some 1 ∧
    unit_compare_impl millisecond centimeter = some 1 ∧
    unit_compare_impl centimeter millisecond ≠
      (unit_compare_impl millisecond centimeter).map (fun c => -c) := by
  refine ⟨by decide, by decide, by decide⟩

/-! ### The dimensionless unit -/

theorem simplify_as_compound_unit (T : U) (h : simplify_unit T = T) :
    simplify_unit (.compound (as_compound_unit T)) = T := by
  cases T with
  | compound ps => exact h
  | fundamental i n => simp [as_compound_unit, simplify_unit]
  | derived i n d => simp [as_compound_unit, simplify_unit]
  | scaled b s => simp [as_compound_unit, simplify_unit]
  | absolute u o => simp [as_compound_unit, simplify_unit]

theorem unit_multiply_dimensionless_right (T : U) (h : simplify_unit T = T) :
    unit_multiply T (.compound []) = some T := by
  unfold unit_multiply compound_unit_multiply
  rw [show as_compound_unit (.compound []) = [] from rfl, merge_nil_right]
  simp only [Option.map_some']
  rw [simplify_as_compound_unit T h]

theorem unit_multiply_dimensionless_left (T : U) (h : simplify_unit T = T) :
    unit_multiply (.compound []) T = some T := by
  unfold unit_multiply compound_unit_multiply
  rw [show as_compound_unit (.compound []) = [] from rfl, merge_nil_left]
  simp only [Option.map_some']
  rw [simplify_as_compound_unit T h]

/-- C25: for every unit `T` in simplified form, `unit_multiply<T,
compound_unit<>>` and `unit_multiply<compound_unit<>, T>` are `T` itself, so
the unit of a quantity multiplied by a number, on either side, is the unit of
the quantity. -/
theorem C25_dimensionless_identity (T : U) (h : simplify_unit T = T) :
    unit_multiply T (.compound []) = some T ∧
    unit_multiply (.compound []) T = some T ∧
    (requires_unit T = true →
      quantity_times_value_unit T = some T ∧ value_times_quantity_unit T = some T) := by
  refine ⟨unit_multiply_dimensionless_right T h, unit_multiply_dimensionless_left T h, ?_⟩
  intro hr
  have hd : requires_unit dimensionless = true := rfl
  simp only [quantity_times_value_unit, value_times_quantity_unit, mul, hr, hd,
    Bool.and_self, if_true]
  exact ⟨unit_multiply_dimensionless_right T h, unit_multiply_dimensionless_left T h⟩

theorem C25_dimensionless_identity_witness :
    simplify_unit (.compound [(meter, ⟨1, 1⟩), (second, ⟨-1, 1⟩)]) =
      .compound [(meter, ⟨1, 1⟩), (second, ⟨-1, 1⟩)] ∧
    (unit_multiply (.compound [(meter, ⟨1, 1⟩), (second, ⟨-1, 1⟩)]) (.compound []) =
      some (.compound [(meter, ⟨1, 1⟩), (second, ⟨-1, 1⟩)]) ∧
    unit_multiply (.compound []) (.compound [(meter, ⟨1, 1⟩), (second, ⟨-1, 1⟩)]) =
      some (.compound [(meter, ⟨1, 1⟩), (second, ⟨-1, 1⟩)]) ∧
    (requires_unit (.compound [(meter, ⟨1, 1⟩), (second, ⟨-1, 1⟩)]) = true →
      quantity_times_value_unit (.compound [(meter, ⟨1, 1⟩), (second, ⟨-1, 1⟩)]) =
        some (.compound [(meter, ⟨1, 1⟩), (second, ⟨-1, 1⟩)]) ∧
      value_times_quantity_unit (.compound [(meter, ⟨1, 1⟩), (second, ⟨-1, 1⟩)]) =
        some (.compound [(meter, ⟨1, 1⟩), (second, ⟨-1, 1⟩)]))) :=
  ⟨by decide, C25_dimensionless_identity _ (by decide)⟩

/-! ### Scaling an absolute unit -/

theorem ratio_divide_value (a b : Ratio) (ha : a.D ≠ 0) (hb : b.D ≠ 0) (hn : b.N ≠ 0) :
    (ratio_divide a b).value = a.value / b.value := by
  have hda : (a.den : ℚ) ≠ 0 := by exact_mod_cast (Ratio.den_pos a ha).ne'
  have hdb : (b.den : ℚ) ≠ 0 := by exact_mod_cast (Ratio.den_pos b hb).ne'
  have hnb : b.num ≠ 0 := fun h => hn ((Ratio.num_eq_zero_iff b hb).mp h)
  have hnb' : (b.num : ℚ) ≠ 0 := by exact_mod_cast hnb
  unfold ratio_divide
  rw [Ratio.type_value _ (mul_ne_zero (Ratio.den_pos a ha).ne' hnb),
    ← Ratio.num_div_den a ha, ← Ratio.num_div_den b hb]
  simp only [Ratio.value, Int.cast_mul]
  field_simp

theorem offset_free_base_offset : (T : U) → offset_free T = true → base_offset T = 0
  | .fundamental _ _, _ => rfl
  | .derived _ _ d, h => by
    simp only [offset_free] at h
    simp only [base_offset]
    exact offset_free_base_offset d h
  | .scaled b s, h => by
    simp only [offset_free] at h
    simp only [base_offset, offset_free_base_offset b h, zero_mul]
  | .compound _, _ => rfl
  | .absolute _ _, h => by simp [offset_free] at h

theorem offset_free_requires_unit (T : U) (h : offset_free T = true) :
    requires_unit T = true := by
  cases T <;> simp [offset_free] at h <;> rfl

theorem offset_free_simplify_scaled (T : U) (r : Ratio) (h : offset_free T = true) :
    offset_free (simplify_unit (.scaled T (.ratio r))) = true := by
  cases T with
  | scaled X s =>
    cases s with
    | ratio q =>
      rw [simplify_scaled_scaled]
      simp only [offset_free] at h
      split_ifs <;> simp [offset_free, h]
    | computed i v =>
      simp only [offset_free] at h
      simp only [simplify_unit]
      split_ifs <;> simp [offset_free, h]
  | fundamental i n => simp only [simplify_unit]; split_ifs <;> simp [offset_free]
  | derived i n d =>
    simp only [offset_free] at h
    simp only [simplify_unit]
    split_ifs <;> simp [offset_free, h]
  | compound ps => simp only [simplify_unit]; split_ifs <;> simp [offset_free]
  | absolute u o => simp [offset_free] at h

theorem mul_absolute_offset_free (T : U) (s : Ratio) (h : offset_free T = true) :
    mul_absolute T s = some (simplify_unit (.scaled T (.ratio s.type))) := by
  have hr := offset_free_requires_unit T h
  cases T <;> simp [offset_free] at h <;> simp [mul_absolute, mul_ratio, requires_unit]

theorem offset_chain_scale (s : Ratio) (hN : 0 < s.N) (hD : 0 < s.D) :
    (T : U) → offset_chain T = true →
      ∃ v, mul_absolute T s = some v ∧ base_offset v = base_offset T / s.value
  | .absolute u o, h => by
    simp only [offset_chain, Bool.and_eq_true, decide_eq_true_eq] at h
    obtain ⟨v, hv, hb⟩ := offset_chain_scale s hN hD u h.2
    refine ⟨.absolute v (ratio_divide o s), by simp [mul_absolute, hv], ?_⟩
    simp only [base_offset, hb, ratio_divide_value o s h.1 hD.ne' hN.ne']
    ring
  | .fundamental i n, h => by
    have h2 : offset_free (.fundamental i n) = true := h
    refine ⟨_, mul_absolute_offset_free _ s h2, ?_⟩
    rw [offset_free_base_offset _ (offset_free_simplify_scaled _ _ h2),
      offset_free_base_offset _ h2, zero_div]
  | .derived i n d, h => by
    have h2 : offset_free (.derived i n d) = true := h
    refine ⟨_, mul_absolute_offset_free _ s h2, ?_⟩
    rw [offset_free_base_offset _ (offset_free_simplify_scaled _ _ h2),
      offset_free_base_offset _ h2, zero_div]
  | .scaled b e, h => by
    have h2 : offset_free (.scaled b e) = true := h
    refine ⟨_, mul_absolute_offset_free _ s h2, ?_⟩
    rw [offset_free_base_offset _ (offset_free_simplify_scaled _ _ h2),
      offset_free_base_offset _ h2, zero_div]
  | .compound ps, h => by
    have h2 : offset_free (.compound ps) = true := h
    refine ⟨_, mul_absolute_offset_free _ s h2, ?_⟩
    rw [offset_free_base_offset _ (offset_free_simplify_scaled _ _ h2),
      offset_free_base_offset _ h2, zero_div]

/-- With `std::ratio_divides` read as `std::ratio_divide` and `visit` as the declared member: for the absolute unit over
`scaled_unit<celsius, std::ratio<2>>` with offset `std::ratio<1>` and the scale
`std::ratio<2>`, the product is the absolute unit over
`scaled_unit<celsius, std::ratio<4>>` with offset `std::ratio<1, 2>`; its
`base_offset` is 1093.1, while the `base_offset` of the unit divided by 2 is
273.65. -/
theorem declared_scaled_absolute_offset_multiplied :
    mul_absolute (.absolute (.scaled celsius (.ratio ⟨2, 1⟩)) ⟨1, 1⟩) ⟨2, 1⟩ =
      some (.absolute (.scaled celsius (.ratio ⟨4, 1⟩)) ⟨1, 2⟩) ∧
    base_offset (.absolute (.scaled celsius (.ratio ⟨4, 1⟩)) ⟨1, 2⟩) = 10931 / 10 ∧
    base_offset (.absolute (.scaled celsius (.ratio ⟨2, 1⟩)) ⟨1, 1⟩) /
      (⟨2, 1⟩ : Ratio).value = 5473 / 20 ∧
    base_offset (.absolute (.scaled celsius (.ratio ⟨4, 1⟩)) ⟨1, 2⟩) ≠
      base_offset (.absolute (.scaled celsius (.ratio ⟨2, 1⟩)) ⟨1, 1⟩) /
        (⟨2, 1⟩ : Ratio).value := by
  have h1 : base_offset (.absolute (.scaled celsius (.ratio ⟨4, 1⟩)) ⟨1, 2⟩) = 10931 / 10 := by
    simp only [base_offset, celsius, kelvin, si_kelvin, Scale.value, Ratio.value]
    norm_num
  have h2 : base_offset (.absolute (.scaled celsius (.ratio ⟨2, 1⟩)) ⟨1, 1⟩) /
      (⟨2, 1⟩ : Ratio).value = 5473 / 20 := by
    simp only [base_offset, celsius, kelvin, si_kelvin, Scale.value, Ratio.value]
    norm_num
  refine ⟨by decide, h1, h2, ?_⟩
  rw [h1, h2]
  norm_num

/-- With `std::ratio_divides` read as `std::ratio_divide` and `visit` as the declared member: for every absolute unit `absolute(U, O)` with a ratio
offset `O` and every positive ratio `s`, the product with `s` is
`absolute(U * s, O / s)`; and when `U` is a unit without an absolute unit
inside it, or an absolute unit over such a unit, the product exists and its
`base_offset` is the `base_offset` of `absolute(U, O)` divided by `s`. -/
theorem declared_absolute_scaling (u : U) (o s : Ratio) (hN : 0 < s.N) (hD : 0 < s.D)
    (ho : o.D ≠ 0) :
    (∀ v, mul_absolute u s = some v →
      mul_absolute (.absolute u o) s = some (.absolute v (ratio_divide o s))) ∧
    (offset_chain u = true →
      ∃ w, mul_absolute (.absolute u o) s = some w ∧
        base_offset w = base_offset (.absolute u o) / s.value) := by
  refine ⟨fun v hv => by simp [mul_absolute, hv], fun hu => ?_⟩
  have hc : offset_chain (.absolute u o) = true := by
    simp [offset_chain, ho, hu]
  exact offset_chain_scale s hN hD _ hc

theorem declared_absolute_scaling_witness :
    (0 : Int) < 5 ∧ (0 : Int) < 9 ∧ (100 : Int) ≠ 0 ∧ offset_chain kelvin = true ∧
    ((∀ v, mul_absolute kelvin ⟨5, 9⟩ = some v →
      mul_absolute (.absolute kelvin ⟨27315, 100⟩) ⟨5, 9⟩ =
        some (.absolute v (ratio_divide ⟨27315, 100⟩ ⟨5, 9⟩))) ∧
    (offset_chain kelvin = true →
      ∃ w, mul_absolute (.absolute kelvin ⟨27315, 100⟩) ⟨5, 9⟩ = some w ∧
        base_offset w = base_offset (.absolute kelvin ⟨27315, 100⟩) /
          (⟨5, 9⟩ : Ratio).value)) ∧
    mul_absolute celsius ⟨5, 9⟩ =
      some (.absolute (.absolute (.scaled si_kelvin (.ratio ⟨5, 9⟩)) ⟨0, 1⟩) ⟨49167, 100⟩) :=
  ⟨by decide, by decide, by decide, by decide,
    declared_absolute_scaling kelvin ⟨27315, 100⟩ ⟨5, 9⟩ (by decide) (by decide) (by decide),
    by decide⟩

/-! ### `merge` on sequences over a set of ordered bases -/

section MergeOn
variable {α : Type} (Cmp : α → α → Option Int) (S : α → Prop)

theorem threeWayOn_self {Cmp : α → α → Option Int} {S : α → Prop}
    (hC : ThreeWayTotalOrderOn S Cmp) (a : α) (ha : S a) : Cmp a a = some 0 := by
  rcases hC.three_way a a ha ha with h | h | h
  · have := hC.antisymm a a _ ha ha h
    rw [h] at this; simp at this
  · exact h
  · have := hC.antisymm a a _ ha ha h
    rw [h] at this; simp at this

theorem merge_canonical_on (hC : ThreeWayTotalOrderOn S Cmp) (A B : List (Dim α)) :
    (∀ p ∈ A, S p.1) → (∀ p ∈ B, S p.1) →
    StrictlyIncreasing Cmp A → StrictlyIncreasing Cmp B →
      ∃ r, merge Cmp A B = some r ∧ StrictlyIncreasing Cmp r := by
  induction A generalizing B with
  | nil =>
    intro _ _ _ hB
    exact ⟨B, merge_nil_left Cmp B, hB⟩
  | cons t T ihT =>
    induction B with
    | nil =>
      intro _ _ hA _
      exact ⟨t :: T, merge_cons_nil Cmp t T, hA⟩
    | cons u U ihU =>
      intro hSA hSB hA hB
      have hA' := List.pairwise_cons.mp hA
      have hB' := List.pairwise_cons.mp hB
      have st : S t.1 := hSA t (List.mem_cons_self _ _)
      have su : S u.1 := hSB u (List.mem_cons_self _ _)
      have hST : ∀ p ∈ T, S p.1 := fun p hp => hSA p (List.mem_cons_of_mem _ hp)
      have hSU : ∀ p ∈ U, S p.1 := fun p hp => hSB p (List.mem_cons_of_mem _ hp)
      rw [merge_cons_cons]
      rcases hC.three_way t.1 u.1 st su with h | h | h
      · have h1 : Cmp t.1 u.1 ≠ some 1 := by rw [h]; simp
        obtain ⟨r', hr', hs'⟩ := ihT (u :: U) hST hSB hA'.2 hB
        refine ⟨t :: r', by simp [h, hr'], ?_⟩
        apply List.pairwise_cons.mpr
        refine ⟨?_, hs'⟩
        apply merge_lower_bound T (u :: U) t.1 hA'.1 _ r' hr'
        intro p hp
        rcases List.mem_cons.mp hp with rfl | hp
        · exact h
        · exact hC.trans _ _ _ st su (hSU p hp) h (hB'.1 p hp)
      · have h1 : Cmp t.1 u.1 ≠ some 1 := by rw [h]; simp
        have h2 : Cmp t.1 u.1 ≠ some (-1) := by rw [h]; simp
        have e : t.1 = u.1 := hC.zero_eq _ _ st su h
        obtain ⟨r', hr', hs'⟩ := ihT U hST hSU hA'.2 hB'.2
        by_cases h4 : (ratio_add t.2 u.2).num = 0
        · exact ⟨r', by simp [h, h4, hr'], hs'⟩
        · refine ⟨(t.1, ratio_add t.2 u.2) :: r', by simp [h, h4, hr'], ?_⟩
          apply List.pairwise_cons.mpr
          refine ⟨?_, hs'⟩
          apply merge_lower_bound T U t.1 hA'.1 _ r' hr'
          intro p hp
          rw [e]; exact hB'.1 p hp
      · have hlt : Cmp u.1 t.1 = some (-1) := hC.antisymm _ _ 1 st su h
        obtain ⟨r', hr', hs'⟩ := ihU hSA hSU hA hB'.2
        refine ⟨u :: r', by simp [h, hr'], ?_⟩
        apply List.pairwise_cons.mpr
        refine ⟨?_, hs'⟩
        apply merge_lower_bound (t :: T) U u.1 _ hB'.1 r' hr'
        intro p hp
        rcases List.mem_cons.mp hp with rfl | hp
        · exact hlt
        · exact hC.trans _ _ _ su st (hST p hp) hlt (hA'.1 p hp)

/-- The sum of `e_i * val(b_i)` is additive over `merge`, whatever the order of
the sequences, when bases that compare equal have the same value. -/
theorem merge_sum (val : α → ℚ) (A B : List (Dim α)) :
    ValidExponents A → ValidExponents B →
    (∀ a ∈ A, ∀ b ∈ B, Cmp a.1 b.1 = some 0 → val a.1 = val b.1) →
    ∀ r, merge Cmp A B = some r →
      dims_sum val r = dims_sum val A + dims_sum val B := by
  induction A generalizing B with
  | nil =>
    intro _ _ _ r hr
    rw [merge_nil_left] at hr
    cases hr
    simp [dims_sum]
  | cons t T ihT =>
    induction B with
    | nil =>
      intro _ _ _ r hr
      rw [merge_cons_nil] at hr
      cases hr
      simp [dims_sum]
    | cons u U ihU =>
      intro hA hB hval r hr
      have hT : ValidExponents T := fun p hp => hA p (List.mem_cons_of_mem _ hp)
      have hU : ValidExponents U := fun p hp => hB p (List.mem_cons_of_mem _ hp)
      rw [merge_cons_cons] at hr
      by_cases h1 : Cmp t.1 u.1 = some 1
      · rw [if_pos h1] at hr
        obtain ⟨r', hr', rfl⟩ := Option.map_eq_some'.mp hr
        have ih := ihU hA hU
          (fun a ha b hb => hval a ha b (List.mem_cons_of_mem _ hb)) r' hr'
        simp only [dims_sum] at ih ⊢
        rw [ih]; ring
      · by_cases h2 : Cmp t.1 u.1 = some (-1)
        · rw [if_neg h1, if_pos h2] at hr
          obtain ⟨r', hr', rfl⟩ := Option.map_eq_some'.mp hr
          have ih := ihT (u :: U) hT hB
            (fun a ha b hb => hval a (List.mem_cons_of_mem _ ha) b hb) r' hr'
          simp only [dims_sum] at ih ⊢
          rw [ih]; ring
        · by_cases h3 : Cmp t.1 u.1 = some 0
          · rw [if_neg h1, if_neg h2, if_pos h3] at hr
            have hv : val t.1 = val u.1 :=
              hval t (List.mem_cons_self _ _) u (List.mem_cons_self _ _) h3
            have ht := hA t (List.mem_cons_self _ _)
            have hu := hB u (List.mem_cons_self _ _)
            have hadd := ratio_add_value t.2 u.2 ht hu
            have ih := fun r' hr' => ihT U hT hU
              (fun a ha b hb => hval a (List.mem_cons_of_mem _ ha) b
                (List.mem_cons_of_mem _ hb)) r' hr'
            by_cases h4 : (ratio_add t.2 u.2).num = 0
            · rw [if_pos h4] at hr
              have h5 : t.2.value + u.2.value = 0 := by
                rw [← hadd]
                exact (Ratio.num_eq_zero_iff_value _ (ratio_add_D_pos _ _ ht hu).ne').mp h4
              have := ih r hr
              simp only [dims_sum]
              rw [this, ← hv]
              linear_combination (- val t.1) * h5
            · rw [if_neg h4] at hr
              obtain ⟨r', hr', rfl⟩ := Option.map_eq_some'.mp hr
              have := ih r' hr'
              simp only [dims_sum]
              rw [this, hadd, ← hv]; ring
          · simp [h1, h2, h3] at hr

end MergeOn

section CanonicalExt
variable {α : Type} [DecidableEq α] (Cmp : α → α → Option Int) (S : α → Prop)

theorem exponent_sum_lower_bound (hC : ThreeWayTotalOrderOn S Cmp) (c : α) (hc : S c)
    (L : List (Dim α)) (h : ∀ p ∈ L, Cmp c p.1 = some (-1)) : exponent_sum c L = 0 := by
  apply exponent_sum_zero_of_absent
  intro p hp e
  have := h p hp
  rw [e, threeWayOn_self hC c hc] at this
  simp at this

theorem exponent_sum_head (hC : ThreeWayTotalOrderOn S Cmp) (t : Dim α) (T : List (Dim α))
    (ht : S t.1) (h : StrictlyIncreasing Cmp (t :: T)) :
    exponent_sum t.1 (t :: T) = t.2.value := by
  simp only [exponent_sum, if_true]
  rw [exponent_sum_lower_bound Cmp S hC t.1 ht T (List.pairwise_cons.mp h).1, add_zero]

/-- Two sequences in normal form with the same exponent for every base are the
same sequence. -/
theorem canonical_ext_on (hC : ThreeWayTotalOrderOn S Cmp) (A B : List (Dim α)) :
    CanonPack S Cmp A → CanonPack S Cmp B →
    (∀ b, S b → exponent_sum b A = exponent_sum b B) → A = B := by
  induction A generalizing B with
  | nil =>
    intro _ hB h
    cases B with
    | nil => rfl
    | cons u U =>
      exfalso
      have hu := hB.2 u (List.mem_cons_self _ _)
      have h1 := h u.1 hu.1
      rw [exponent_sum_head Cmp S hC u U hu.1 hB.1] at h1
      simp only [exponent_sum] at h1
      exact hu.2.2 ((Ratio.num_eq_zero_iff_value _ hu.2.1.D_ne).mpr h1.symm)
  | cons t T ih =>
    intro hA hB h
    have ht := hA.2 t (List.mem_cons_self _ _)
    have hA' := List.pairwise_cons.mp hA.1
    have htne : t.2.value ≠ 0 := fun e =>
      ht.2.2 ((Ratio.num_eq_zero_iff_value _ ht.2.1.D_ne).mpr e)
    cases B with
    | nil =>
      exfalso
      have h1 := h t.1 ht.1
      rw [exponent_sum_head Cmp S hC t T ht.1 hA.1] at h1
      simp only [exponent_sum] at h1
      exact htne h1
    | cons u U =>
      have hu := hB.2 u (List.mem_cons_self _ _)
      have hB' := List.pairwise_cons.mp hB.1
      have hune : u.2.value ≠ 0 := fun e =>
        hu.2.2 ((Ratio.num_eq_zero_iff_value _ hu.2.1.D_ne).mpr e)
      have hST : ∀ p ∈ T, S p.1 := fun p hp => (hA.2 p (List.mem_cons_of_mem _ hp)).1
      have hSU : ∀ p ∈ U, S p.1 := fun p hp => (hB.2 p (List.mem_cons_of_mem _ hp)).1
      rcases hC.three_way t.1 u.1 ht.1 hu.1 with hc | hc | hc
      · exfalso
        have h1 := h t.1 ht.1
        rw [exponent_sum_head Cmp S hC t T ht.1 hA.1,
          exponent_sum_lower_bound Cmp S hC t.1 ht.1 (u :: U)] at h1
        · exact htne h1
        · intro p hp
          rcases List.mem_cons.mp hp with rfl | hp
          · exact hc
          · exact hC.trans _ _ _ ht.1 hu.1 (hSU p hp) hc (hB'.1 p hp)
      · have e : t.1 = u.1 := hC.zero_eq _ _ ht.1 hu.1 hc
        have h1 := h t.1 ht.1
        rw [exponent_sum_head Cmp S hC t T ht.1 hA.1] at h1
        rw [e, exponent_sum_head Cmp S hC u U hu.1 hB.1] at h1
        have e2 : t.2 = u.2 := Ratio.Reduced.eq_of_value ht.2.1 hu.2.1 h1
        have etu : t = u := Prod.ext e e2
        subst etu
        have hT : CanonPack S Cmp T :=
          ⟨hA'.2, fun p hp => hA.2 p (List.mem_cons_of_mem _ hp)⟩
        have hU : CanonPack S Cmp U :=
          ⟨hB'.2, fun p hp => hB.2 p (List.mem_cons_of_mem _ hp)⟩
        have := ih U hT hU (fun b hb => by
          have := h b hb
          simp only [exponent_sum] at this
          exact add_left_cancel this)
        rw [this]
      · exfalso
        have hlt : Cmp u.1 t.1 = some (-1) := hC.antisymm _ _ 1 ht.1 hu.1 hc
        have h1 := h u.1 hu.1
        rw [exponent_sum_head Cmp S hC u U hu.1 hB.1,
          exponent_sum_lower_bound Cmp S hC u.1 hu.1 (t :: T)] at h1
        · exact hune h1.symm
        · intro p hp
          rcases List.mem_cons.mp hp with rfl | hp
          · exact hlt
          · exact hC.trans _ _ _ hu.1 ht.1 (hST p hp) hlt (hA'.1 p hp)

end CanonicalExt

/-! ### The order of base units with unique names -/

theorem const_strcmp_trans (a : List Nat) :
    ∀ b c, const_strcmp a b = -1 → const_strcmp b c = -1 → const_strcmp a c = -1 := by
  induction a with
  | nil =>
    intro b c h1 h2
    cases b with
    | nil => simp [const_strcmp] at h1
    | cons y b =>
      cases c with
      | nil => simp [const_strcmp] at h2
      | cons z c => simp [const_strcmp]
  | cons x a ih =>
    intro b c h1 h2
    cases b with
    | nil => simp [const_strcmp] at h1
    | cons y b =>
      cases c with
      | nil => simp [const_strcmp] at h2
      | cons z c =>
        simp only [const_strcmp] at h1 h2 ⊢
        by_cases hxy : x = y
        · subst hxy
          rw [if_pos rfl] at h1
          by_cases hxz : x = z
          · subst hxz
            rw [if_pos rfl] at h2 ⊢
            exact ih b c h1 h2
          · rw [if_neg hxz] at h2 ⊢
            exact h2
        · rw [if_neg hxy] at h1
          have hlt : x < y := by
            by_contra hn
            rw [if_neg hn] at h1
            simp at h1
          by_cases hyz : y = z
          · subst hyz
            rw [if_neg hxy, if_pos hlt]
          · rw [if_neg hyz] at h2
            have hlt2 : y < z := by
              by_contra hn
              rw [if_neg hn] at h2
              simp at h2
            rw [if_neg (by omega), if_pos (by omega)]

theorem unit_compare_unique_names (S : U → Prop) (hS : UniqueNames S) (i n j m : String)
    (ha : S (.fundamental i n)) (hb : S (.fundamental j m)) :
    unit_compare_impl (.fundamental i n) (.fundamental j m) =
      some (const_strcmp (cstr n) (cstr m)) := by
  rw [unit_compare_named (.fundamental i n) (.fundamental j m) n m rfl rfl]
  by_cases h0 : const_strcmp (cstr n) (cstr m) = 0
  · have e := hS.unique i n j m ha hb ((const_strcmp_eq_zero_iff _ _).mp h0)
    rw [if_pos (Or.inl e)]
  · rw [if_pos (Or.inr h0)]

theorem unit_compare_order_on (S : U → Prop) (hS : UniqueNames S) :
    ThreeWayTotalOrderOn S unit_compare_impl := by
  constructor
  · intro a b ha hb
    obtain ⟨i, n, rfl⟩ := hS.base a ha
    obtain ⟨j, m, rfl⟩ := hS.base b hb
    rw [unit_compare_unique_names S hS i n j m ha hb]
    rcases const_strcmp_values (cstr n) (cstr m) with h | h | h <;> simp [h]
  · intro a b x ha hb h
    obtain ⟨i, n, rfl⟩ := hS.base a ha
    obtain ⟨j, m, rfl⟩ := hS.base b hb
    rw [unit_compare_unique_names S hS i n j m ha hb] at h
    rw [unit_compare_unique_names S hS j m i n hb ha, const_strcmp_antisymm,
      Option.some.inj h]
  · intro a b c ha hb hc h1 h2
    obtain ⟨i, n, rfl⟩ := hS.base a ha
    obtain ⟨j, m, rfl⟩ := hS.base b hb
    obtain ⟨k, l, rfl⟩ := hS.base c hc
    rw [unit_compare_unique_names S hS _ _ _ _ ha hb] at h1
    rw [unit_compare_unique_names S hS _ _ _ _ hb hc] at h2
    rw [unit_compare_unique_names S hS _ _ _ _ ha hc]
    rw [const_strcmp_trans _ _ _ (Option.some.inj h1) (Option.some.inj h2)]
  · intro a b ha hb h
    obtain ⟨i, n, rfl⟩ := hS.base a ha
    obtain ⟨j, m, rfl⟩ := hS.base b hb
    rw [unit_compare_unique_names S hS i n j m ha hb] at h
    exact hS.unique i n j m ha hb ((const_strcmp_eq_zero_iff _ _).mp (Option.some.inj h))

theorem fundamental_compare_zero_left (i n : String) (V : U)
    (h : unit_compare_impl (.fundamental i n) V = some 0) : V = .fundamental i n := by
  cases V with
  | derived j m d => simp [unit_compare_impl, U.name?] at h
  | fundamental j m =>
    simp only [unit_compare_impl, U.name?] at h
    split_ifs at h with hc
    simp only [Option.some.injEq] at h
    rcases hc with hc | hc
    · exact hc.symm
    · exact absurd h hc
  | scaled b s => simp [unit_compare_impl] at h
  | compound ps => simp [unit_compare_impl] at h
  | absolute u o => simp [unit_compare_impl, U.name?] at h

theorem fundamental_compare_zero_right (i n : String) (V : U)
    (h : unit_compare_impl V (.fundamental i n) = some 0) : V = .fundamental i n := by
  cases V with
  | derived j m d => simp [unit_compare_impl, U.name?] at h
  | fundamental j m =>
    simp only [unit_compare_impl, U.name?] at h
    split_ifs at h with hc
    simp only [Option.some.injEq] at h
    rcases hc with hc | hc
    · exact hc
    · exact absurd h hc
  | scaled b s => simp [unit_compare_impl] at h
  | compound ps => simp [unit_compare_impl] at h
  | absolute u o => simp [unit_compare_impl, U.name?] at h

/-! ### Dimensions in normal form -/

theorem canonPack_not_compound (S : U → Prop) (hS : UniqueNames S) (L : List (U × Ratio))
    (h : CanonPack S unit_compare_impl L) : ∀ p ∈ L, p.1.isCompound = false := by
  intro p hp
  obtain ⟨i, n, e⟩ := hS.base p.1 (h.2 p hp).1
  rw [e]; rfl

theorem canonPack_valid (S : U → Prop) (L : List (U × Ratio))
    (h : CanonPack S unit_compare_impl L) : ValidExponents L :=
  fun p hp => (h.2 p hp).2.1.D_ne

theorem canonPack_nil (S : U → Prop) : CanonPack S unit_compare_impl [] :=
  ⟨List.Pairwise.nil, fun _ h => absurd h (List.not_mem_nil _)⟩

theorem ratio_add_reduced (a b : Ratio) (ha : a.D ≠ 0) (hb : b.D ≠ 0) :
    (ratio_add a b).Reduced := by
  unfold ratio_add
  apply Ratio.type_reduced
  exact mul_ne_zero (Ratio.den_pos a ha).ne' (Ratio.den_pos b hb).ne'

/-- The product of two dimensions in normal form is a dimension in normal
form, and the exponents add. -/
theorem canon_multiply (S : U → Prop) (hS : UniqueNames S) (L1 L2 : List (U × Ratio))
    (h1 : CanonPack S unit_compare_impl L1) (h2 : CanonPack S unit_compare_impl L2) :
    ∃ L, unit_multiply (simplify_unit (.compound L1)) (simplify_unit (.compound L2)) =
        some (simplify_unit (.compound L)) ∧ CanonPack S unit_compare_impl L ∧
      ∀ f, S f → exponent_sum f L = exponent_sum f L1 + exponent_sum f L2 := by
  have hC := unit_compare_order_on S hS
  obtain ⟨r, hr, hsi⟩ := merge_canonical_on unit_compare_impl S hC L1 L2
    (fun p hp => (h1.2 p hp).1) (fun p hp => (h2.2 p hp).1) h1.1 h2.1
  refine ⟨r, ?_, ⟨hsi, ?_⟩, ?_⟩
  · unfold unit_multiply compound_unit_multiply
    rw [as_compound_simplify_compound L1 (canonPack_not_compound S hS L1 h1),
      as_compound_simplify_compound L2 (canonPack_not_compound S hS L2 h2), hr]
    rfl
  · intro x hx
    rcases merge_mem unit_compare_impl L1 L2 r hr x hx with h | h | ⟨a, ha, b, hb, rfl, hn⟩
    · exact h1.2 x h
    · exact h2.2 x h
    · exact ⟨(h1.2 a ha).1,
        ratio_add_reduced _ _ (h1.2 a ha).2.1.D_ne (h2.2 b hb).2.1.D_ne, hn⟩
  · intro f hf
    obtain ⟨i, n, rfl⟩ := hS.base f hf
    exact merge_exponent_sum unit_compare_impl (.fundamental i n)
      (fundamental_compare_zero_left i n) (fundamental_compare_zero_right i n) L1 L2
      (canonPack_valid S L1 h1) (canonPack_valid S L2 h2) r hr

theorem exponent_sum_map_multiply (f : U) (e : Ratio) (he : e.D ≠ 0) (L : List (U × Ratio))
    (hL : ValidExponents L) :
    exponent_sum f (L.map (fun p => (p.1, ratio_multiply p.2 e))) =
      exponent_sum f L * e.value := by
  induction L with
  | nil => simp [exponent_sum]
  | cons p L ih =>
    simp only [List.map_cons, exponent_sum]
    rw [ih (fun q hq => hL q (List.mem_cons_of_mem _ hq)),
      ratio_multiply_value _ _ (hL p (List.mem_cons_self _ _)) he]
    split_ifs <;> ring

/-- A power, with an exponent that is not 0, of a dimension in normal form is
a dimension in normal form, and the exponents are multiplied. -/
theorem canon_pow (S : U → Prop) (hS : UniqueNames S) (L : List (U × Ratio)) (e : Ratio)
    (he : e.D ≠ 0) (hn : e.N ≠ 0) (h : CanonPack S unit_compare_impl L) :
    ∃ L', unit_pow (simplify_unit (.compound L)) e = simplify_unit (.compound L') ∧
      CanonPack S unit_compare_impl L' ∧
      ∀ f, exponent_sum f L' = exponent_sum f L * e.value := by
  refine ⟨L.map (fun p => (p.1, ratio_multiply p.2 e)), ?_, ⟨?_, ?_⟩, ?_⟩
  · unfold unit_pow unit_pow_impl
    rw [as_compound_simplify_compound L (canonPack_not_compound S hS L h)]
    have : e ≠ ⟨0, 1⟩ := fun e0 => hn (by rw [e0])
    rw [if_neg this]
  · unfold StrictlyIncreasing
    rw [List.pairwise_map]
    exact h.1
  · intro x hx
    obtain ⟨p, hp, rfl⟩ := List.mem_map.mp hx
    have hp' := h.2 p hp
    refine ⟨hp'.1, ratio_multiply_reduced _ _ hp'.2.1.D_ne he, ?_⟩
    intro h0
    have hv := (Ratio.num_eq_zero_iff_value _
      (ratio_multiply_D_pos _ _ hp'.2.1.D_ne he).ne').mp h0
    rw [ratio_multiply_value _ _ hp'.2.1.D_ne he] at hv
    rcases mul_eq_zero.mp hv with h3 | h3
    · exact hp'.2.2 ((Ratio.num_eq_zero_iff_value _ hp'.2.1.D_ne).mpr h3)
    · exact hn ((Ratio.value_eq_zero_iff _ he).mp h3)
  · intro f
    exact exponent_sum_map_multiply f e he L (canonPack_valid S L h)

/-- Folding `unit_multiply` over dimensions in normal form gives a dimension in
normal form whose exponents are the sums. -/
theorem canon_fold (S : U → Prop) (hS : UniqueNames S) (Ds : List U) :
    (∀ d ∈ Ds, ∃ L, CanonPack S unit_compare_impl L ∧ d = simplify_unit (.compound L)) →
    ∀ La, CanonPack S unit_compare_impl La →
    ∃ L, mp_fold unit_multiply Ds (simplify_unit (.compound La)) =
        some (simplify_unit (.compound L)) ∧ CanonPack S unit_compare_impl L ∧
      ∀ f, S f → exponent_sum f L = exponent_sum f La +
        (Ds.map (fun d => exponent_sum f (as_compound_unit d))).sum := by
  induction Ds with
  | nil =>
    intro _ La hLa
    exact ⟨La, rfl, hLa, fun f _ => by simp⟩
  | cons d Ds ih =>
    intro hDs La hLa
    obtain ⟨Ld, hLd, rfl⟩ := hDs d (List.mem_cons_self _ _)
    obtain ⟨L1, hm, hL1, hs1⟩ := canon_multiply S hS La Ld hLa hLd
    obtain ⟨L, hf, hL, hs⟩ := ih (fun x hx => hDs x (List.mem_cons_of_mem _ hx)) L1 hL1
    refine ⟨L, ?_, hL, ?_⟩
    · simp only [mp_fold, hm]
      exact hf
    · intro f hf'
      rw [hs f hf', hs1 f hf', List.map_cons, List.sum_cons,
        as_compound_simplify_compound Ld (canonPack_not_compound S hS Ld hLd)]
      ring

theorem dim_exponent_of_check (f T : U) (L : List (U × Ratio)) (S : U → Prop)
    (hS : UniqueNames S) (hL : CanonPack S unit_compare_impl L)
    (h : dimension_check T = some (simplify_unit (.compound L))) :
    dim_exponent f T = exponent_sum f L := by
  unfold dim_exponent
  rw [h]
  simp only
  rw [as_compound_simplify_compound L (canonPack_not_compound S hS L hL)]

mutual
/-- The dimension of a unit that reduces to base units of `S` exists and is in
normal form. -/
theorem dimension_check_canon (S : U → Prop) (hS : UniqueNames S) : ∀ (T : U), DimGood S T →
    ∃ L, CanonPack S unit_compare_impl L ∧
      dimension_check T = some (simplify_unit (.compound L))
  | .fundamental i n, h => by
    simp only [DimGood] at h
    refine ⟨[(.fundamental i n, ⟨1, 1⟩)], ⟨List.pairwise_singleton _ _, ?_⟩, ?_⟩
    · intro p hp
      simp only [List.mem_singleton] at hp
      subst hp
      exact ⟨h, Ratio.one_reduced, show (⟨1, 1⟩ : Ratio).num ≠ 0 by decide⟩
    · simp [dimension_check, simplify_unit]
  | .derived _ _ d, h => by
    simp only [DimGood] at h
    simp only [dimension_check]
    exact dimension_check_canon S hS d h
  | .scaled b _, h => by
    simp only [DimGood] at h
    simp only [dimension_check]
    exact dimension_check_canon S hS b h
  | .compound ps, h => by
    simp only [DimGood] at h
    obtain ⟨Ds, hDs, hcan, _⟩ := dimension_check_pack_canon S hS ps h
    obtain ⟨L, hf, hL, _⟩ := canon_fold S hS Ds hcan [] (canonPack_nil S)
    refine ⟨L, hL, ?_⟩
    simp only [dimension_check, hDs]
    exact hf
  | .absolute _ _, h => by
    simp [DimGood] at h
/-- The dimensions of the pairs of a pack, each raised to its exponent. -/
theorem dimension_check_pack_canon (S : U → Prop) (hS : UniqueNames S) :
    ∀ (ps : List (U × Ratio)), DimGoodPack S ps →
    ∃ Ds, dimension_check_pack ps = some Ds ∧
      (∀ d ∈ Ds, ∃ L, CanonPack S unit_compare_impl L ∧ d = simplify_unit (.compound L)) ∧
      ∀ f, S f → (Ds.map (fun d => exponent_sum f (as_compound_unit d))).sum =
        dims_sum (dim_exponent f) ps
  | [], _ => ⟨[], rfl, fun _ h => absurd h (List.not_mem_nil _), fun _ _ => rfl⟩
  | (b, e) :: ps, h => by
    simp only [DimGoodPack] at h
    obtain ⟨Lb, hLb, hb⟩ := dimension_check_canon S hS b h.1
    obtain ⟨Ds, hDs, hcan, hsum⟩ := dimension_check_pack_canon S hS ps h.2.2.2
    obtain ⟨Lp, hpow, hLp, hexp⟩ := canon_pow S hS Lb e h.2.1 h.2.2.1 hLb
    refine ⟨unit_pow (simplify_unit (.compound Lb)) e :: Ds, ?_, ?_, ?_⟩
    · simp only [dimension_check_pack, hb, hDs]
    · intro d hd
      rcases List.mem_cons.mp hd with rfl | hd
      · exact ⟨Lp, hLp, hpow⟩
      · exact hcan d hd
    · intro f hf
      rw [List.map_cons, List.sum_cons, hsum f hf, hpow,
        as_compound_simplify_compound Lp (canonPack_not_compound S hS Lp hLp), hexp f]
      simp only [dims_sum]
      rw [dim_exponent_of_check f b Lb S hS hLb hb]
      ring
end

/-- The dimension of a compound unit: its exponents are the sums of the
exponents of the dimensions of its bases, weighted by their exponents. -/
theorem dimension_check_compound (S : U → Prop) (hS : UniqueNames S) (ps : List (U × Ratio))
    (h : DimGoodPack S ps) :
    ∃ L, CanonPack S unit_compare_impl L ∧
      dimension_check (.compound ps) = some (simplify_unit (.compound L)) ∧
      ∀ f, S f → exponent_sum f L = dims_sum (dim_exponent f) ps := by
  obtain ⟨Ds, hDs, hcan, hsum⟩ := dimension_check_pack_canon S hS ps h
  obtain ⟨L, hf, hL, hs⟩ := canon_fold S hS Ds hcan [] (canonPack_nil S)
  refine ⟨L, hL, ?_, ?_⟩
  · simp only [dimension_check, hDs]
    exact hf
  · intro f hf'
    rw [hs f hf', hsum f hf']
    simp [exponent_sum]

/-- Units that compare equal have the same dimension. -/
theorem unit_compare_zero_dimension : ∀ (T V : U),
    unit_compare_impl T V = some 0 → dimension_check T = dimension_check V
  | .scaled b1 e1, .scaled b2 e2, h => by
    simp only [unit_compare_impl] at h
    cases hc : unit_compare_impl b1 b2 with
    | none => rw [hc] at h; simp at h
    | some c =>
      rw [hc] at h
      simp only at h
      by_cases h0 : c ≠ 0
      · rw [if_pos h0] at h
        simp [boolToInt, h0] at h
      · have hc0 : c = 0 := not_not.mp h0
        subst hc0
        simp only [dimension_check]
        exact unit_compare_zero_dimension b1 b2 hc
  | .compound ps, .compound qs, h => by
    simp only [unit_compare_impl] at h
    rw [unit_compare_compound_zero ps qs h]
  | .fundamental i n, V, h => by
    rw [fundamental_compare_zero_left i n V h]
  | .derived i n d, V, h => by
    rw [derived_compare_zero_left i n d V h]
  | .scaled _ _, .fundamental _ _, h => by simp [unit_compare_impl] at h
  | .scaled _ _, .derived _ _ _, h => by simp [unit_compare_impl] at h
  | .scaled _ _, .compound _, h => by simp [unit_compare_impl] at h
  | .scaled _ _, .absolute _ _, h => by simp [unit_compare_impl] at h
  | .compound _, .fundamental _ _, h => by simp [unit_compare_impl] at h
  | .compound _, .derived _ _ _, h => by simp [unit_compare_impl] at h
  | .compound _, .scaled _ _, h => by simp [unit_compare_impl] at h
  | .compound _, .absolute _ _, h => by simp [unit_compare_impl] at h
  | .absolute _ _, .fundamental _ _, h => by simp [unit_compare_impl, U.name?] at h
  | .absolute _ _, .derived _ _ _, h => by simp [unit_compare_impl, U.name?] at h
  | .absolute _ _, .scaled _ _, h => by simp [unit_compare_impl] at h
  | .absolute _ _, .compound _, h => by simp [unit_compare_impl] at h
  | .absolute _ _, .absolute _ _, h => by simp [unit_compare_impl, U.name?] at h

theorem dimGoodPack_iff (S : U → Prop) (ps : List (U × Ratio)) :
    DimGoodPack S ps ↔ ∀ p ∈ ps, DimGood S p.1 ∧ p.2.D ≠ 0 ∧ p.2.N ≠ 0 := by
  induction ps with
  | nil => simp [DimGoodPack]
  | cons p ps ih =>
    obtain ⟨b, e⟩ := p
    simp only [DimGoodPack, ih, List.mem_cons, forall_eq_or_imp]
    tauto

theorem dimGoodPack_as_compound (S : U → Prop) (A : U) (h : DimGood S A) :
    DimGoodPack S (as_compound_unit A) := by
  cases A with
  | compound ps => simpa [DimGood, as_compound_unit] using h
  | fundamental i n => exact ⟨h, by decide, by decide, trivial⟩
  | derived i n d => exact ⟨h, by decide, by decide, trivial⟩
  | scaled b s => exact ⟨h, by decide, by decide, trivial⟩
  | absolute u o => simp [DimGood] at h

theorem dimGoodPack_merge (S : U → Prop) (A B r : List (U × Ratio))
    (hA : DimGoodPack S A) (hB : DimGoodPack S B)
    (hr : merge unit_compare_impl A B = some r) : DimGoodPack S r := by
  rw [dimGoodPack_iff] at hA hB ⊢
  intro x hx
  rcases merge_mem unit_compare_impl A B r hr x hx with h | h | ⟨a, ha, b, hb, rfl, hn⟩
  · exact hA x h
  · exact hB x h
  · have hD := (ratio_add_D_pos a.2 b.2 (hA a ha).2.1 (hB b hb).2.1).ne'
    exact ⟨(hA a ha).1, hD, fun h0 => hn ((Ratio.num_eq_zero_iff _ hD).mpr h0)⟩

theorem dims_sum_as_compound (S : U → Prop) (hS : UniqueNames S) (A : U) (h : DimGood S A)
    (f : U) (hf : S f) :
    dims_sum (dim_exponent f) (as_compound_unit A) = dim_exponent f A := by
  have single : ∀ T : U, dims_sum (dim_exponent f) [(T, ⟨1, 1⟩)] = dim_exponent f T := by
    intro T
    simp [dims_sum, Ratio.value]
  cases A with
  | compound ps =>
    simp only [DimGood] at h
    obtain ⟨L, hL, hd, hs⟩ := dimension_check_compound S hS ps h
    rw [dim_exponent_of_check f _ L S hS hL hd, hs f hf]
    rfl
  | fundamental i n => exact single _
  | derived i n d => exact single _
  | scaled b s => exact single _
  | absolute u o => simp [DimGood] at h

/-- The dimension of a unit in simplified form is the dimension of its pack. -/
theorem dimension_check_simplify (S : U → Prop) (hS : UniqueNames S) (r : List (U × Ratio))
    (h : DimGoodPack S r) :
    dimension_check (simplify_unit (.compound r)) = dimension_check (.compound r) := by
  match r, h with
  | [], _ => rfl
  | [(T, e)], h =>
    by_cases he : e = ⟨1, 1⟩
    · subst he
      have hT : DimGood S T := h.1
      simp only [simplify_unit, if_true]
      obtain ⟨LT, hLT, hdT⟩ := dimension_check_canon S hS T hT
      obtain ⟨L, hL, hd, hs⟩ := dimension_check_compound S hS _ h
      have hC := unit_compare_order_on S hS
      have e : L = LT := by
        apply canonical_ext_on unit_compare_impl S hC L LT hL hLT
        intro f hf
        rw [hs f hf]
        simp only [dims_sum, Ratio.value]
        rw [dim_exponent_of_check f T LT S hS hLT hdT]
        norm_num
      rw [hd, hdT, e]
    · simp [simplify_unit, he]
  | _ :: _ :: _, _ => simp [simplify_unit]

/-- With `visit` read as the declared member `_boost_units2_apply`: for units `A` and `B` that reduce to base units with unique names
(no absolute unit inside, every exponent a ratio that is not 0), whenever the
product `unit_multiply<A, B>` exists, the dimensions of `A`, of `B` and of the
product exist, and the dimension of the product is the identical unit as the
product of the dimensions of `A` and `B`. -/
theorem declared_dimension_check_multiplicative (S : U → Prop) (hS : UniqueNames S) (A B P : U)
    (hA : DimGood S A) (hB : DimGood S B) (hP : unit_multiply A B = some P) :
    ∃ dA dB d, dimension_check A = some dA ∧ dimension_check B = some dB ∧
      dimension_check P = some d ∧ unit_multiply dA dB = some d := by
  have hC := unit_compare_order_on S hS
  obtain ⟨LA, hLA, hdA⟩ := dimension_check_canon S hS A hA
  obtain ⟨LB, hLB, hdB⟩ := dimension_check_canon S hS B hB
  obtain ⟨L, hm, hL, hsm⟩ := canon_multiply S hS LA LB hLA hLB
  unfold unit_multiply compound_unit_multiply at hP
  obtain ⟨r, hr, rfl⟩ := Option.map_eq_some'.mp hP
  have hpA := dimGoodPack_as_compound S A hA
  have hpB := dimGoodPack_as_compound S B hB
  have hpr := dimGoodPack_merge S _ _ r hpA hpB hr
  obtain ⟨Lr, hLr, hdr, hsr⟩ := dimension_check_compound S hS r hpr
  have e : Lr = L := by
    apply canonical_ext_on unit_compare_impl S hC Lr L hLr hL
    intro f hf
    rw [hsr f hf, hsm f hf]
    rw [merge_sum unit_compare_impl (dim_exponent f) _ _
      (fun p hp => ((dimGoodPack_iff S _).mp hpA p hp).2.1)
      (fun p hp => ((dimGoodPack_iff S _).mp hpB p hp).2.1) ?_ r hr]
    · rw [dims_sum_as_compound S hS A hA f hf, dims_sum_as_compound S hS B hB f hf,
        dim_exponent_of_check f A LA S hS hLA hdA, dim_exponent_of_check f B LB S hS hLB hdB]
    · intro a _ b _ h0
      unfold dim_exponent
      rw [unit_compare_zero_dimension a.1 b.1 h0]
  refine ⟨_, _, _, hdA, hdB, ?_, hm⟩
  rw [dimension_check_simplify S hS r hpr, hdr, e]

theorem length_and_time_unique : UniqueNames length_and_time := by
  constructor
  · rintro u (rfl | rfl)
    · exact ⟨"length", "length", rfl⟩
    · exact ⟨"time", "time", rfl⟩
  · intro i n j m ha hb hc
    rcases ha with ha | ha <;> rcases hb with hb | hb
    · rw [ha, hb]
    · simp only [length, time, U.fundamental.injEq] at ha hb
      obtain ⟨rfl, rfl⟩ := ha
      obtain ⟨rfl, rfl⟩ := hb
      exact absurd hc (by decide)
    · simp only [length, time, U.fundamental.injEq] at ha hb
      obtain ⟨rfl, rfl⟩ := ha
      obtain ⟨rfl, rfl⟩ := hb
      exact absurd hc (by decide)
    · rw [ha, hb]

theorem meter_per_second_dimGood : DimGood length_and_time meter_per_second := by
  simp [meter_per_second, meter, second, DimGood, DimGoodPack, length_and_time, length, time]

theorem millisecond_dimGood : DimGood length_and_time millisecond := by
  simp [millisecond, second, DimGood, length_and_time, length, time]

theorem declared_dimension_check_multiplicative_witness :
    unit_multiply meter_per_second millisecond =
      some (.compound [(meter, ⟨1, 1⟩), (second, ⟨-1, 1⟩), (millisecond, ⟨1, 1⟩)]) ∧
    (∃ dA dB d, dimension_check meter_per_second = some dA ∧
      dimension_check millisecond = some dB ∧
      dimension_check
        (.compound [(meter, ⟨1, 1⟩), (second, ⟨-1, 1⟩), (millisecond, ⟨1, 1⟩)]) = some d ∧
      unit_multiply dA dB = some d) ∧
    dimension_check
      (.compound [(meter, ⟨1, 1⟩), (second, ⟨-1, 1⟩), (millisecond, ⟨1, 1⟩)]) = some length :=
  ⟨by decide,
    declared_dimension_check_multiplicative length_and_time length_and_time_unique
      meter_per_second millisecond _ meter_per_second_dimGood millisecond_dimGood (by decide),
    by decide⟩

/-! ### `merge` with the arguments swapped -/

theorem ratio_add_comm (a b : Ratio) : ratio_add a b = ratio_add b a := by
  unfold ratio_add
  rw [add_comm (a.num * b.den), mul_comm a.den b.den]

theorem merge_comm {α : Type} (Cmp : α → α → Option Int) (hC : ThreeWayTotalOrder Cmp)
    (A B : List (Dim α)) : merge Cmp A B = merge Cmp B A := by
  induction A generalizing B with
  | nil => rw [merge_nil_left, merge_nil_right]
  | cons t T ihT =>
    induction B with
    | nil => rw [merge_nil_left, merge_nil_right]
    | cons u U ihU =>
      rw [merge_cons_cons, merge_cons_cons Cmp u t U T]
      rcases hC.three_way t.1 u.1 with h | h | h
      · have h' : Cmp u.1 t.1 = some 1 := by
          have := hC.antisymm _ _ _ h
          simpa using this
        have h1 : Cmp t.1 u.1 ≠ some 1 := by rw [h]; simp
        rw [if_neg h1, if_pos h, if_pos h', ihT (u :: U)]
      · have h' : Cmp u.1 t.1 = some 0 := by
          have := hC.antisymm _ _ _ h
          simpa using this
        have h1 : Cmp t.1 u.1 ≠ some 1 := by rw [h]; simp
        have h2 : Cmp t.1 u.1 ≠ some (-1) := by rw [h]; simp
        have h3 : Cmp u.1 t.1 ≠ some 1 := by rw [h']; simp
        have h4 : Cmp u.1 t.1 ≠ some (-1) := by rw [h']; simp
        have e : t.1 = u.1 := hC.zero_eq _ _ h
        rw [if_neg h1, if_neg h2, if_pos h, if_neg h3, if_neg h4, if_pos h',
          ratio_add_comm u.2 t.2, ihT U, e]
      · have h' : Cmp u.1 t.1 = some (-1) := hC.antisymm _ _ _ h
        have h3 : Cmp u.1 t.1 ≠ some 1 := by rw [h']; simp
        rw [if_pos h, if_neg h3, if_pos h', ihU]

/-- C34: for every comparator that is a three-way total order on the bases
and all sequences `A` and `B` (sorted or not), `merge<Cmp, L, A, B>` and
`merge<Cmp, L, B, A>` are the identical sequence, and for strictly increasing
sequences this sequence exists. -/
theorem C34_merge_commutative {α : Type} (Cmp : α → α → Option Int)
    (hC : ThreeWayTotalOrder Cmp) (A B : List (Dim α)) :
    merge Cmp A B = merge Cmp B A ∧
    (StrictlyIncreasing Cmp A → StrictlyIncreasing Cmp B →
      ∃ r, merge Cmp A B = some r ∧ merge Cmp B A = some r) := by
  refine ⟨merge_comm Cmp hC A B, fun hA hB => ?_⟩
  obtain ⟨r, hr, _⟩ := merge_canonical hC A B hA hB
  exact ⟨r, hr, by rw [← merge_comm Cmp hC A B]; exact hr⟩

theorem C34_merge_commutative_witness :
    ThreeWayTotalOrder nat_compare ∧
    (merge nat_compare [(1, ⟨1, 1⟩), (3, ⟨2, 1⟩)] [(2, ⟨1, 2⟩), (3, ⟨-1, 1⟩)] =
      merge nat_compare [(2, ⟨1, 2⟩), (3, ⟨-1, 1⟩)] [(1, ⟨1, 1⟩), (3, ⟨2, 1⟩)] ∧
    (StrictlyIncreasing nat_compare [(1, ⟨1, 1⟩), (3, ⟨2, 1⟩)] →
      StrictlyIncreasing nat_compare [(2, ⟨1, 2⟩), (3, ⟨-1, 1⟩)] →
      ∃ r, merge nat_compare [(1, ⟨1, 1⟩), (3, ⟨2, 1⟩)] [(2, ⟨1, 2⟩), (3, ⟨-1, 1⟩)] = some r ∧
        merge nat_compare [(2, ⟨1, 2⟩), (3, ⟨-1, 1⟩)] [(1, ⟨1, 1⟩), (3, ⟨2, 1⟩)] = some r)) ∧
    merge nat_compare [(1, ⟨1, 1⟩), (3, ⟨2, 1⟩)] [(2, ⟨1, 2⟩), (3, ⟨-1, 1⟩)] =
      some [(1, ⟨1, 1⟩), (2, ⟨1, 2⟩), (3, ⟨1, 1⟩)] ∧
    merge nat_compare [(2, ⟨1, 2⟩), (3, ⟨-1, 1⟩)] [(1, ⟨1, 1⟩), (3, ⟨2, 1⟩)] =
      some [(1, ⟨1, 1⟩), (2, ⟨1, 2⟩), (3, ⟨1, 1⟩)] :=
  ⟨nat_compare_order, C34_merge_commutative nat_compare nat_compare_order _ _,
    by decide, by decide⟩

/-! ### The temperature conversions -/

theorem conversion_factor_kelvin_kelvin :
    conversion_factor (unitdiff_t celsius) (unitdiff_t kelvin) = .ok (.ratio ⟨1, 1⟩) := by
  rfl

theorem conversion_factor_kelvin_rankine :
    conversion_factor (unitdiff_t celsius) (unitdiff_t fahrenheit)
      = .ok (.multiplier (.ratio ⟨1, 1⟩) (.ratio ⟨9, 5⟩)) := by
  rfl

theorem base_offset_temperature :
    base_offset kelvin = 0 ∧ base_offset celsius = 27315 / 100 ∧
    base_offset fahrenheit = 45967 / 100 := by
  refine ⟨?_, ?_, ?_⟩
  · simp [base_offset, kelvin, si_kelvin, Ratio.value]
  · simp [base_offset, celsius, kelvin, si_kelvin, Ratio.value]
  · simp only [base_offset, fahrenheit, si_kelvin, Scale.value, Ratio.value]
    norm_num

/-- C32: with the units of `temperature.hpp`, `convert(celsius, kelvin, x)` is
`x - 27315/100` and `convert(celsius, fahrenheit, x)` is `x * 9/5 - 32` for
every `x`, in exact arithmetic: `convert` subtracts the offset of `From` and
adds the offset of `To`.  At `x = 100` the results are `-173.15` and `148`,
not `373.15` and `212`. -/
theorem C32_convert_subtracts_source_offset :
    (∀ x : ℚ, convert celsius kelvin x = some (x - 27315 / 100)) ∧
    (∀ x : ℚ, convert celsius fahrenheit x = some (x * (9 / 5) - 32)) ∧
    convert celsius kelvin 100 = some (-17315 / 100) ∧
    convert celsius kelvin 100 ≠ some (100 + 27315 / 100) ∧
    convert celsius fahrenheit 100 = some 148 ∧
    convert celsius fahrenheit 100 ≠ some 212 := by
  have hk : ∀ x : ℚ, convert celsius kelvin x = some (x - 27315 / 100) := by
    intro x
    unfold convert
    rw [conversion_factor_kelvin_kelvin]
    simp only [requires_absolute, celsius, kelvin, Bool.and_self, if_true, Val.denote]
    rw [show base_offset (.absolute (.absolute si_kelvin ⟨0, 1⟩) ⟨27315, 100⟩) = 27315 / 100
      from base_offset_temperature.2.1,
      show base_offset (.absolute si_kelvin ⟨0, 1⟩) = 0 from base_offset_temperature.1]
    simp [Ratio.value]
  have hf : ∀ x : ℚ, convert celsius fahrenheit x = some (x * (9 / 5) - 32) := by
    intro x
    unfold convert
    rw [conversion_factor_kelvin_rankine, base_offset_temperature.2.1,
      base_offset_temperature.2.2]
    simp only [show requires_absolute celsius = true from rfl,
      show requires_absolute fahrenheit = true from rfl, Bool.and_self, if_true, Val.denote,
      Ratio.value]
    congr 1
    push_cast
    ring
  refine ⟨hk, hf, ?_, ?_, ?_, ?_⟩
  · rw [hk]; norm_num
  · rw [hk]; norm_num
  · rw [hf]; norm_num
  · rw [hf]; norm_num

/-! ### The composite conversion of the test -/

theorem composite_units :
    mul meter meter = some (.compound [(meter, ⟨2, 1⟩)]) ∧
    mul inch foot = some (.compound [(foot, ⟨1, 1⟩), (inch, ⟨1, 1⟩)]) := by
  refine ⟨by decide, by decide⟩

theorem conversion_factor_composite :
    conversion_factor (.compound [(meter, ⟨2, 1⟩)])
        (.compound [(foot, ⟨1, 1⟩), (inch, ⟨1, 1⟩)]) =
      .ok (.multiplier (.multiplier (.multiplier (.ratio ⟨1, 1⟩) (.ratio ⟨12, 1⟩))
        (.ratio ⟨9, 1⟩)) (.ratio ⟨1562500, 1306449⟩)) := by
  rfl

theorem composite_denote :
    Val.denote (.multiplier (.multiplier (.multiplier (.ratio ⟨1, 1⟩) (.ratio ⟨12, 1⟩))
      (.ratio ⟨9, 1⟩)) (.ratio ⟨1562500, 1306449⟩)) = some (6250000 / 48387) := by
  simp only [Val.denote, Ratio.value]
  norm_num

/-- With `visit` read as the declared member `_boost_units2_apply`: `conversion_factor(meter * meter, inch * foot)`
denotes `6250000 / 48387`, about 129.17, which differs from
32.80839895013123358 by more than 96. -/
theorem declared_composite_factor_is_not_32_8 :
    mul meter meter = some (.compound [(meter, ⟨2, 1⟩)]) ∧
    mul inch foot = some (.compound [(foot, ⟨1, 1⟩), (inch, ⟨1, 1⟩)]) ∧
    (∃ v, conversion_factor (.compound [(meter, ⟨2, 1⟩)])
        (.compound [(foot, ⟨1, 1⟩), (inch, ⟨1, 1⟩)]) = .ok v ∧
      v.denote = some (6250000 / 48387)) ∧
    (96 : ℚ) < 6250000 / 48387 - 3280839895013123358 / 100000000000000000 := by
  refine ⟨composite_units.1, composite_units.2,
    ⟨_, conversion_factor_composite, composite_denote⟩, by norm_num⟩

/-- With `visit` read as the declared member `_boost_units2_apply`: for the units of the test (`yard` is 9144/10000 `meter`,
`foot` is `yard`/3, `inch` is `foot`/12), `conversion_factor(meter * meter,
inch * foot)` is accepted and denotes, in exact arithmetic, the number
`6250000 / 48387 = 1 / ((127/5000) * (381/1250))`, which lies between
129.16692500051666 and 129.16692500051667. -/
theorem declared_composite_conversion :
    (∃ a b v, mul meter meter = some a ∧ mul inch foot = some b ∧
      conversion_factor a b = .ok v ∧ v.denote = some (6250000 / 48387)) ∧
    total_scale inch = 127 / 5000 ∧ total_scale foot = 381 / 1250 ∧
    (6250000 / 48387 : ℚ) = 1 / ((127 / 5000) * (381 / 1250)) ∧
    (12916692500051666 / 100000000000000 : ℚ) < 6250000 / 48387 ∧
    (6250000 / 48387 : ℚ) < 12916692500051667 / 100000000000000 := by
  refine ⟨⟨_, _, _, composite_units.1, composite_units.2, conversion_factor_composite,
    composite_denote⟩, ?_, ?_, by norm_num, by norm_num, by norm_num⟩
  · simp only [inch, foot, yard, meter, length, total_scale, Scale.value, Ratio.value]
    norm_num
  · simp only [foot, yard, meter, length, total_scale, Scale.value, Ratio.value]
    norm_num

/-! ### The order of ratio scales -/

theorem ratio_less_iff_value (a b : Ratio) (ha : a.D ≠ 0) (hb : b.D ≠ 0) :
    ratio_less a b = true ↔ a.value < b.value := by
  have hda : (0 : ℚ) < (a.den : ℚ) := by exact_mod_cast Ratio.den_pos a ha
  have hdb : (0 : ℚ) < (b.den : ℚ) := by exact_mod_cast Ratio.den_pos b hb
  rw [← Ratio.num_div_den a ha, ← Ratio.num_div_den b hb, div_lt_div_iff₀ hda hdb]
  simp only [ratio_less, decide_eq_true_eq]
  constructor
  · intro h; exact_mod_cast h
  · intro h; exact_mod_cast h

theorem scale_compare_reduced (a b : Ratio) (ha : a.D ≠ 0) (hb : b.D ≠ 0) :
    scale_compare (.ratio a) (.ratio b) =
      some (if a.value < b.value then -1 else if b.value < a.value then 1 else 0) := by
  simp only [scale_compare]
  by_cases h1 : a.value < b.value
  · rw [if_pos ((ratio_less_iff_value a b ha hb).mpr h1), if_pos h1]
  · have h1' : ¬ ratio_less a b = true := fun h => h1 ((ratio_less_iff_value a b ha hb).mp h)
    rw [if_neg h1', if_neg h1]
    by_cases h2 : b.value < a.value
    · rw [if_pos ((ratio_less_iff_value b a hb ha).mpr h2), if_pos h2]
    · have h2' : ¬ ratio_less b a = true :=
        fun h => h2 ((ratio_less_iff_value b a hb ha).mp h)
      rw [if_neg h2', if_neg h2]

theorem scale_compare_lt_iff (a b : Ratio) (ha : a.D ≠ 0) (hb : b.D ≠ 0) :
    scale_compare (.ratio a) (.ratio b) = some (-1) ↔ a.value < b.value := by
  rw [scale_compare_reduced a b ha hb]
  by_cases h1 : a.value < b.value
  · simp [h1]
  · by_cases h2 : b.value < a.value <;> simp [h1, h2]

theorem scale_compare_order_on : ThreeWayTotalOrderOn ReducedRatioScale scale_compare := by
  constructor
  · intro a b ha hb
    cases a with
    | computed i v => exact absurd ha (by simp [ReducedRatioScale])
    | ratio r =>
      cases b with
      | computed i v => exact absurd hb (by simp [ReducedRatioScale])
      | ratio q =>
        rw [scale_compare_reduced r q ha.D_ne hb.D_ne]
        by_cases h1 : r.value < q.value
        · simp [h1]
        · by_cases h2 : q.value < r.value <;> simp [h1, h2]
  · intro a b x ha hb h
    cases a with
    | computed i v => exact absurd ha (by simp [ReducedRatioScale])
    | ratio r =>
      cases b with
      | computed i v => exact absurd hb (by simp [ReducedRatioScale])
      | ratio q =>
        rw [scale_compare_reduced r q ha.D_ne hb.D_ne] at h
        rw [scale_compare_reduced q r hb.D_ne ha.D_ne, ← Option.some.inj h]
        rcases lt_trichotomy r.value q.value with h1 | h1 | h1
        · simp [h1, not_lt_of_gt h1]
        · simp [h1]
        · simp [h1, not_lt_of_gt h1]
  · intro a b c ha hb hc h1 h2
    cases a with
    | computed i v => exact absurd ha (by simp [ReducedRatioScale])
    | ratio r =>
      cases b with
      | computed i v => exact absurd hb (by simp [ReducedRatioScale])
      | ratio q =>
        cases c with
        | computed i v => exact absurd hc (by simp [ReducedRatioScale])
        | ratio s =>
          rw [scale_compare_lt_iff _ _ ha.D_ne hb.D_ne] at h1
          rw [scale_compare_lt_iff _ _ hb.D_ne hc.D_ne] at h2
          exact (scale_compare_lt_iff _ _ ha.D_ne hc.D_ne).mpr (lt_trans h1 h2)
  · intro a b ha hb h
    cases a with
    | computed i v => exact absurd ha (by simp [ReducedRatioScale])
    | ratio r =>
      cases b with
      | computed i v => exact absurd hb (by simp [ReducedRatioScale])
      | ratio q =>
        rw [scale_compare_reduced r q ha.D_ne hb.D_ne] at h
        have hv : r.value = q.value := by
          rcases lt_trichotomy r.value q.value with h1 | h1 | h1
          · simp [h1] at h
          · exact h1
          · simp [h1, not_lt_of_gt h1] at h
        rw [Ratio.Reduced.eq_of_value ha hb hv]

/-! ### Scale lists in normal form -/

theorem merge_canonPack {α : Type} (Cmp : α → α → Option Int) (S : α → Prop)
    (hC : ThreeWayTotalOrderOn S Cmp) (A B : List (Dim α))
    (hA : CanonPack S Cmp A) (hB : CanonPack S Cmp B) :
    ∃ r, merge Cmp A B = some r ∧ CanonPack S Cmp r := by
  obtain ⟨r, hr, hsi⟩ := merge_canonical_on Cmp S hC A B
    (fun p hp => (hA.2 p hp).1) (fun p hp => (hB.2 p hp).1) hA.1 hB.1
  refine ⟨r, hr, hsi, ?_⟩
  intro x hx
  rcases merge_mem Cmp A B r hr x hx with h | h | ⟨a, ha, b, hb, rfl, hn⟩
  · exact hA.2 x h
  · exact hB.2 x h
  · exact ⟨(hA.2 a ha).1,
      ratio_add_reduced _ _ (hA.2 a ha).2.1.D_ne (hB.2 b hb).2.1.D_ne, hn⟩

theorem map_multiply_canonPack {α : Type} (Cmp : α → α → Option Int) (S : α → Prop)
    (e : Ratio) (he : e.D ≠ 0) (hn : e.N ≠ 0) (L : List (Dim α))
    (h : CanonPack S Cmp L) :
    CanonPack S Cmp (L.map (fun p => (p.1, ratio_multiply p.2 e))) := by
  constructor
  · unfold StrictlyIncreasing
    rw [List.pairwise_map]
    exact h.1
  · intro x hx
    obtain ⟨p, hp, rfl⟩ := List.mem_map.mp hx
    have hp' := h.2 p hp
    refine ⟨hp'.1, ratio_multiply_reduced _ _ hp'.2.1.D_ne he, ?_⟩
    intro h0
    have hv := (Ratio.num_eq_zero_iff_value _
      (ratio_multiply_D_pos _ _ hp'.2.1.D_ne he).ne').mp h0
    rw [ratio_multiply_value _ _ hp'.2.1.D_ne he] at hv
    rcases mul_eq_zero.mp hv with h3 | h3
    · exact hp'.2.2 ((Ratio.num_eq_zero_iff_value _ hp'.2.1.D_ne).mpr h3)
    · exact hn ((Ratio.value_eq_zero_iff _ he).mp h3)

theorem scale_fold_canon (Ls : List (List (Dim Scale))) :
    (∀ l ∈ Ls, CanonPack ReducedRatioScale scale_compare l) →
    ∀ acc, CanonPack ReducedRatioScale scale_compare acc →
    ∃ l, mp_fold scale_list_multiply Ls acc = some l ∧
      CanonPack ReducedRatioScale scale_compare l := by
  induction Ls with
  | nil =>
    intro _ acc hacc
    exact ⟨acc, rfl, hacc⟩
  | cons x Ls ih =>
    intro hLs acc hacc
    obtain ⟨r, hr, hcan⟩ := merge_canonPack scale_compare ReducedRatioScale
      scale_compare_order_on acc x hacc (hLs x (List.mem_cons_self _ _))
    obtain ⟨l, hl, hlc⟩ := ih (fun y hy => hLs y (List.mem_cons_of_mem _ hy)) r hcan
    refine ⟨l, ?_, hlc⟩
    simp only [mp_fold, scale_list_multiply, hr]
    exact hl

mutual
/-- The flattened scale list of a unit with reduced ratio scales exists and is
in normal form. -/
theorem flatten_scale_canon : ∀ (T : U), ScaleGood T →
    ∃ l, flatten_scale T = some l ∧ CanonPack ReducedRatioScale scale_compare l
  | .fundamental _ _, _ =>
    ⟨[], rfl, List.Pairwise.nil, fun _ h => absurd h (List.not_mem_nil _)⟩
  | .derived _ _ d, h => by
    simp only [ScaleGood] at h
    simp only [flatten_scale]
    exact flatten_scale_canon d h
  | .scaled b (.ratio r), h => by
    simp only [ScaleGood] at h
    obtain ⟨fb, hfb, hcan⟩ := flatten_scale_canon b h.1
    have hs : CanonPack ReducedRatioScale scale_compare [(Scale.ratio r, ⟨1, 1⟩)] := by
      refine ⟨List.pairwise_singleton _ _, ?_⟩
      intro p hp
      simp only [List.mem_singleton] at hp
      subst hp
      exact ⟨h.2, Ratio.one_reduced, show (⟨1, 1⟩ : Ratio).num ≠ 0 by decide⟩
    obtain ⟨l, hl, hlc⟩ := merge_canonPack scale_compare ReducedRatioScale
      scale_compare_order_on fb _ hcan hs
    refine ⟨l, ?_, hlc⟩
    simp only [flatten_scale, hfb, scale_list_multiply]
    exact hl
  | .scaled _ (.computed _ _), h => by simp [ScaleGood] at h
  | .compound ps, h => by
    simp only [ScaleGood] at h
    obtain ⟨L, hL, hcan⟩ := flatten_scale_pack_canon ps h
    obtain ⟨l, hl, hlc⟩ := scale_fold_canon L hcan []
      ⟨List.Pairwise.nil, fun _ h => absurd h (List.not_mem_nil _)⟩
    refine ⟨l, ?_, hlc⟩
    simp only [flatten_scale, hL]
    exact hl
  | .absolute _ _, h => by simp [ScaleGood] at h
/-- The flattened scale lists of the pairs of a pack, each raised to its
exponent. -/
theorem flatten_scale_pack_canon : ∀ (ps : List (U × Ratio)), ScaleGoodPack ps →
    ∃ L, flatten_scale_pack ps = some L ∧
      ∀ l ∈ L, CanonPack ReducedRatioScale scale_compare l
  | [], _ => ⟨[], rfl, fun _ h => absurd h (List.not_mem_nil _)⟩
  | (b, e) :: ps, h => by
    simp only [ScaleGoodPack] at h
    obtain ⟨fb, hfb, hcan⟩ := flatten_scale_canon b h.1
    obtain ⟨L, hL, hLc⟩ := flatten_scale_pack_canon ps h.2.2.2
    refine ⟨scale_list_pow fb e :: L, ?_, ?_⟩
    · simp only [flatten_scale_pack, hfb, hL]
    · intro l hl
      rcases List.mem_cons.mp hl with rfl | hl
      · exact map_multiply_canonPack scale_compare ReducedRatioScale e h.2.1 h.2.2.1 fb hcan
      · exact hLc l hl
end

/-- With `visit` read as the declared member `_boost_units2_apply`: for every unit whose scale factors are ratios in lowest terms and
whose exponents are not 0, `flatten_scale` has a result; the result is
strictly increasing in the order of `scale_compare`, its scale atoms are
strictly increasing by value (so none occurs twice), and no pair has
exponent 0. -/
theorem declared_flatten_scale_canonical (T : U) (h : ScaleGood T) :
    ∃ l, flatten_scale T = some l ∧ StrictlyIncreasing scale_compare l ∧
      l.Pairwise (fun p q => p.1.value < q.1.value) ∧
      (l.map Prod.fst).Nodup ∧ NoZeroExponent l := by
  obtain ⟨l, hl, hsi, hmem⟩ := flatten_scale_canon T h
  have hval : l.Pairwise (fun p q => p.1.value < q.1.value) := by
    refine List.Pairwise.imp_of_mem ?_ hsi
    intro p q hp hq hpq
    have sp := (hmem p hp).1
    have sq := (hmem q hq).1
    cases hp1 : p.1 with
    | computed i v => rw [hp1] at sp; exact absurd sp (by simp [ReducedRatioScale])
    | ratio r =>
      cases hq1 : q.1 with
      | computed i v => rw [hq1] at sq; exact absurd sq (by simp [ReducedRatioScale])
      | ratio s =>
        rw [hp1] at sp hpq
        rw [hq1] at sq hpq
        exact (scale_compare_lt_iff r s sp.D_ne sq.D_ne).mp hpq
  refine ⟨l, hl, hsi, hval, ?_, fun p hp => (hmem p hp).2.2⟩
  rw [List.Nodup, List.pairwise_map]
  refine hval.imp ?_
  intro p q hpq e
  rw [e] at hpq
  exact lt_irrefl _ hpq

theorem declared_flatten_scale_canonical_witness :
    ScaleGood (.compound [(foot, ⟨1, 1⟩), (inch, ⟨1, 1⟩)]) ∧
    (∃ l, flatten_scale (.compound [(foot, ⟨1, 1⟩), (inch, ⟨1, 1⟩)]) = some l ∧
      StrictlyIncreasing scale_compare l ∧
      l.Pairwise (fun p q => p.1.value < q.1.value) ∧
      (l.map Prod.fst).Nodup ∧ NoZeroExponent l) ∧
    flatten_scale (.compound [(foot, ⟨1, 1⟩), (inch, ⟨1, 1⟩)]) =
      some [(.ratio ⟨1, 12⟩, ⟨1, 1⟩), (.ratio ⟨1, 3⟩, ⟨2, 1⟩), (.ratio ⟨1143, 1250⟩, ⟨2, 1⟩)] :=
  have h : ScaleGood (.compound [(foot, ⟨1, 1⟩), (inch, ⟨1, 1⟩)]) := by
    simp only [ScaleGood, ScaleGoodPack, foot, inch, yard, meter, length]
    refine ⟨⟨⟨trivial, ?_⟩, ?_⟩, ?_, ?_, ⟨⟨⟨trivial, ?_⟩, ?_⟩, ?_⟩, ?_, ?_, trivial⟩ <;> decide
  ⟨h, declared_flatten_scale_canonical _ h, by decide⟩

/-! ### The visitor as written -/

theorem visit_never_defined (T : U) : visit_defined T = false := by
  cases T <;> simp [visit_defined, U.visitor_members, visit_member]

theorem written_flatten_scale_none (T : U) : Written.flatten_scale T = none := by
  cases T <;> simp [Written.flatten_scale, visit_never_defined]

theorem written_dimension_check_none (T : U) : Written.dimension_check T = none := by
  cases T <;> simp [Written.dimension_check, visit_never_defined]

theorem written_has_same_dimension_none (T V : U) :
    Written.has_same_dimension T V = none := by
  unfold Written.has_same_dimension
  rw [written_dimension_check_none T]
  split_ifs <;> rfl

theorem written_conversion_factor_error (T V : U) :
    Written.conversion_factor T V = .error .other := by
  unfold Written.conversion_factor
  rw [written_dimension_check_none T]
  split_ifs <;> rfl

theorem written_requires_absolute_false (T : U) : Written.requires_absolute T = false := by
  cases T <;> simp [Written.requires_absolute, visit_never_defined]

theorem written_convert_none (From To : U) (x : ℚ) : Written.convert From To x = none := by
  unfold Written.convert
  rw [written_requires_absolute_false From]
  rfl

theorem written_mul_absolute_absolute (u : U) (o r : Ratio) :
    Written.mul_absolute (.absolute u o) r = none := by
  unfold Written.mul_absolute
  rw [if_neg (by decide)]
  rfl

theorem fourth_powers :
    ((mul nm nm).bind (fun a => mul a nm)).bind (fun a => mul a nm) = some nm_fourth ∧
    ((mul meter meter).bind (fun a => mul a meter)).bind (fun a => mul a meter) =
      some meter_fourth := by
  refine ⟨by decide, by decide⟩

theorem fourth_powers_ratioScaled : RatioScaled nm_fourth ∧ RatioScaled meter_fourth := by
  constructor <;>
    simp [nm_fourth, meter_fourth, nm, meter, length, RatioScaled, RatioScaledDims,
      U.isCompound, Ratio.den]

/-- C6: as written, `conversion_factor(inch, inch)` has no value, and neither
has `conversion_factor(T, T)` for any unit `T`: `dimension_check<T>` is
`visit<dimension_check_impl, T>`, and `visit` asks `T` for the member template
`_boost_units_apply2`, while the units declare `_boost_units2_apply`.  (With
the declared member in its place the call gives `std::ratio<1, 1>`.) -/
theorem C6_conversion_factor_self_has_no_value :
    visit_member ∉ inch.visitor_members ∧
    Written.dimension_check inch = none ∧
    Written.conversion_factor inch inch = .error .other ∧
    (∀ T : U, Written.conversion_factor T T = .error .other) ∧
    conversion_factor inch inch = .ok (.ratio ⟨1, 1⟩) := by
  refine ⟨by decide, written_dimension_check_none _, written_conversion_factor_error _ _,
    fun T => written_conversion_factor_error T T, by rfl⟩

/-- C7: as written, `conversion_factor(inch, centimeter)` and
`conversion_factor(centimeter, inch)` have no value, as no call of
`conversion_factor` has (`visit` asks for a member template that no unit
declares).  With the declared member in its place, `nm*nm*nm*nm` and
`meter*meter*meter*meter` have the same dimension, positive ratio scales and
integer exponents, and `conversion_factor` still has no value for them:
`safe_power(1000000000, 4)` divides by zero. -/
theorem C7_conversion_factor_has_no_value :
    Written.conversion_factor inch centimeter = .error .other ∧
    Written.conversion_factor centimeter inch = .error .other ∧
    (∀ T V : U, Written.conversion_factor T V = .error .other) ∧
    RatioScaled nm_fourth ∧ RatioScaled meter_fourth ∧
    has_same_dimension nm_fourth meter_fourth = some true ∧
    safe_power 1000000000 4 = none ∧
    conversion_factor nm_fourth meter_fourth = .error .other := by
  refine ⟨written_conversion_factor_error _ _, written_conversion_factor_error _ _,
    written_conversion_factor_error, fourth_powers_ratioScaled.1,
    fourth_powers_ratioScaled.2, by decide, by decide, by rfl⟩

/-- C8: as written, neither `conversion_factor(inch, centimeter)` nor
`conversion_factor(centimeter, inch)` has a value, so there is no product of
the two (`visit` asks for a member template that no unit declares).  With the
declared member in its place, `nm*nm*nm*nm` and `meter*meter*meter*meter`
have the same dimension and ratio scales, and `conversion_factor` has no value
in either direction. -/
theorem C8_conversion_factors_have_no_product :
    Written.conversion_factor inch centimeter = .error .other ∧
    Written.conversion_factor centimeter inch = .error .other ∧
    has_same_dimension nm_fourth meter_fourth = some true ∧
    has_same_dimension meter_fourth nm_fourth = some true ∧
    conversion_factor nm_fourth meter_fourth = .error .other ∧
    conversion_factor meter_fourth nm_fourth = .error .other := by
  refine ⟨written_conversion_factor_error _ _, written_conversion_factor_error _ _,
    by decide, by decide, by rfl, by rfl⟩

/-- C10: as written, `has_same_dimension(inch, centimeter)` has no value and
`conversion_factor(inch, centimeter)` is not accepted, although both units
have the dimension `length`; and `conversion_factor(meter, second)` is
rejected, but not by the "different dimensions" assertion (`visit` asks for a
member template that no unit declares).  With the declared member in its
place, `has_same_dimension` is true for `nm*nm*nm*nm` and
`meter*meter*meter*meter` and the conversion is still not accepted. -/
theorem C10_dimension_check_not_reached :
    Written.has_same_dimension inch centimeter = none ∧
    Written.conversion_factor inch centimeter = .error .other ∧
    Written.conversion_factor meter second = .error .other ∧
    Written.conversion_factor meter second ≠ .error .different_dimensions ∧
    (∀ T V : U, Written.has_same_dimension T V = none) ∧
    has_same_dimension inch centimeter = some true ∧
    has_same_dimension nm_fourth meter_fourth = some true ∧
    conversion_factor nm_fourth meter_fourth = .error .other := by
  refine ⟨written_has_same_dimension_none _ _, written_conversion_factor_error _ _,
    written_conversion_factor_error _ _, ?_, written_has_same_dimension_none,
    by decide, by decide, by rfl⟩
  rw [written_conversion_factor_error]
  intro h
  cases h

/-- C15: as written, `dimension_check<xmeter_t>` and `dimension_check<meter_t>`
are not types, `has_same_dimension(xmeter, meter)` has no value and
`conversion_factor(xmeter, meter)` is not accepted (`visit` asks for a member
template that no unit declares).  With the declared member in its place the
dimension of both is `length` and the factor is `std::ratio<1, 1>`. -/
theorem C15_dimension_of_definition_has_no_value :
    Written.dimension_check xmeter = none ∧
    Written.dimension_check meter = none ∧
    Written.has_same_dimension xmeter meter = none ∧
    Written.conversion_factor xmeter meter = .error .other ∧
    dimension_check xmeter = some length ∧ dimension_check meter = some length ∧
    has_same_dimension xmeter meter = some true ∧
    conversion_factor xmeter meter = .ok (.ratio ⟨1, 1⟩) := by
  refine ⟨written_dimension_check_none _, written_dimension_check_none _,
    written_has_same_dimension_none _ _, written_conversion_factor_error _ _,
    by decide, by decide, by decide, by rfl⟩

/-- C19: as written, `convert(celsius, celsius, x)` has no value for any `x`,
and neither has `convert(A, A, x)` for any unit `A`: the guard
`requires_absolute<From>` is `visit<requires_absolute_impl, From>`, and `visit`
asks for a member template that no unit declares, so no call of `convert` is
viable.  (With the declared member in its place the call gives `x`.) -/
theorem C19_convert_self_has_no_value :
    Written.requires_absolute celsius = false ∧
    (∀ x : ℚ, Written.convert celsius celsius x = none) ∧
    (∀ (A : U) (x : ℚ), Written.convert A A x = none) ∧
    (∀ x : ℚ, convert celsius celsius x = some x) := by
  refine ⟨written_requires_absolute_false _, fun x => written_convert_none _ _ x,
    fun A x => written_convert_none A A x, ?_⟩
  intro x
  unfold convert
  rw [show conversion_factor (unitdiff_t celsius) (unitdiff_t celsius) = .ok (.ratio ⟨1, 1⟩)
    from by rfl]
  simp [requires_absolute, celsius, Val.denote, Ratio.value]

/-- C20: as written, `convert(celsius, fahrenheit, x)` has no value for any
`x`, so there is nothing to convert back, and no call of `convert` has a
value: the guards `requires_absolute` go through `visit`, which asks for a
member template that no unit declares. -/
theorem C20_convert_round_trip_has_no_value :
    Written.requires_absolute celsius = false ∧
    Written.requires_absolute fahrenheit = false ∧
    (∀ x : ℚ, Written.convert celsius fahrenheit x = none) ∧
    (∀ x : ℚ, (Written.convert celsius fahrenheit x).bind
      (fun y => Written.convert fahrenheit celsius y) = none) ∧
    (∀ (A B : U) (x : ℚ), Written.convert A B x = none) := by
  refine ⟨written_requires_absolute_false _, written_requires_absolute_false _,
    fun x => written_convert_none _ _ x, ?_, written_convert_none⟩
  intro x
  rw [written_convert_none]
  rfl

/-- C21: as written, `celsius * std::ratio<5, 9>()` has no type, and neither
has the product of any absolute unit with a ratio: the return type of the
operator names `std::ratio_divides`, which `<ratio>` does not declare.  With
`std::ratio_divide` in its place, the absolute unit over
`scaled_unit<celsius, std::ratio<2>>` with offset `std::ratio<1>` times
`std::ratio<2>` is the absolute unit over `scaled_unit<celsius, std::ratio<4>>`
with offset `std::ratio<1, 2>`, whose `base_offset` is 1093.1 and not
273.65, the `base_offset` of the unit divided by 2: the operator divides the
offset by the scale, `base_offset` of a `scaled_unit` multiplies by it. -/
theorem C21_absolute_scaling_moves_zero_point :
    "ratio_divides" ∉ std_ratio_arithmetic ∧
    Written.mul_absolute celsius ⟨5, 9⟩ = none ∧
    (∀ (u : U) (o s : Ratio), Written.mul_absolute (.absolute u o) s = none) ∧
    mul_absolute (.absolute (.scaled celsius (.ratio ⟨2, 1⟩)) ⟨1, 1⟩) ⟨2, 1⟩ =
      some (.absolute (.scaled celsius (.ratio ⟨4, 1⟩)) ⟨1, 2⟩) ∧
    base_offset (.absolute (.scaled celsius (.ratio ⟨4, 1⟩)) ⟨1, 2⟩) = 10931 / 10 ∧
    base_offset (.absolute (.scaled celsius (.ratio ⟨2, 1⟩)) ⟨1, 1⟩) /
      (⟨2, 1⟩ : Ratio).value = 5473 / 20 := by
  refine ⟨by decide, written_mul_absolute_absolute _ _ _, written_mul_absolute_absolute,
    by decide, ?_, ?_⟩
  · simp only [base_offset, celsius, kelvin, si_kelvin, Scale.value, Ratio.value]
    norm_num
  · simp only [base_offset, celsius, kelvin, si_kelvin, Scale.value, Ratio.value]
    norm_num

/-- C30: as written, `dimension_check` has no value for `meter`, for `second`,
for their product or for any other unit, so neither side of the equation
exists: `dimension_check<T>` is `visit<dimension_check_impl, T>`, and `visit`
asks for a member template that no unit declares. -/
theorem C30_dimension_check_has_no_value :
    mul meter second = some (.compound [(meter, ⟨1, 1⟩), (second, ⟨1, 1⟩)]) ∧
    Written.dimension_check (.compound [(meter, ⟨1, 1⟩), (second, ⟨1, 1⟩)]) = none ∧
    Written.dimension_check meter = none ∧ Written.dimension_check second = none ∧
    (∀ T : U, Written.dimension_check T = none) := by
  refine ⟨by decide, written_dimension_check_none _, written_dimension_check_none _,
    written_dimension_check_none _, written_dimension_check_none⟩

/-- C31: as written, `flatten_scale` has no value for `inch * foot`, for
`centimeter` or for any other unit: `flatten_scale<T>` is
`visit<flatten_scale_impl, T>`, and `visit` asks for a member template that no
unit declares. -/
theorem C31_flatten_scale_has_no_value :
    mul inch foot = some (.compound [(foot, ⟨1, 1⟩), (inch, ⟨1, 1⟩)]) ∧
    Written.flatten_scale (.compound [(foot, ⟨1, 1⟩), (inch, ⟨1, 1⟩)]) = none ∧
    Written.flatten_scale centimeter = none ∧
    (∀ T : U, Written.flatten_scale T = none) := by
  refine ⟨by decide, written_flatten_scale_none _, written_flatten_scale_none _,
    written_flatten_scale_none⟩

/-- C33: as written, `conversion_factor(meter * meter, inch * foot)` has no
value (`visit` asks for a member template that no unit declares).  With the
declared member in its place the factor denotes `6250000 / 48387`, about
129.17, which differs from the number 32.80839895013123358 of the test by more
than 96. -/
theorem C33_composite_factor_has_no_value :
    mul meter meter = some (.compound [(meter, ⟨2, 1⟩)]) ∧
    mul inch foot = some (.compound [(foot, ⟨1, 1⟩), (inch, ⟨1, 1⟩)]) ∧
    Written.conversion_factor (.compound [(meter, ⟨2, 1⟩)])
      (.compound [(foot, ⟨1, 1⟩), (inch, ⟨1, 1⟩)]) = .error .other ∧
    (∃ v, conversion_factor (.compound [(meter, ⟨2, 1⟩)])
        (.compound [(foot, ⟨1, 1⟩), (inch, ⟨1, 1⟩)]) = .ok v ∧
      v.denote = some (6250000 / 48387)) ∧
    (96 : ℚ) < 6250000 / 48387 - 3280839895013123358 / 100000000000000000 := by
  refine ⟨composite_units.1, composite_units.2, written_conversion_factor_error _ _,
    ⟨_, conversion_factor_composite, composite_denote⟩, by norm_num⟩

end Units2
